import Mathlib

/-!
Shallow embedding of `snapcraft/file_utils.py`.

The filesystem is modelled as an association list from absolute paths (lists of
name components) to nodes.  A node is a regular file (with content, metadata and
a writability flag standing for the write-permission bit consulted by
`open(..., 'r+')` / `open(..., 'wb')`), a directory, or a symbolic link.

Conventions and simplifications, recorded once here:
* Symbolic-link targets are absolute paths; resolution of a chain of links is
  bounded by a fuel value carried in `Sys` (a run that exhausts fuel reports the
  artificial error `Err.fuelOut`, which no `except OSError` clause catches, so
  success hypotheses in the theorems rule it out).  Directory components of
  composed paths are looked up literally; the final component is resolved
  exactly where the Python code's OS calls resolve it (`os.path.exists`,
  `os.path.isdir`, `open`, `shutil.copy2`).
* Errors are modelled by `Err`; raising is modelled by returning
  `(some e, fs)` where `fs` is the state at the raise point, so mutations made
  before an exception persist exactly as in Python, and `try/except` blocks can
  continue from that state.
* Hard links are modelled by copying the node: the data of a hard link equals
  the data of its source, which is the only consequence of inode sharing the
  verified claims depend on.
* A file write bumps the node's `mtime` by one (a strictly monotone clock);
  `shutil.copystat` copies `mode` and `mtime`; `os.chown` rewrites `uid`/`gid`
  and may be denied, controlled by `Sys.chownOk` (the code suppresses exactly
  `PermissionError` there).  `os.link` failures such as cross-device links or
  permission problems are modelled by the oracle `Sys.linkFails`.
* The hash digest itself is modelled by an uninterpreted total function of the
  algorithm name and the content; the verified claims about `calculate_hash`
  concern only its error behaviour.
-/

namespace FileUtils

abbrev Path := List String

/-- `pfxB p q` is true when `p` is an initial segment of `q`. -/
def pfxB : Path → Path → Bool
  | [], _ => true
  | _ :: _, [] => false
  | a :: p, b :: q => a == b && pfxB p q

inductive Content
  | text (s : String)
  | binary (id : Nat)
deriving DecidableEq

structure Meta where
  uid : Nat
  gid : Nat
  mode : Nat
  mtime : Nat
deriving DecidableEq

inductive Node
  | file (c : Content) (m : Meta) (writable : Bool)
  | dir (m : Meta)
  | symlink (target : Path) (m : Meta)
deriving DecidableEq

abbrev FS := List (Path × Node)

def lookupFS : FS → Path → Option Node
  | [], _ => none
  | (q, n) :: rest, p => if q = p then some n else lookupFS rest p

def delNode (fs : FS) (p : Path) : FS :=
  fs.filter (fun e => decide (e.1 ≠ p))

def setNode (fs : FS) (p : Path) (n : Node) : FS :=
  (p, n) :: delNode fs p

/-- Errors; every constructor except `fuelOut` stands for an `OSError`. -/
inductive Err
  | fuelOut
  | noEnt
  | alreadyExists
  | notDir
  | isDir
  | permDenied
  | sameFile
deriving DecidableEq

/-- The result of a stateful operation: the raised error, if any, together with
the filesystem state at the point of return or raise. -/
abbrev R := Option Err × FS

/-- Sequencing: run the continuation unless an exception is propagating. -/
def andThen (r : R) (k : FS → R) : R :=
  match r with
  | (some e, fs) => (some e, fs)
  | (none, fs) => k fs

/-- Oracles of the surrounding system: symlink-resolution fuel, whether
`os.link` fails with an OS-level error (cross-device, permissions), and
whether `os.chown` is permitted. -/
structure Sys where
  fuel : Nat
  linkFails : Bool
  chownOk : Bool
deriving DecidableEq

/-- Resolve a chain of symbolic links (`os.path.realpath` on the final
component); a non-link resolves to itself without consuming fuel. -/
def resolvePath (fs : FS) : Nat → Path → Option Path
  | 0, p =>
    match lookupFS fs p with
    | some (Node.symlink _ _) => none
    | _ => some p
  | fuel + 1, p =>
    match lookupFS fs p with
    | some (Node.symlink t _) => resolvePath fs fuel t
    | _ => some p

def resolveNode (fs : FS) (fuel : Nat) (p : Path) : Option Node :=
  (resolvePath fs fuel p).bind (lookupFS fs)

/-- `os.path.exists`: follows symlinks; the root `[]` always exists. -/
def pathExistsB (fs : FS) (fuel : Nat) (p : Path) : Bool :=
  p.isEmpty || (resolveNode fs fuel p).isSome

/-- `os.path.isdir`: follows symlinks; the root `[]` is a directory. -/
def isDirB (fs : FS) (fuel : Nat) (p : Path) : Bool :=
  p.isEmpty ||
    (match resolveNode fs fuel p with
     | some (Node.dir _) => true
     | _ => false)

/-- `os.path.islink`: true only for a node that is itself a symlink. -/
def islinkB (fs : FS) (p : Path) : Bool :=
  match lookupFS fs p with
  | some (Node.symlink _ _) => true
  | _ => false

def nodeMeta : Node → Meta
  | Node.file _ m _ => m
  | Node.dir m => m
  | Node.symlink _ m => m

def withOwner : Node → Nat → Nat → Node
  | Node.file c m w, u, g => Node.file c ⟨u, g, m.mode, m.mtime⟩ w
  | Node.dir m, u, g => Node.dir ⟨u, g, m.mode, m.mtime⟩
  | Node.symlink t m, u, g => Node.symlink t ⟨u, g, m.mode, m.mtime⟩

def withModeTime : Node → Nat → Nat → Node
  | Node.file c m w, mo, mt => Node.file c ⟨m.uid, m.gid, mo, mt⟩ w
  | Node.dir m, mo, mt => Node.dir ⟨m.uid, m.gid, mo, mt⟩
  | Node.symlink t m, mo, mt => Node.symlink t ⟨m.uid, m.gid, mo, mt⟩

/-- Metadata of a directory freshly created by `os.mkdir` (owner is the
running process, mode from the umask). -/
def mkdirMeta : Meta := ⟨1000, 1000, 493, 0⟩

def procUid : Nat := 1000

def procGid : Nat := 1000

/-- One `os.mkdir(p)` with the `exist_ok` handling of `os.makedirs`:
a path that already resolves to a directory is accepted, any other existing
entry raises `FileExistsError`, a bad parent raises before that. -/
def mkdirExistOk (sys : Sys) (fs : FS) (p : Path) : R :=
  if p.isEmpty then (none, fs)
  else if !(isDirB fs sys.fuel p.dropLast) then (some Err.notDir, fs)
  else if isDirB fs sys.fuel p then (none, fs)
  else if (lookupFS fs p).isSome then (some Err.alreadyExists, fs)
  else (none, setNode fs p (Node.dir mkdirMeta))

/-- `os.makedirs(p, exist_ok=True)`: create the missing ancestors first.
The fuel is the path length, which bounds the recursion depth. -/
def makedirsGo (sys : Sys) : Nat → FS → Path → R
  | 0, fs, _ => (some Err.fuelOut, fs)
  | f + 1, fs, p =>
    if p.isEmpty then (none, fs)
    else
      andThen
        (if !(pathExistsB fs sys.fuel p.dropLast) then makedirsGo sys f fs p.dropLast
         else (none, fs))
        (fun fs1 => mkdirExistOk sys fs1 p)

def makedirs (sys : Sys) (fs : FS) (p : Path) : R :=
  makedirsGo sys (p.length + 1) fs p

/-- `os.chown(p, u, g, follow_symlinks=follow)`. -/
def chownOp (sys : Sys) (fs : FS) (p : Path) (u g : Nat) (follow : Bool) : R :=
  match (if follow then resolvePath fs sys.fuel p else some p) with
  | none => (some Err.fuelOut, fs)
  | some q =>
    match lookupFS fs q with
    | none => (some Err.noEnt, fs)
    | some n =>
      if sys.chownOk then (none, setNode fs q (withOwner n u g))
      else (some Err.permDenied, fs)

/-- `except PermissionError: log(...)`. -/
def suppressPerm (r : R) : R :=
  match r with
  | (some Err.permDenied, fs) => (none, fs)
  | r => r

/-- `shutil.copystat(src, dst, follow_symlinks=False)`: copy permission bits
and timestamps between the nodes themselves. -/
def copystatOp (fs : FS) (src dst : Path) : R :=
  match lookupFS fs src with
  | none => (some Err.noEnt, fs)
  | some ns =>
    match lookupFS fs dst with
    | none => (some Err.noEnt, fs)
    | some nd =>
      (none, setNode fs dst (withModeTime nd (nodeMeta ns).mode (nodeMeta ns).mtime))

/-- `create_similar_directory(source, destination)` (follow_symlinks=False,
as every caller leaves it): stat the source, `makedirs` the destination,
best-effort chown (PermissionError suppressed), then `copystat`. -/
def create_similar_directory (sys : Sys) (fs : FS) (src dst : Path) : R :=
  match lookupFS fs src with
  | none => (some Err.noEnt, fs)
  | some ns =>
    andThen (makedirs sys fs dst) (fun fs1 =>
      andThen (suppressPerm (chownOp sys fs1 dst (nodeMeta ns).uid (nodeMeta ns).gid false))
        (fun fs2 => copystatOp fs2 src dst))

/-- `os.link(src, dst, follow_symlinks=False)`: links the node itself; fails
if the system refuses (`Sys.linkFails`), if the source is missing or a
directory, if the destination's parent is not a directory, or if the
destination already exists. -/
def osLink (sys : Sys) (fs : FS) (src dst : Path) : R :=
  if sys.linkFails then (some Err.permDenied, fs)
  else
    match lookupFS fs src with
    | none => (some Err.noEnt, fs)
    | some (Node.dir _) => (some Err.permDenied, fs)
    | some n =>
      if !(isDirB fs sys.fuel dst.dropLast) then (some Err.notDir, fs)
      else if (lookupFS fs dst).isSome then (some Err.alreadyExists, fs)
      else (none, setNode fs dst n)

/-- `os.unlink(p)`: removes a file or symlink entry, never a directory. -/
def unlinkOp (fs : FS) (p : Path) : R :=
  match lookupFS fs p with
  | none => (some Err.noEnt, fs)
  | some (Node.dir _) => (some Err.isDir, fs)
  | some _ => (none, delNode fs p)

def lastComp (p : Path) : String := p.getLastD ""

/-- `shutil.copy2(src, dst, follow_symlinks=follow)`.  If `dst` is a
directory the copy goes to `dst/basename(src)`; copying onto the source
itself raises `SameFileError`; with `follow = false` a symlink source is
reproduced as a symlink; otherwise the (resolved) file content is copied and
`copystat` propagates mode and mtime.  Writing follows a symlink at the
target's final component, truncating the pointed-to file. -/
def copy2 (sys : Sys) (fs : FS) (src dst : Path) (follow : Bool) : R :=
  let t : Path := if isDirB fs sys.fuel dst then dst ++ [lastComp src] else dst
  if t = src then (some Err.sameFile, fs)
  else
    if !follow && islinkB fs src then
      match lookupFS fs src with
      | some (Node.symlink tgt m) =>
        if (lookupFS fs t).isSome then (some Err.alreadyExists, fs)
        else if !(isDirB fs sys.fuel t.dropLast) then (some Err.notDir, fs)
        else (none, setNode fs t (Node.symlink tgt ⟨procUid, procGid, m.mode, m.mtime⟩))
      | _ => (some Err.noEnt, fs)
    else
      match resolvePath fs sys.fuel src with
      | none => (some Err.fuelOut, fs)
      | some sp =>
        match lookupFS fs sp with
        | none => (some Err.noEnt, fs)
        | some (Node.dir _) => (some Err.isDir, fs)
        | some (Node.symlink _ _) => (some Err.noEnt, fs)
        | some (Node.file c m w) =>
          match resolvePath fs sys.fuel t with
          | none => (some Err.fuelOut, fs)
          | some tp =>
            match lookupFS fs tp with
            | some (Node.dir _) => (some Err.isDir, fs)
            | some (Node.symlink _ _) => (some Err.noEnt, fs)
            | some (Node.file _ m2 w2) =>
              if !w2 then (some Err.permDenied, fs)
              else (none, setNode fs tp (Node.file c ⟨m2.uid, m2.gid, m.mode, m.mtime⟩ w))
            | none =>
              if !(isDirB fs sys.fuel tp.dropLast) then (some Err.notDir, fs)
              else (none, setNode fs tp (Node.file c ⟨procUid, procGid, m.mode, m.mtime⟩ w))

/-- `link_or_copy(source, destination, follow_symlinks)`: resolve the source
when following, create the destination's parent when absent, attempt a hard
link; on any `OSError` remove the partial destination (suppressing errors),
copy content and metadata with `copy2`, and best-effort chown the
destination to the source's owner. -/
def link_or_copy (sys : Sys) (fs : FS) (source destination : Path) (follow : Bool) : R :=
  match (if follow then resolvePath fs sys.fuel source else some source) with
  | none => (some Err.fuelOut, fs)
  | some sourcePath =>
    let tryRes : R :=
      andThen
        (if !(pathExistsB fs sys.fuel destination.dropLast) then
          create_similar_directory sys fs sourcePath.dropLast destination.dropLast
         else (none, fs))
        (fun fs1 => osLink sys fs1 sourcePath destination)
    match tryRes with
    | (none, fs1) => (none, fs1)
    | (some e, fs1) =>
      if e = Err.fuelOut then (some e, fs1)
      else
        andThen (copy2 sys (unlinkOp fs1 destination).2 source destination follow) (fun fs3 =>
          match (if follow then resolvePath fs3 sys.fuel source else some source) with
          | none => (some Err.fuelOut, fs3)
          | some q =>
            match lookupFS fs3 q with
            | none => (some Err.noEnt, fs3)
            | some ns =>
              suppressPerm
                (chownOp sys fs3 destination (nodeMeta ns).uid (nodeMeta ns).gid follow))

/-- Name of `q` as a direct child of `p`, when it is one. -/
def childName (p q : Path) : Option String :=
  if q.length = p.length + 1 && pfxB p q then q.getLast? else none

/-- `os.scandir`: the names of the direct children of `p` present in the
filesystem, each once. -/
def childNames (fs : FS) (p : Path) : List String :=
  ((fs.map Prod.fst).filterMap (childName p)).dedup

/-- The walk loop of `link_or_copy_tree`, at the source subdirectory `rel`:
classify children the way `os.walk` does (`is_dir()` follows symlinks), clone
each real subdirectory, treat symlinked subdirectories as files, copy every
file with the strategy, then descend into real subdirectories only. -/
def walkGo (sys : Sys) (copyFn : FS → Path → Path → R) (srcT dstT : Path) :
    Nat → FS → Path → R
  | 0, fs, _ => (some Err.fuelOut, fs)
  | f + 1, fs, rel =>
    let names := childNames fs (srcT ++ rel)
    let dirNames := names.filter (fun a => isDirB fs sys.fuel (srcT ++ rel ++ [a]))
    let fileNames := names.filter (fun a => !(isDirB fs sys.fuel (srcT ++ rel ++ [a])))
    let dirStep : R × List String :=
      dirNames.foldl
        (fun acc a =>
          match acc with
          | ((some e, fsE), extra) => ((some e, fsE), extra)
          | ((none, fsC), extra) =>
            if islinkB fsC (srcT ++ rel ++ [a]) then ((none, fsC), extra ++ [a])
            else
              (create_similar_directory sys fsC (srcT ++ rel ++ [a]) (dstT ++ rel ++ [a]),
               extra))
        ((none, fs), [])
    andThen dirStep.1 (fun fs1 =>
      andThen
        ((fileNames ++ dirStep.2).foldl
          (fun r a => andThen r (fun fsC => copyFn fsC (srcT ++ rel ++ [a]) (dstT ++ rel ++ [a])))
          (none, fs1))
        (fun fs2 =>
          dirNames.foldl
            (fun r a =>
              andThen r (fun fsC =>
                if islinkB fsC (srcT ++ rel ++ [a]) then (none, fsC)
                else walkGo sys copyFn srcT dstT f fsC (rel ++ [a])))
            (none, fs2)))

/-- The default copy strategy of `link_or_copy_tree` is `link_or_copy` with
`follow_symlinks` left at `False`. -/
def defaultCopy (sys : Sys) : FS → Path → Path → R :=
  fun fs s d => link_or_copy sys fs s d false

/-- The body of the directory loop of the walk, as a named fold step. -/
def dirStepF (sys : Sys) (srcT dstT rel : Path)
    (acc : R × List String) (a : String) : R × List String :=
  match acc with
  | ((some e, fsE), extra) => ((some e, fsE), extra)
  | ((none, fsC), extra) =>
    if islinkB fsC (srcT ++ rel ++ [a]) then ((none, fsC), extra ++ [a])
    else
      (create_similar_directory sys fsC (srcT ++ rel ++ [a]) (dstT ++ rel ++ [a]),
       extra)

/-- The body of the file loop of the walk, as a named fold step. -/
def copyStepF (copyFn : FS → Path → Path → R) (srcT dstT rel : Path)
    (r : R) (a : String) : R :=
  andThen r (fun fsC => copyFn fsC (srcT ++ rel ++ [a]) (dstT ++ rel ++ [a]))

/-- The body of the recursion loop of the walk, as a named fold step. -/
def recStepF (sys : Sys) (copyFn : FS → Path → Path → R) (srcT dstT : Path)
    (f : Nat) (rel : Path) (r : R) (a : String) : R :=
  andThen r (fun fsC =>
    if islinkB fsC (srcT ++ rel ++ [a]) then (none, fsC)
    else walkGo sys copyFn srcT dstT f fsC (rel ++ [a]))

/-- `link_or_copy_tree(source_tree, destination_tree, copy_function)`.  The
two `NotADirectoryError` checks come before any mutation; then the root metadata
is cloned onto the destination tree and the walk runs. -/
def link_or_copy_tree (sys : Sys) (copyFn : FS → Path → Path → R) (fs : FS)
    (source_tree destination_tree : Path) : R :=
  if !(isDirB fs sys.fuel source_tree) then (some Err.notDir, fs)
  else if !(isDirB fs sys.fuel destination_tree) &&
      pathExistsB fs sys.fuel destination_tree then (some Err.notDir, fs)
  else
    andThen (create_similar_directory sys fs source_tree destination_tree) (fun fs1 =>
      walkGo sys copyFn source_tree destination_tree sys.fuel fs1 [])

/-- Bump the modification time: any rewrite of a file's bytes moves its mtime
strictly forward. -/
def tick (m : Meta) : Meta := ⟨m.uid, m.gid, m.mode, m.mtime + 1⟩

/-- `search_and_replace_contents(file_path, search_pattern, replacement)`;
the whole regex substitution `search_pattern.sub(replacement, ·)` is the
function argument `sub`.  `open(p, 'r+')` follows symlinks and needs write
permission; a `PermissionError` there is logged and swallowed, a binary file
(`UnicodeDecodeError`) is skipped, and the file is rewritten only when the
substituted content differs. -/
def search_and_replace_contents (sys : Sys) (fs : FS) (p : Path)
    (sub : String → String) : R :=
  match resolvePath fs sys.fuel p with
  | none => (some Err.fuelOut, fs)
  | some q =>
    match lookupFS fs q with
    | none => (some Err.noEnt, fs)
    | some (Node.dir _) => (some Err.isDir, fs)
    | some (Node.symlink _ _) => (some Err.noEnt, fs)
    | some (Node.file c m w) =>
      if !w then (none, fs)
      else
        match c with
        | Content.binary _ => (none, fs)
        | Content.text s =>
          if sub s = s then (none, fs)
          else (none, setNode fs q (Node.file (Content.text (sub s)) (tick m) w))

/-- The walk of `replace_in_file`: for every name in the file list matching
the file pattern, rewrite it unless the entry is itself a symlink; then
descend into real subdirectories. -/
def replWalkGo (sys : Sys) (directory : Path) (filePat : String → Bool)
    (sub : String → String) : Nat → FS → Path → R
  | 0, fs, _ => (some Err.fuelOut, fs)
  | f + 1, fs, rel =>
    let names := childNames fs (directory ++ rel)
    let dirNames := names.filter (fun a => isDirB fs sys.fuel (directory ++ rel ++ [a]))
    let fileNames := names.filter (fun a => !(isDirB fs sys.fuel (directory ++ rel ++ [a])))
    andThen
      (fileNames.foldl
        (fun r a =>
          andThen r (fun fsC =>
            if filePat a && !(islinkB fsC (directory ++ rel ++ [a])) then
              search_and_replace_contents sys fsC (directory ++ rel ++ [a]) sub
            else (none, fsC)))
        (none, fs))
      (fun fs1 =>
        dirNames.foldl
          (fun r a =>
            andThen r (fun fsC =>
              if islinkB fsC (directory ++ rel ++ [a]) then (none, fsC)
              else replWalkGo sys directory filePat sub f fsC (rel ++ [a])))
          (none, fs1))

/-- `replace_in_file(directory, file_pattern, search_pattern, replacement)`. -/
def replace_in_file (sys : Sys) (fs : FS) (directory : Path)
    (filePat : String → Bool) (sub : String → String) : R :=
  replWalkGo sys directory filePat sub sys.fuel fs []

/-- The attribute names `hashlib` exposes as constructors. -/
def hashlibAlgorithms : List String :=
  ["md5", "sha1", "sha224", "sha256", "sha384", "sha512",
   "sha3_224", "sha3_256", "sha3_384", "sha3_512", "blake2b", "blake2s"]

inductive HashErr
  | unsupportedAlgorithm
  | ioFailure
deriving DecidableEq

/-- The digest is an uninterpreted function of the algorithm and content. -/
def digestModel (algorithm : String) (c : Content) : String :=
  algorithm ++ "-" ++ (match c with
    | Content.text s => s
    | Content.binary n => toString n)

/-- `calculate_hash(path, algorithm=...)`: `getattr(hashlib, algorithm)` is
evaluated first (an unrecognized name raises before the file is touched);
then the file is opened for binary read and digested. -/
def calculate_hash (sys : Sys) (fs : FS) (path : Path) (algorithm : String) :
    Except HashErr String :=
  if algorithm ∈ hashlibAlgorithms then
    match resolveNode fs sys.fuel path with
    | some (Node.file c _ _) => Except.ok (digestModel algorithm c)
    | _ => Except.error HashErr.ioFailure
  else Except.error HashErr.unsupportedAlgorithm

def calculate_sha3_384 (sys : Sys) (fs : FS) (path : Path) : Except HashErr String :=
  calculate_hash sys fs path "sha3_384"

/-- A Python value passed as `command`: a string or something else. -/
inductive PyVal
  | str (s : String)
  | nonStr (tag : Nat)
deriving DecidableEq

/-- Outcome of executing a non-empty argument vector. -/
inductive CallOutcome
  | ok
  | notFound
  | failed (code : Nat)
deriving DecidableEq

/-- Failures of the `requires_command_success` guard.  `indexError` is the
untyped `IndexError` that `subprocess.Popen` raises on an empty argument
list, before any executable lookup. -/
inductive GuardErr
  | typeError
  | requiredCommandNotFound (command : String) (cmdList : List String) (fmt : Option String)
  | requiredCommandFailure (command : String) (cmdList : List String) (fmt : Option String)
  | indexError
deriving DecidableEq

/-- `str.split()` with no separator: split on whitespace runs, drop empties. -/
def pySplitGo : List Char → List Char → List String
  | [], acc => if acc.isEmpty then [] else [acc.reverse.asString]
  | c :: cs, acc =>
    if c.isWhitespace then
      (if acc.isEmpty then pySplitGo cs [] else acc.reverse.asString :: pySplitGo cs [])
    else pySplitGo cs (c :: acc)

def pySplit (s : String) : List String := pySplitGo s.toList []

/-- `requires_command_success(command, not_found_fmt, failure_fmt)`: reject a
non-string command with `TypeError`, split it, run it via
`subprocess.check_call` (whose outcome is the oracle `run`), map
`FileNotFoundError` and `CalledProcessError` to the two typed failures, and
yield into the guarded region (`Except.ok ()`) exactly once otherwise. -/
def requires_command_success (run : List String → CallOutcome) (command : PyVal)
    (notFoundFmt failureFmt : Option String) : Except GuardErr Unit :=
  match command with
  | PyVal.nonStr _ => Except.error GuardErr.typeError
  | PyVal.str s =>
    let cmdList := pySplit s
    match cmdList with
    | [] => Except.error GuardErr.indexError
    | _ :: _ =>
      match run cmdList with
      | CallOutcome.ok => Except.ok ()
      | CallOutcome.notFound =>
        Except.error (GuardErr.requiredCommandNotFound s cmdList notFoundFmt)
      | CallOutcome.failed _ =>
        Except.error (GuardErr.requiredCommandFailure s cmdList failureFmt)

/-- `pfxC pat s`: `pat` is an initial segment of `s` (character lists). -/
def pfxC : List Char → List Char → Bool
  | [], _ => true
  | _ :: _, [] => false
  | a :: p, b :: q => a == b && pfxC p q

/-- Left-to-right, non-overlapping replacement of every occurrence of the
literal pattern `pat` by `rep`: the effect of `re.sub(re.escape(pat), rep, ·)`
for a non-empty literal pattern.  The fuel is the string length. -/
def subLitGo (pat rep : List Char) : Nat → List Char → List Char
  | 0, s => s
  | f + 1, s =>
    match s with
    | [] => []
    | c :: cs =>
      if pfxC pat s && !pat.isEmpty then rep ++ subLitGo pat rep f (s.drop pat.length)
      else c :: subLitGo pat rep f cs

/-- String version of `subLitGo`: a concrete realizable regex substitution. -/
def subLit (pat rep s : String) : String :=
  (subLitGo pat.toList rep.toList s.toList.length s.toList).asString

/-- Observable data of a node: file content, link target, or directory. -/
inductive NData
  | fileD (c : Content)
  | linkD (t : Path)
  | dirD
deriving DecidableEq

def nodeData : Node → NData
  | Node.file c _ _ => NData.fileD c
  | Node.dir _ => NData.dirD
  | Node.symlink t _ => NData.linkD t

/-- A real (non-symlink) directory sits at `p`. -/
def RealDirAt (fs : FS) (p : Path) : Prop :=
  ∃ m, lookupFS fs p = some (Node.dir m)

/-- A directory node (of any kind) sits at `p`. -/
def DirNodeAt (fs : FS) (p : Path) : Prop :=
  ∃ m, lookupFS fs p = some (Node.dir m)

/-- `rel` is a path the tree walk can possibly visit below `srcT`: nonempty,
present in the source, and with every strictly shorter nonempty initial
segment a real directory of the source. -/
def Visitable (fs : FS) (srcT : Path) (rel : Path) : Prop :=
  rel ≠ [] ∧ (lookupFS fs (srcT ++ rel)).isSome = true ∧
    ∀ s, pfxB s rel = true → s ≠ [] → s ≠ rel → RealDirAt fs (srcT ++ s)

/-- Frame relation for the `replace_in_file` walk over `directory`:
nothing outside the directory changes, and every symlink entry survives
unchanged. -/
def ReplFrame (directory : Path) (fs fs' : FS) : Prop :=
  (∀ q, pfxB directory q = false → lookupFS fs' q = lookupFS fs q) ∧
  (∀ s tgt m, lookupFS fs s = some (Node.symlink tgt m) →
    lookupFS fs' s = some (Node.symlink tgt m))

/-- Change bound for `create_similar_directory` aimed at `d` (and for its
constituent steps): every lookup is unchanged, or a previously missing path
inside `d` became a directory, or `d` itself kept its non-file node kind
while its metadata changed. -/
def CsdRel (d : Path) (fs fs' : FS) : Prop :=
  ∀ q,
    lookupFS fs' q = lookupFS fs q ∨
    (lookupFS fs q = none ∧ pfxB q d = true ∧
      ∃ m, lookupFS fs' q = some (Node.dir m)) ∨
    (q = d ∧ ∃ n n', lookupFS fs d = some n ∧ (∀ c mm w, n ≠ Node.file c mm w) ∧
      lookupFS fs' q = some n' ∧ nodeData n' = nodeData n ∧
      (∀ c mm w, n' ≠ Node.file c mm w))

/-- `p` resolves to a regular file that a binary read can open. -/
def readableFileB (fs : FS) (fuel : Nat) (p : Path) : Bool :=
  match resolveNode fs fuel p with
  | some (Node.file _ _ _) => true
  | _ => false

/-- Invariant carried by the tree-copy walk, relating the evolving state
`fsi` to the state `fs0` the walk started from: the source subtree is
untouched, and any real directory strictly inside the destination tree was
either already there or is the image of a visitable real source directory. -/
def WalkInv (srcT dstT : Path) (fs0 fsi : FS) : Prop :=
  (∀ a : Path, lookupFS fsi (srcT ++ a) = lookupFS fs0 (srcT ++ a)) ∧
  (∀ p mm, p ≠ [] → lookupFS fsi (dstT ++ p) = some (Node.dir mm) →
    (∃ m0, lookupFS fs0 (dstT ++ p) = some (Node.dir m0)) ∨
    (Visitable fs0 srcT p ∧ RealDirAt fs0 (srcT ++ p)))

/-- `q` lies outside everything the walk rooted at `rel` may write: it is not
a prefix of the destination image of the root or of any visitable relative
path below the root. -/
def UnTouched (fs0 : FS) (srcT dstT rel q : Path) : Prop :=
  ∀ r', pfxB rel r' = true → (r' = rel ∨ Visitable fs0 srcT r') →
    pfxB q (dstT ++ r') = false

/-- Conditional step relation folded along the walk: assuming the invariant
at the start state, it holds at the end state and every untouched path reads
the same. -/
def StepRel (srcT dstT : Path) (fs0 : FS) (rel : Path) (fsA fsB : FS) : Prop :=
  WalkInv srcT dstT fs0 fsA →
    WalkInv srcT dstT fs0 fsB ∧
    ∀ q, UnTouched fs0 srcT dstT rel q → lookupFS fsB q = lookupFS fsA q

/-- Pointwise survival relation folded along the walk: assuming the invariant
at the start state, it holds at the end state and the distinguished path `q0`
reads the same. -/
def SurvRel (srcT dstT : Path) (fs0 : FS) (q0 : Path) (fsA fsB : FS) : Prop :=
  WalkInv srcT dstT fs0 fsA →
    WalkInv srcT dstT fs0 fsB ∧ lookupFS fsB q0 = lookupFS fsA q0

/-- Concrete fixtures used by witnesses and counterexamples. -/
def wSys : Sys := ⟨4, false, true⟩

def wRun : List String → CallOutcome :=
  fun l =>
    if l = ["true"] then CallOutcome.ok
    else if l = ["false"] then CallOutcome.failed 1
    else CallOutcome.notFound

def wSysLF : Sys := ⟨4, true, true⟩

def wMeta : Meta := ⟨1, 1, 420, 10⟩

def cexFS1 : FS :=
  [(["s"], Node.file (Content.text "hello") wMeta true), (["d"], Node.dir wMeta)]

def cexFS3 : FS :=
  [(["s"], Node.dir wMeta), (["s", "a"], Node.file (Content.text "X") wMeta true),
   (["d"], Node.dir wMeta), (["d", "a"], Node.dir wMeta),
   (["d", "a", "a"], Node.file (Content.text "Y") wMeta true)]

def cexFS5 : FS := [(["f"], Node.file (Content.text "a") wMeta true)]

def wFS6 : FS := [(["b"], Node.file (Content.binary 7) wMeta true)]

def wFS7 : FS :=
  [(["t"], Node.dir wMeta), (["t", "f"], Node.file (Content.text "x") wMeta true),
   (["out"], Node.file (Content.text "keep") wMeta true),
   (["t", "l"], Node.symlink ["out"] wMeta)]

def wFS4 : FS :=
  [(["s"], Node.dir wMeta), (["t"], Node.dir wMeta),
   (["t", "x"], Node.file (Content.text "T") wMeta true),
   (["s", "l"], Node.symlink ["t"] wMeta), (["d"], Node.dir wMeta)]

def wFS3 : FS :=
  [(["s"], Node.dir wMeta), (["s", "a"], Node.file (Content.text "X") wMeta true),
   (["d"], Node.dir wMeta), (["d", "b"], Node.file (Content.text "Y") wMeta true)]

def wFS1 : FS := [(["a"], Node.file (Content.text "hi") wMeta true)]

/-! ### Basic lemmas about the association-list filesystem -/

theorem delNode_cons (a : Path) (n : Node) (rest : FS) (p : Path) :
    delNode ((a, n) :: rest) p =
      if a = p then delNode rest p else (a, n) :: delNode rest p := by
  by_cases h : a = p <;> simp [delNode, List.filter_cons, h]

theorem lookupFS_del (fs : FS) (p q : Path) :
    lookupFS (delNode fs p) q = if q = p then none else lookupFS fs q := by
  induction fs with
  | nil => simp [delNode, lookupFS]
  | cons e rest ih =>
    obtain ⟨a, n⟩ := e
    rw [delNode_cons]
    by_cases hap : a = p
    · subst hap
      rw [if_pos rfl, ih]
      by_cases hq : q = a
      · simp [hq]
      · rw [if_neg hq, if_neg hq]
        simp only [lookupFS, if_neg (fun hh : a = q => hq hh.symm)]
    · rw [if_neg hap]
      simp only [lookupFS]
      by_cases haq : a = q
      · rw [if_pos haq, if_neg (fun hh : q = p => hap (haq.trans hh)), if_pos haq]
      · rw [if_neg haq, if_neg haq, ih]

theorem lookupFS_set (fs : FS) (p q : Path) (n : Node) :
    lookupFS (setNode fs p n) q = if q = p then some n else lookupFS fs q := by
  by_cases h : q = p
  · subst h; simp [setNode, lookupFS, lookupFS_del]
  · simp only [setNode, lookupFS, if_neg (fun hh : p = q => h hh.symm), lookupFS_del,
      if_neg h]

theorem lookupFS_set_self (fs : FS) (p : Path) (n : Node) :
    lookupFS (setNode fs p n) p = some n := by simp [lookupFS_set]

theorem lookupFS_set_ne (fs : FS) (p q : Path) (n : Node) (h : q ≠ p) :
    lookupFS (setNode fs p n) q = lookupFS fs q := by simp [lookupFS_set, h]

theorem lookupFS_del_ne (fs : FS) (p q : Path) (h : q ≠ p) :
    lookupFS (delNode fs p) q = lookupFS fs q := by simp [lookupFS_del, h]

/-- A non-symlink node resolves to its own path regardless of fuel. -/
theorem resolvePath_nonlink (fs : FS) (fuel : Nat) (p : Path) (n : Node)
    (hn : lookupFS fs p = some n) (hns : ∀ t m, n ≠ Node.symlink t m) :
    resolvePath fs fuel p = some p := by
  cases fuel with
  | zero =>
    simp only [resolvePath, hn]
    cases n with
    | file c m w => rfl
    | dir m => rfl
    | symlink t m => exact absurd rfl (hns t m)
  | succ f =>
    simp only [resolvePath, hn]
    cases n with
    | file c m w => rfl
    | dir m => rfl
    | symlink t m => exact absurd rfl (hns t m)

/-- A missing path resolves to itself. -/
theorem resolvePath_none (fs : FS) (fuel : Nat) (p : Path)
    (hn : lookupFS fs p = none) : resolvePath fs fuel p = some p := by
  cases fuel with
  | zero => simp [resolvePath, hn]
  | succ f => simp [resolvePath, hn]

/-- Updating a path with a non-symlink node, over a non-symlink (or absent)
old node, does not change any resolution. -/
theorem resolvePath_set_nonlink (fs : FS) (q : Path) (n' : Node)
    (hOld : ∀ t m, lookupFS fs q ≠ some (Node.symlink t m))
    (hNew : ∀ t m, n' ≠ Node.symlink t m) :
    ∀ fuel p, resolvePath (setNode fs q n') fuel p = resolvePath fs fuel p := by
  intro fuel
  induction fuel with
  | zero =>
    intro p
    by_cases hpq : p = q
    · subst hpq
      simp only [resolvePath, lookupFS_set_self]
      cases hl : lookupFS fs p with
      | none => cases n' with
        | file c m w => rfl
        | dir m => rfl
        | symlink t m => exact absurd rfl (hNew t m)
      | some nn =>
        cases n' with
        | file c m w =>
          cases nn with
          | file _ _ _ => rfl
          | dir _ => rfl
          | symlink t m => exact absurd hl (hOld t m)
        | dir m =>
          cases nn with
          | file _ _ _ => rfl
          | dir _ => rfl
          | symlink t m => exact absurd hl (hOld t m)
        | symlink t m => exact absurd rfl (hNew t m)
    · simp only [resolvePath, lookupFS_set_ne fs q p n' hpq]
  | succ f ih =>
    intro p
    by_cases hpq : p = q
    · subst hpq
      simp only [resolvePath, lookupFS_set_self]
      cases hl : lookupFS fs p with
      | none => cases n' with
        | file c m w => rfl
        | dir m => rfl
        | symlink t m => exact absurd rfl (hNew t m)
      | some nn =>
        cases n' with
        | file c m w =>
          cases nn with
          | file _ _ _ => rfl
          | dir _ => rfl
          | symlink t m => exact absurd hl (hOld t m)
        | dir m =>
          cases nn with
          | file _ _ _ => rfl
          | dir _ => rfl
          | symlink t m => exact absurd hl (hOld t m)
        | symlink t m => exact absurd rfl (hNew t m)
    · simp only [resolvePath, lookupFS_set_ne fs q p n' hpq]
      cases lookupFS fs p with
      | none => rfl
      | some nn =>
        cases nn with
        | file _ _ _ => rfl
        | dir _ => rfl
        | symlink t m => exact ih t

/-! ### C2: the NotADirectory checks of `link_or_copy_tree` -/

/-- C2: `link_or_copy_tree` fails with `NotADirectoryError` when the source
tree is not a directory, and when the destination tree exists and is not a
directory; in both cases the returned state is the unmodified input
filesystem, i.e. the error is raised before any mutation.  This holds for an
arbitrary copy strategy, since the checks run first. -/
theorem link_or_copy_tree_notdir_checks (sys : Sys) (copyFn : FS → Path → Path → R)
    (fs : FS) (srcT dstT : Path) :
    (isDirB fs sys.fuel srcT = false →
      link_or_copy_tree sys copyFn fs srcT dstT = (some Err.notDir, fs)) ∧
    (pathExistsB fs sys.fuel dstT = true → isDirB fs sys.fuel dstT = false →
      link_or_copy_tree sys copyFn fs srcT dstT = (some Err.notDir, fs)) := by
  constructor
  · intro h
    simp [link_or_copy_tree, h]
  · intro h1 h2
    by_cases hs : isDirB fs sys.fuel srcT = true
    · simp [link_or_copy_tree, hs, h1, h2]
    · rw [Bool.not_eq_true] at hs
      simp [link_or_copy_tree, hs]

/-- Witness for C2 at concrete inputs: a file as source tree, and a file as
existing destination tree. -/
theorem link_or_copy_tree_notdir_checks_witness :
    link_or_copy_tree wSys (defaultCopy wSys) cexFS3 ["s", "a"] ["z"] =
      (some Err.notDir, cexFS3) ∧
    link_or_copy_tree wSys (defaultCopy wSys) cexFS3 ["s"] ["s", "a"] =
      (some Err.notDir, cexFS3) :=
  ⟨(link_or_copy_tree_notdir_checks wSys (defaultCopy wSys) cexFS3 ["s", "a"] ["z"]).1
      (by decide),
   (link_or_copy_tree_notdir_checks wSys (defaultCopy wSys) cexFS3 ["s"] ["s", "a"]).2
      (by decide) (by decide)⟩

/-! ### C5: idempotence of `search_and_replace_contents` -/

/-- C5 counterexample: with the literal pattern `a` and replacement `aa`
(the regex substitution `subLit "a" "aa"`) on a file containing `a`, both
applications succeed but the second changes the file again, so applying the
substitution twice does not equal applying it once. -/
theorem search_and_replace_idem_counterexample :
    (search_and_replace_contents wSys cexFS5 ["f"] (subLit "a" "aa")).1 = none ∧
    (search_and_replace_contents wSys
        (search_and_replace_contents wSys cexFS5 ["f"] (subLit "a" "aa")).2 ["f"]
        (subLit "a" "aa")).1 = none ∧
    lookupFS (search_and_replace_contents wSys
        (search_and_replace_contents wSys cexFS5 ["f"] (subLit "a" "aa")).2 ["f"]
        (subLit "a" "aa")).2 ["f"] ≠
      lookupFS (search_and_replace_contents wSys cexFS5 ["f"] (subLit "a" "aa")).2
        ["f"] := by
  decide

/-- C5 (amended): when the substitution is idempotent as a string function —
in particular whenever the replacement introduces no new matches — applying
`search_and_replace_contents` twice leaves exactly the state after one
application: same content, no second write, and unchanged mtime. -/
theorem search_and_replace_idem (sys : Sys) (fs : FS) (p : Path)
    (sub : String → String) (hidem : ∀ s, sub (sub s) = sub s) :
    (search_and_replace_contents sys (search_and_replace_contents sys fs p sub).2 p
        sub).2 = (search_and_replace_contents sys fs p sub).2 := by
  cases hr : resolvePath fs sys.fuel p with
  | none => simp [search_and_replace_contents, hr]
  | some q =>
    cases hq : lookupFS fs q with
    | none => simp [search_and_replace_contents, hr, hq]
    | some n =>
      cases n with
      | dir m => simp [search_and_replace_contents, hr, hq]
      | symlink t m => simp [search_and_replace_contents, hr, hq]
      | file c m w =>
        cases w with
        | false => simp [search_and_replace_contents, hr, hq]
        | true =>
          cases c with
          | binary b => simp [search_and_replace_contents, hr, hq]
          | text s =>
            by_cases hchg : sub s = s
            · simp [search_and_replace_contents, hr, hq, hchg]
            · have hinner : search_and_replace_contents sys fs p sub =
                  (none, setNode fs q (Node.file (Content.text (sub s)) (tick m) true)) := by
                simp [search_and_replace_contents, hr, hq, hchg]
              rw [hinner]
              have hOld : ∀ t mm, lookupFS fs q ≠ some (Node.symlink t mm) := by
                intro t mm hcon
                rw [hq] at hcon
                cases hcon
              have hres1 : resolvePath
                  (setNode fs q (Node.file (Content.text (sub s)) (tick m) true))
                  sys.fuel p = some q := by
                rw [resolvePath_set_nonlink fs q _ hOld
                  (by intro t mm hcon; cases hcon) sys.fuel p, hr]
              have hq1 : lookupFS
                  (setNode fs q (Node.file (Content.text (sub s)) (tick m) true)) q =
                  some (Node.file (Content.text (sub s)) (tick m) true) :=
                lookupFS_set_self fs q _
              simp [search_and_replace_contents, hres1, hq1, hidem s]

/-- Witness for C5 (amended) with the identity substitution. -/
theorem search_and_replace_idem_witness :
    (search_and_replace_contents wSys
        (search_and_replace_contents wSys cexFS5 ["f"] (fun s => s)).2 ["f"]
        (fun s => s)).2 =
      (search_and_replace_contents wSys cexFS5 ["f"] (fun s => s)).2 :=
  search_and_replace_idem wSys cexFS5 ["f"] (fun s => s) (fun _ => rfl)

/-! ### C6: graceful degradation of `search_and_replace_contents` -/

/-- C6: on a binary (undecodable) file the rewrite returns normally with the
filesystem untouched, and on a file whose opening for write is denied it
logs and returns normally with the filesystem untouched; neither case raises. -/
theorem search_and_replace_degrades (sys : Sys) (fs : FS) (p : Path)
    (sub : String → String) (c : Content) (m : Meta) (w : Bool)
    (hfile : lookupFS fs p = some (Node.file c m w))
    (hskip : (∃ b, c = Content.binary b) ∨ w = false) :
    search_and_replace_contents sys fs p sub = (none, fs) := by
  have hres : resolvePath fs sys.fuel p = some p :=
    resolvePath_nonlink fs sys.fuel p _ hfile (by intro t mm hcon; cases hcon)
  rcases hskip with ⟨b, hb⟩ | hw
  · subst hb
    cases w <;> simp [search_and_replace_contents, hres, hfile]
  · subst hw
    simp [search_and_replace_contents, hres, hfile]

/-- Witness for C6: a binary file, and an unwritable text file. -/
theorem search_and_replace_degrades_witness :
    search_and_replace_contents wSys wFS6 ["b"] (subLit "a" "b") = (none, wFS6) ∧
    search_and_replace_contents wSys
        [(["u"], Node.file (Content.text "x") wMeta false)] ["u"] (subLit "a" "b") =
      (none, [(["u"], Node.file (Content.text "x") wMeta false)]) :=
  ⟨search_and_replace_degrades wSys wFS6 ["b"] (subLit "a" "b") (Content.binary 7)
      wMeta true rfl (Or.inl ⟨7, rfl⟩),
   search_and_replace_degrades wSys _ ["u"] (subLit "a" "b") (Content.text "x")
      wMeta false rfl (Or.inr rfl)⟩

/-! ### C8: error behaviour of `calculate_hash` -/

/-- C8: an unrecognized algorithm name fails with `UnsupportedAlgorithm`
(before the file is touched), and with a recognized algorithm a path that
does not resolve to a readable regular file fails with `IOFailure`. -/
theorem calculate_hash_errors (sys : Sys) (fs : FS) (path : Path) (algorithm : String) :
    (algorithm ∉ hashlibAlgorithms →
      calculate_hash sys fs path algorithm =
        Except.error HashErr.unsupportedAlgorithm) ∧
    (algorithm ∈ hashlibAlgorithms → readableFileB fs sys.fuel path = false →
      calculate_hash sys fs path algorithm = Except.error HashErr.ioFailure) := by
  constructor
  · intro h
    simp [calculate_hash, h]
  · intro h1 h2
    simp only [calculate_hash, if_pos h1]
    simp only [readableFileB] at h2
    cases hres : resolveNode fs sys.fuel path with
    | none => rfl
    | some n =>
      cases n with
      | file c m w => rw [hres] at h2; cases h2
      | dir m => rfl
      | symlink t m => rfl

/-- Witness for C8: an unknown algorithm name, and a missing file with a
known algorithm. -/
theorem calculate_hash_errors_witness :
    calculate_hash wSys wFS6 ["b"] "nope" = Except.error HashErr.unsupportedAlgorithm ∧
    calculate_hash wSys wFS6 ["missing"] "md5" = Except.error HashErr.ioFailure :=
  ⟨(calculate_hash_errors wSys wFS6 ["b"] "nope").1 (by decide),
   (calculate_hash_errors wSys wFS6 ["missing"] "md5").2 (by decide) (by decide)⟩

/-! ### C9, C10: the `requires_command_success` guard -/

/-- C9: a non-string command is rejected with the `TypeError`-class failure;
a string command whose executable cannot be located raises
`RequiredCommandNotFound`, one that runs and exits non-zero raises
`RequiredCommandFailure` (both carrying the command and its split argument
list), and otherwise control proceeds into the guarded region exactly once. -/
theorem requires_command_success_spec (run : List String → CallOutcome)
    (nf ff : Option String) :
    (∀ tag, requires_command_success run (PyVal.nonStr tag) nf ff =
        Except.error GuardErr.typeError) ∧
    (∀ s, pySplit s ≠ [] → run (pySplit s) = CallOutcome.notFound →
      requires_command_success run (PyVal.str s) nf ff =
        Except.error (GuardErr.requiredCommandNotFound s (pySplit s) nf)) ∧
    (∀ s code, pySplit s ≠ [] → run (pySplit s) = CallOutcome.failed code →
      requires_command_success run (PyVal.str s) nf ff =
        Except.error (GuardErr.requiredCommandFailure s (pySplit s) ff)) ∧
    (∀ s, pySplit s ≠ [] → run (pySplit s) = CallOutcome.ok →
      requires_command_success run (PyVal.str s) nf ff = Except.ok ()) := by
  refine ⟨fun tag => rfl, ?_, ?_, ?_⟩
  · intro s hne hrun
    cases hsp : pySplit s with
    | nil => exact absurd hsp hne
    | cons a l =>
      rw [hsp] at hrun
      simp [requires_command_success, hsp, hrun]
  · intro s code hne hrun
    cases hsp : pySplit s with
    | nil => exact absurd hsp hne
    | cons a l =>
      rw [hsp] at hrun
      simp [requires_command_success, hsp, hrun]
  · intro s hne hrun
    cases hsp : pySplit s with
    | nil => exact absurd hsp hne
    | cons a l =>
      rw [hsp] at hrun
      simp [requires_command_success, hsp, hrun]

/-- Witness for C9 at the spec's own examples. -/
theorem requires_command_success_spec_witness :
    requires_command_success wRun (PyVal.nonStr 0) none none =
      Except.error GuardErr.typeError ∧
    requires_command_success wRun (PyVal.str "nonexistent-binary-xyz") none none =
      Except.error (GuardErr.requiredCommandNotFound "nonexistent-binary-xyz"
        (pySplit "nonexistent-binary-xyz") none) ∧
    requires_command_success wRun (PyVal.str "false") none none =
      Except.error (GuardErr.requiredCommandFailure "false" (pySplit "false") none) ∧
    requires_command_success wRun (PyVal.str "true") none none = Except.ok () :=
  ⟨(requires_command_success_spec wRun none none).1 0,
   (requires_command_success_spec wRun none none).2.1 "nonexistent-binary-xyz"
      (by decide) (by decide),
   (requires_command_success_spec wRun none none).2.2.1 "false" 1 (by decide) (by decide),
   (requires_command_success_spec wRun none none).2.2.2 "true" (by decide) (by decide)⟩

/-- C10: a command that splits to the empty argument list (the empty or
whitespace-only string) makes the guard fail with the untyped `IndexError`
of `subprocess.Popen`, which is none of the guard's documented typed
failures. -/
theorem requires_command_success_empty (run : List String → CallOutcome)
    (nf ff : Option String) (s : String) (h : pySplit s = []) :
    requires_command_success run (PyVal.str s) nf ff =
      Except.error GuardErr.indexError ∧
    (∀ c l f, GuardErr.indexError ≠ GuardErr.requiredCommandNotFound c l f) ∧
    (∀ c l f, GuardErr.indexError ≠ GuardErr.requiredCommandFailure c l f) ∧
    GuardErr.indexError ≠ GuardErr.typeError := by
  refine ⟨?_, ?_, ?_, ?_⟩
  · simp [requires_command_success, h]
  · intro c l f hcon
    cases hcon
  · intro c l f hcon
    cases hcon
  · intro hcon
    cases hcon

/-- Witness for C10 with a whitespace-only command string. -/
theorem requires_command_success_empty_witness :
    requires_command_success wRun (PyVal.str " ") none none =
      Except.error GuardErr.indexError :=
  (requires_command_success_empty wRun none none " " (by decide)).1

/-! ### C7: `replace_in_file` skips symlinks -/

theorem pfxB_append (p q : Path) : pfxB p (p ++ q) = true := by
  induction p with
  | nil => rfl
  | cons a p ih => simp [pfxB, ih]

theorem pfxB_exists (p q : Path) : pfxB p q = true ↔ ∃ r, q = p ++ r := by
  induction p generalizing q with
  | nil =>
    constructor
    · intro _; exact ⟨q, rfl⟩
    · intro _; rfl
  | cons a p ih =>
    cases q with
    | nil =>
      constructor
      · intro h; cases h
      · rintro ⟨r, hr⟩; cases hr
    | cons b q =>
      simp only [pfxB, Bool.and_eq_true, beq_iff_eq]
      constructor
      · rintro ⟨rfl, h2⟩
        obtain ⟨r, rfl⟩ := (ih q).mp h2
        exact ⟨r, rfl⟩
      · rintro ⟨r, hr⟩
        injection hr with h1 h2
        exact ⟨h1.symm, (ih q).mpr ⟨r, h2⟩⟩

theorem pfxB_refl (p : Path) : pfxB p p = true := by
  refine (pfxB_exists p p).mpr ⟨[], by simp⟩

theorem pfxB_length (p q : Path) (h : pfxB p q = true) : p.length ≤ q.length := by
  obtain ⟨r, rfl⟩ := (pfxB_exists p q).mp h
  simp

theorem pfxB_trans (a b c : Path) (h1 : pfxB a b = true) (h2 : pfxB b c = true) :
    pfxB a c = true := by
  obtain ⟨r, rfl⟩ := (pfxB_exists a b).mp h1
  obtain ⟨s, rfl⟩ := (pfxB_exists (a ++ r) c).mp h2
  rw [List.append_assoc]
  exact pfxB_append a (r ++ s)

theorem pfxB_dropLast (p : Path) (h : p ≠ []) : pfxB p.dropLast p = true := by
  refine (pfxB_exists _ _).mpr ⟨[p.getLast h], ?_⟩
  rw [List.dropLast_append_getLast h]

theorem pfxB_dropLast_lt (p q : Path) (hq : q ≠ [])
    (h : pfxB p q.dropLast = true) : p ≠ q := by
  intro hcon
  have hlen := pfxB_length p q.dropLast h
  rw [hcon, List.length_dropLast] at hlen
  have : 0 < q.length := List.length_pos.mpr hq
  omega

theorem andThen_ok_iff (r : R) (k : FS → R) (fs' : FS) :
    andThen r k = (none, fs') ↔ ∃ fsm, r = (none, fsm) ∧ k fsm = (none, fs') := by
  obtain ⟨e, fsr⟩ := r
  cases e with
  | none =>
    simp only [andThen]
    constructor
    · intro h; exact ⟨fsr, rfl, h⟩
    · rintro ⟨fsm, h1, h2⟩
      injection h1 with _ h1b
      rw [← h1b] at h2
      exact h2
  | some err =>
    simp only [andThen]
    constructor
    · intro h; injection h with h1 _; cases h1
    · rintro ⟨fsm, h1, _⟩; injection h1 with h1a _; cases h1a

/-- Any change `search_and_replace_contents` makes replaces the text of a
writable text file in place (ticking its mtime); every other lookup is
untouched. -/
theorem sar_changes (sys : Sys) (fs : FS) (p : Path) (sub : String → String)
    (q : Path) :
    lookupFS (search_and_replace_contents sys fs p sub).2 q = lookupFS fs q ∨
    (∃ s m w s', lookupFS fs q = some (Node.file (Content.text s) m w) ∧
      lookupFS (search_and_replace_contents sys fs p sub).2 q =
        some (Node.file (Content.text s') (tick m) w)) := by
  cases hr : resolvePath fs sys.fuel p with
  | none => left; simp [search_and_replace_contents, hr]
  | some q0 =>
    cases hq : lookupFS fs q0 with
    | none => left; simp [search_and_replace_contents, hr, hq]
    | some n =>
      cases n with
      | dir m => left; simp [search_and_replace_contents, hr, hq]
      | symlink t m => left; simp [search_and_replace_contents, hr, hq]
      | file c m w =>
        cases w with
        | false => left; simp [search_and_replace_contents, hr, hq]
        | true =>
          cases c with
          | binary b => left; simp [search_and_replace_contents, hr, hq]
          | text s =>
            by_cases hchg : sub s = s
            · left; simp [search_and_replace_contents, hr, hq, hchg]
            · by_cases hqq : q = q0
              · subst hqq
                right
                refine ⟨s, m, true, sub s, hq, ?_⟩
                simp [search_and_replace_contents, hr, hq, hchg, lookupFS_set_self]
              · left
                simp [search_and_replace_contents, hr, hq, hchg,
                  lookupFS_set_ne _ _ _ _ hqq]

/-- When the argument path is not a symlink, `search_and_replace_contents`
touches no other path. -/
theorem sar_frame (sys : Sys) (fs : FS) (p : Path) (sub : String → String)
    (q : Path) (hne : q ≠ p) (hnl : islinkB fs p = false) :
    lookupFS (search_and_replace_contents sys fs p sub).2 q = lookupFS fs q := by
  cases hq : lookupFS fs p with
  | none =>
    have hr : resolvePath fs sys.fuel p = some p := resolvePath_none fs sys.fuel p hq
    simp [search_and_replace_contents, hr, hq]
  | some n =>
    cases n with
    | symlink t m => rw [islinkB, hq] at hnl; cases hnl
    | dir m =>
      have hr : resolvePath fs sys.fuel p = some p :=
        resolvePath_nonlink fs sys.fuel p _ hq (by intro t mm hcon; cases hcon)
      simp [search_and_replace_contents, hr, hq]
    | file c m w =>
      have hr : resolvePath fs sys.fuel p = some p :=
        resolvePath_nonlink fs sys.fuel p _ hq (by intro t mm hcon; cases hcon)
      cases w with
      | false => simp [search_and_replace_contents, hr, hq]
      | true =>
        cases c with
        | binary b => simp [search_and_replace_contents, hr, hq]
        | text s =>
          by_cases hchg : sub s = s
          · simp [search_and_replace_contents, hr, hq, hchg]
          · simp [search_and_replace_contents, hr, hq, hchg,
              lookupFS_set_ne _ _ _ _ hne]

theorem replFrame_refl (directory : Path) (fs : FS) : ReplFrame directory fs fs :=
  ⟨fun _ _ => rfl, fun _ _ _ h => h⟩

theorem replFrame_trans (directory : Path) (a b c : FS)
    (h1 : ReplFrame directory a b) (h2 : ReplFrame directory b c) :
    ReplFrame directory a c := by
  refine ⟨fun q hq => (h2.1 q hq).trans (h1.1 q hq), fun s tgt m hs => ?_⟩
  exact h2.2 s tgt m (h1.2 s tgt m hs)

/-- Folding `andThen`-sequenced steps preserves any reflexive transitive
relation that each step preserves. -/
theorem foldl_preserves {α : Type} (P : FS → FS → Prop)
    (hrefl : ∀ fs, P fs fs)
    (htrans : ∀ a b c, P a b → P b c → P a c)
    (step : FS → α → R) (hstep : ∀ fs a, P fs (step fs a).2) :
    ∀ (l : List α) (r0 : R),
      P r0.2 ((l.foldl (fun r a => andThen r (fun fsC => step fsC a)) r0).2) := by
  intro l
  induction l with
  | nil => intro r0; exact hrefl r0.2
  | cons a l ih =>
    intro r0
    simp only [List.foldl]
    have h1 : P r0.2 ((andThen r0 (fun fsC => step fsC a)).2) := by
      obtain ⟨e, fs⟩ := r0
      cases e with
      | none => exact hstep fs a
      | some err => exact hrefl fs
    exact htrans _ _ _ h1 (ih _)

/-- The walk of `replace_in_file` never changes anything outside the walked
directory and never rewrites a symlink entry. -/
theorem replWalkGo_frame (sys : Sys) (directory : Path) (filePat : String → Bool)
    (sub : String → String) :
    ∀ (fuel : Nat) (rel : Path) (fs : FS),
      ReplFrame directory fs (replWalkGo sys directory filePat sub fuel fs rel).2 := by
  intro fuel
  induction fuel with
  | zero => intro rel fs; exact replFrame_refl directory fs
  | succ f ih =>
    intro rel fs
    simp only [replWalkGo]
    have hfile : ∀ (fsC : FS) (a : String),
        ReplFrame directory fsC
          ((if filePat a && !(islinkB fsC (directory ++ rel ++ [a])) then
              search_and_replace_contents sys fsC (directory ++ rel ++ [a]) sub
            else (none, fsC)).2) := by
      intro fsC a
      by_cases hg : (filePat a && !(islinkB fsC (directory ++ rel ++ [a]))) = true
      · rw [if_pos hg]
        have hnl : islinkB fsC (directory ++ rel ++ [a]) = false := by
          rcases Bool.and_eq_true _ _ |>.mp hg with ⟨_, h2⟩
          rwa [Bool.not_eq_true'] at h2
        constructor
        · intro q hq
          have hne : q ≠ directory ++ rel ++ [a] := by
            intro hcon
            rw [hcon] at hq
            rw [List.append_assoc] at hq
            rw [pfxB_append] at hq
            cases hq
          exact sar_frame sys fsC _ sub q hne hnl
        · intro s tgt m hs
          rcases sar_changes sys fsC (directory ++ rel ++ [a]) sub s with h | h
          · rw [h, hs]
          · obtain ⟨s0, m0, w0, s0', h1, _⟩ := h
            rw [hs] at h1
            cases h1
      · rw [if_neg hg]
        exact replFrame_refl directory fsC
    have hdir : ∀ (fsC : FS) (a : String),
        ReplFrame directory fsC
          ((if islinkB fsC (directory ++ rel ++ [a]) then (none, fsC)
            else replWalkGo sys directory filePat sub f fsC (rel ++ [a])).2) := by
      intro fsC a
      by_cases hg : islinkB fsC (directory ++ rel ++ [a]) = true
      · rw [if_pos hg]; exact replFrame_refl directory fsC
      · rw [if_neg hg]; exact ih (rel ++ [a]) fsC
    set A : R := (childNames fs (directory ++ rel)).filter
        (fun a => !(isDirB fs sys.fuel (directory ++ rel ++ [a]))) |>.foldl
        (fun r a => andThen r (fun fsC =>
          if filePat a && !(islinkB fsC (directory ++ rel ++ [a])) then
            search_and_replace_contents sys fsC (directory ++ rel ++ [a]) sub
          else (none, fsC))) (none, fs) with hA
    have hPA : ReplFrame directory fs A.2 := by
      rw [hA]
      exact foldl_preserves (ReplFrame directory) (replFrame_refl directory)
        (replFrame_trans directory) _ hfile _ (none, fs)
    obtain ⟨e1, fs1⟩ := A
    cases e1 with
    | some err => exact hPA
    | none =>
      refine replFrame_trans directory _ _ _ hPA ?_
      exact foldl_preserves (ReplFrame directory) (replFrame_refl directory)
        (replFrame_trans directory) _ hdir _ (none, fs1)

/-- C7: the `replace_in_file` pass rewrites nothing through a symbolic link:
every path outside the walked directory keeps its node (so a file aliased
into the tree only via a symlink is never modified), and every symlink entry
itself — matching the name pattern or not — is left unchanged. -/
theorem replace_in_file_skips_symlinks (sys : Sys) (fs : FS) (directory : Path)
    (filePat : String → Bool) (sub : String → String) :
    (∀ t, pfxB directory t = false →
      lookupFS (replace_in_file sys fs directory filePat sub).2 t = lookupFS fs t) ∧
    (∀ s tgt m, lookupFS fs s = some (Node.symlink tgt m) →
      lookupFS (replace_in_file sys fs directory filePat sub).2 s =
        some (Node.symlink tgt m)) := by
  have h := replWalkGo_frame sys directory filePat sub sys.fuel [] fs
  exact ⟨fun t ht => h.1 t ht, fun s tgt m hs => h.2 s tgt m hs⟩

/-- Witness for C7: the file aliased from outside the tree keeps its content
and the symlink entry inside the tree survives, while the real file inside
the tree is rewritten. -/
theorem replace_in_file_skips_symlinks_witness :
    lookupFS (replace_in_file wSys wFS7 ["t"] (fun _ => true) (subLit "x" "y")).2
        ["out"] = lookupFS wFS7 ["out"] ∧
    lookupFS (replace_in_file wSys wFS7 ["t"] (fun _ => true) (subLit "x" "y")).2
        ["t", "l"] = some (Node.symlink ["out"] wMeta) :=
  ⟨(replace_in_file_skips_symlinks wSys wFS7 ["t"] (fun _ => true)
      (subLit "x" "y")).1 ["out"] (by decide),
   (replace_in_file_skips_symlinks wSys wFS7 ["t"] (fun _ => true)
      (subLit "x" "y")).2 ["t", "l"] ["out"] wMeta rfl⟩

/-! ### Characterization lemmas for the metadata and link operations -/

theorem isDirB_of_not_dirnode (fs : FS) (fuel : Nat) (p : Path) (hp : p ≠ [])
    (h : ∀ m, resolveNode fs fuel p ≠ some (Node.dir m)) :
    isDirB fs fuel p = false := by
  simp only [isDirB, List.isEmpty_iff]
  cases hres : resolveNode fs fuel p with
  | none => simp [hp]
  | some n =>
    cases n with
    | file _ _ _ => simp [hp]
    | dir m => exact absurd hres (h m)
    | symlink _ _ => simp [hp]

theorem isDirB_file (fs : FS) (fuel : Nat) (p : Path) (c : Content) (m : Meta)
    (w : Bool) (hp : p ≠ []) (h : lookupFS fs p = some (Node.file c m w)) :
    isDirB fs fuel p = false := by
  refine isDirB_of_not_dirnode fs fuel p hp ?_
  intro md hcon
  rw [resolveNode, resolvePath_nonlink fs fuel p _ h
    (by intro t mm hc; cases hc)] at hcon
  simp only [Option.some_bind] at hcon
  rw [h] at hcon
  cases hcon

theorem mkdirExistOk_cases (sys : Sys) (fs : FS) (p : Path) :
    (mkdirExistOk sys fs p).2 = fs ∨
    (lookupFS fs p = none ∧
      mkdirExistOk sys fs p = (none, setNode fs p (Node.dir mkdirMeta))) := by
  unfold mkdirExistOk
  split
  · left; rfl
  split
  · left; rfl
  split
  · left; rfl
  split
  · left; rfl
  · right
    rename_i h4
    constructor
    · cases hl : lookupFS fs p with
      | none => rfl
      | some n => rw [hl] at h4; simp at h4
    · rfl

theorem mkdirExistOk_ok_not_file (sys : Sys) (fs : FS) (p : Path)
    (hp : p ≠ []) (h : (mkdirExistOk sys fs p).1 = none) :
    ∀ c m w, lookupFS fs p ≠ some (Node.file c m w) := by
  intro c m w hfile
  unfold mkdirExistOk at h
  rw [if_neg (by simpa [List.isEmpty_iff] using hp)] at h
  by_cases hpar : isDirB fs sys.fuel p.dropLast = true
  · rw [if_neg (by simp [hpar])] at h
    rw [if_neg (by simp [isDirB_file fs sys.fuel p c m w hp hfile])] at h
    rw [if_pos (by simp [hfile])] at h
    cases h
  · rw [if_pos (by simp [Bool.not_eq_true] at hpar; simp [hpar])] at h
    cases h

theorem makedirsGo_changes (sys : Sys) :
    ∀ (fuel : Nat) (fs : FS) (p q : Path),
      lookupFS (makedirsGo sys fuel fs p).2 q = lookupFS fs q ∨
      (lookupFS fs q = none ∧ pfxB q p = true ∧
        lookupFS (makedirsGo sys fuel fs p).2 q = some (Node.dir mkdirMeta)) := by
  intro fuel
  induction fuel with
  | zero => intro fs p q; left; rfl
  | succ f ih =>
    intro fs p q
    simp only [makedirsGo]
    by_cases hp : p.isEmpty = true
    · rw [if_pos hp]; left; rfl
    rw [if_neg hp]
    have hpne : p ≠ [] := by simpa [List.isEmpty_iff] using hp
    set inner : R := if !(pathExistsB fs sys.fuel p.dropLast) then
        makedirsGo sys f fs p.dropLast else (none, fs) with hinner
    have hinner_ch : lookupFS inner.2 q = lookupFS fs q ∨
        (lookupFS fs q = none ∧ pfxB q p.dropLast = true ∧
          lookupFS inner.2 q = some (Node.dir mkdirMeta)) := by
      rw [hinner]
      split
      · exact ih fs p.dropLast q
      · left; rfl
    obtain ⟨e1, fs1⟩ := inner
    cases e1 with
    | some err =>
      rcases hinner_ch with h1 | ⟨h1a, h1b, h1c⟩
      · left; simpa [andThen] using h1
      · right
        refine ⟨h1a, pfxB_trans q p.dropLast p h1b (pfxB_dropLast p hpne), ?_⟩
        simpa [andThen] using h1c
    | none =>
      simp only [andThen]
      rcases mkdirExistOk_cases sys fs1 p with h2 | ⟨h2a, h2b⟩
      · rw [h2]
        rcases hinner_ch with h1 | ⟨h1a, h1b, h1c⟩
        · left; exact h1
        · right
          exact ⟨h1a, pfxB_trans q p.dropLast p h1b (pfxB_dropLast p hpne), h1c⟩
      · rw [h2b]
        by_cases hqp : q = p
        · subst hqp
          right
          rcases hinner_ch with h1 | ⟨h1a, h1b, _⟩
          · refine ⟨h1.symm.trans h2a, pfxB_refl q, ?_⟩
            simp [lookupFS_set_self]
          · exact absurd rfl (pfxB_dropLast_lt q q hpne h1b)
        · rw [lookupFS_set_ne fs1 p q _ hqp]
          rcases hinner_ch with h1 | ⟨h1a, h1b, h1c⟩
          · left; exact h1
          · right
            exact ⟨h1a, pfxB_trans q p.dropLast p h1b (pfxB_dropLast p hpne), h1c⟩

theorem makedirsGo_ok_not_file (sys : Sys) (fuel : Nat) (fs : FS) (p : Path)
    (hp : p ≠ []) (h : (makedirsGo sys fuel fs p).1 = none) :
    ∀ c m w, lookupFS fs p ≠ some (Node.file c m w) := by
  intro c m w hfile
  cases fuel with
  | zero => cases h
  | succ f =>
    simp only [makedirsGo] at h
    rw [if_neg (by simpa [List.isEmpty_iff] using hp)] at h
    have hchange : lookupFS (if !(pathExistsB fs sys.fuel p.dropLast) then
        makedirsGo sys f fs p.dropLast else (none, fs)).2 p = lookupFS fs p := by
      split
      · rcases makedirsGo_changes sys f fs p.dropLast p with h1 | ⟨_, h1b, _⟩
        · exact h1
        · exact absurd rfl (pfxB_dropLast_lt p p hp h1b)
      · rfl
    generalize hI : (if !(pathExistsB fs sys.fuel p.dropLast) then
        makedirsGo sys f fs p.dropLast else (none, fs)) = inner at h hchange
    obtain ⟨e1, fs1⟩ := inner
    cases e1 with
    | some err => simp [andThen] at h
    | none =>
      simp only [andThen] at h
      exact mkdirExistOk_ok_not_file sys fs1 p hp h c m w (hchange.trans hfile)

theorem nodeData_withOwner (n : Node) (u g : Nat) :
    nodeData (withOwner n u g) = nodeData n := by
  cases n <;> rfl

theorem nodeData_withModeTime (n : Node) (mo mt : Nat) :
    nodeData (withModeTime n mo mt) = nodeData n := by
  cases n <;> rfl

theorem withOwner_file_inv (n : Node) (u g : Nat) (c : Content) (m : Meta) (w : Bool)
    (h : withOwner n u g = Node.file c m w) : ∃ m0, n = Node.file c m0 w := by
  cases n with
  | file c0 m0 w0 =>
    simp only [withOwner, Node.file.injEq] at h
    exact ⟨m0, by rw [h.1, h.2.2]⟩
  | dir m0 => cases h
  | symlink t0 m0 => cases h

theorem withModeTime_file_inv (n : Node) (mo mt : Nat) (c : Content) (m : Meta)
    (w : Bool) (h : withModeTime n mo mt = Node.file c m w) :
    ∃ m0, n = Node.file c m0 w := by
  cases n with
  | file c0 m0 w0 =>
    simp only [withModeTime, Node.file.injEq] at h
    exact ⟨m0, by rw [h.1, h.2.2]⟩
  | dir m0 => cases h
  | symlink t0 m0 => cases h

theorem chown_changes (sys : Sys) (fs : FS) (p : Path) (u g : Nat) (follow : Bool)
    (q : Path) :
    lookupFS (suppressPerm (chownOp sys fs p u g follow)).2 q = lookupFS fs q ∨
    (∃ p0 n, (if follow then resolvePath fs sys.fuel p else some p) = some p0 ∧
      q = p0 ∧ lookupFS fs p0 = some n ∧
      lookupFS (suppressPerm (chownOp sys fs p u g follow)).2 q =
        some (withOwner n u g)) := by
  cases hres : (if follow then resolvePath fs sys.fuel p else some p) with
  | none => left; simp [chownOp, hres, suppressPerm]
  | some p0 =>
    cases hl : lookupFS fs p0 with
    | none => left; simp [chownOp, hres, hl, suppressPerm]
    | some n =>
      by_cases hc : sys.chownOk = true
      · by_cases hq : q = p0
        · subst hq
          right
          refine ⟨_, n, rfl, rfl, hl, ?_⟩
          simp [chownOp, hres, hl, hc, suppressPerm, lookupFS_set_self]
        · left
          simp [chownOp, hres, hl, hc, suppressPerm, lookupFS_set_ne fs p0 q _ hq]
      · left
        simp [chownOp, hres, hl, hc, suppressPerm]

theorem copystat_changes (fs : FS) (s d q : Path) :
    lookupFS (copystatOp fs s d).2 q = lookupFS fs q ∨
    (q = d ∧ ∃ ns nd, lookupFS fs s = some ns ∧ lookupFS fs d = some nd ∧
      lookupFS (copystatOp fs s d).2 q =
        some (withModeTime nd (nodeMeta ns).mode (nodeMeta ns).mtime)) := by
  cases hs : lookupFS fs s with
  | none => left; simp [copystatOp, hs]
  | some ns =>
    cases hd : lookupFS fs d with
    | none => left; simp [copystatOp, hs, hd]
    | some nd =>
      by_cases hq : q = d
      · subst hq
        right
        refine ⟨rfl, ns, nd, rfl, rfl, ?_⟩
        simp [copystatOp, hs, hd, lookupFS_set_self]
      · left
        simp [copystatOp, hs, hd, lookupFS_set_ne fs d q _ hq]

theorem nodeData_dirD_inv (n : Node) (h : nodeData n = NData.dirD) :
    ∃ m, n = Node.dir m := by
  cases n with
  | file c m w => cases h
  | dir m => exact ⟨m, rfl⟩
  | symlink t m => cases h

theorem csdrel_refl (d : Path) (fs : FS) : CsdRel d fs fs :=
  fun _ => Or.inl rfl

theorem csdrel_trans (d : Path) (a b c : FS) (h1 : CsdRel d a b)
    (h2 : CsdRel d b c) : CsdRel d a c := by
  intro q
  rcases h2 q with h2u | ⟨h2a, h2b, m2, h2c⟩ | ⟨rfl, n1, n2, h2a, h2b, h2c, h2d, h2e⟩
  · rcases h1 q with h1u | ⟨h1a, h1b, m1, h1c⟩ | ⟨rfl, n0, n1, h1a, h1b, h1c, h1d, h1e⟩
    · left; exact h2u.trans h1u
    · right; left; exact ⟨h1a, h1b, m1, h2u.trans h1c⟩
    · right; right; exact ⟨rfl, n0, n1, h1a, h1b, h2u.trans h1c, h1d, h1e⟩
  · rcases h1 q with h1u | ⟨h1a, _, m1, h1c⟩ | ⟨rfl, n0, n1, h1a, _, h1c, _, _⟩
    · right; left; exact ⟨h1u ▸ h2a, h2b, m2, h2c⟩
    · rw [h1c] at h2a; cases h2a
    · rw [h1c] at h2a; cases h2a
  · rcases h1 q with h1u | ⟨h1a, h1b, m1, h1c⟩ | ⟨_, n0, n1', h1a, h1b, h1c, h1d, h1e⟩
    · right; right
      exact ⟨rfl, n1, n2, h1u ▸ h2a, h2b, h2c, h2d, h2e⟩
    · right; left
      rw [h1c] at h2a
      injection h2a with h2a'
      subst h2a'
      obtain ⟨m3, hm3⟩ := nodeData_dirD_inv n2 (by rw [h2d]; rfl)
      exact ⟨h1a, h1b, m3, hm3 ▸ h2c⟩
    · right; right
      rw [h1c] at h2a
      injection h2a with h2a'
      subst h2a'
      exact ⟨rfl, n0, n2, h1a, h1b, h2c, h2d.trans h1d, h2e⟩

/-- Non-file-ness of the node at `d` survives a `CsdRel` step. -/
theorem csdrel_nf (d : Path) (fs fs' : FS) (h : CsdRel d fs fs')
    (hnf : ∀ c mm w, lookupFS fs d ≠ some (Node.file c mm w)) :
    ∀ c mm w, lookupFS fs' d ≠ some (Node.file c mm w) := by
  intro c mm w hcon
  rcases h d with h1 | ⟨_, _, m1, h1c⟩ | ⟨_, n0, n1, _, _, h1c, _, h1e⟩
  · exact hnf c mm w (h1 ▸ hcon)
  · rw [h1c] at hcon; cases hcon
  · rw [h1c] at hcon
    injection hcon with hcon'
    exact h1e c mm w hcon'

theorem makedirs_csdrel (sys : Sys) (fs : FS) (d : Path) :
    CsdRel d fs (makedirs sys fs d).2 := by
  intro q
  rcases makedirsGo_changes sys (d.length + 1) fs d q with h1 | ⟨h1a, h1b, h1c⟩
  · left; exact h1
  · right; left; exact ⟨h1a, h1b, mkdirMeta, h1c⟩

theorem chown_csdrel (sys : Sys) (fs : FS) (d : Path) (u g : Nat)
    (hnf : ∀ c mm w, lookupFS fs d ≠ some (Node.file c mm w)) :
    CsdRel d fs (suppressPerm (chownOp sys fs d u g false)).2 := by
  intro q
  rcases chown_changes sys fs d u g false q with h1 | ⟨p0, n, hp0, rfl, hn, hc⟩
  · left; exact h1
  · rw [if_neg (by simp)] at hp0
    injection hp0 with hp0'
    subst hp0'
    right; right
    refine ⟨rfl, n, withOwner n u g, hn, ?_, hc, nodeData_withOwner n u g, ?_⟩
    · intro c mm w hcon
      exact hnf c mm w (by rw [hn, hcon])
    · intro c mm w hcon
      obtain ⟨m0, hm0⟩ := withOwner_file_inv n u g c mm w hcon
      exact hnf c m0 w (by rw [hn, hm0])

theorem copystat_csdrel (fs : FS) (s d : Path)
    (hnf : ∀ c mm w, lookupFS fs d ≠ some (Node.file c mm w)) :
    CsdRel d fs (copystatOp fs s d).2 := by
  intro q
  rcases copystat_changes fs s d q with h1 | ⟨rfl, ns, nd, _, hnd, hc⟩
  · left; exact h1
  · right; right
    refine ⟨rfl, nd, withModeTime nd (nodeMeta ns).mode (nodeMeta ns).mtime, hnd,
      ?_, hc, nodeData_withModeTime nd _ _, ?_⟩
    · intro c mm w hcon
      exact hnf c mm w (by rw [hnd, hcon])
    · intro c mm w hcon
      obtain ⟨m0, hm0⟩ := withModeTime_file_inv nd _ _ c mm w hcon
      exact hnf c m0 w (by rw [hnd, hm0])

/-- Outcome-agnostic change bound for `create_similar_directory`. -/
theorem csd_changes (sys : Sys) (fs : FS) (s d : Path) (hd : d ≠ []) :
    CsdRel d fs (create_similar_directory sys fs s d).2 := by
  unfold create_similar_directory
  cases hstat : lookupFS fs s with
  | none => exact csdrel_refl d fs
  | some ns =>
    cases hM : makedirs sys fs d with
    | mk e1 fs1 =>
      have hR1 : CsdRel d fs fs1 := by
        have h := makedirs_csdrel sys fs d
        rwa [hM] at h
      cases e1 with
      | some err => simpa [andThen] using hR1
      | none =>
        have hNF : ∀ c mm w, lookupFS fs d ≠ some (Node.file c mm w) :=
          makedirsGo_ok_not_file sys (d.length + 1) fs d hd
            (by rw [show makedirsGo sys (d.length + 1) fs d = makedirs sys fs d
                  from rfl, hM])
        have hNF1 : ∀ c mm w, lookupFS fs1 d ≠ some (Node.file c mm w) :=
          csdrel_nf d fs fs1 hR1 hNF
        simp only [andThen]
        cases hC : suppressPerm (chownOp sys fs1 d (nodeMeta ns).uid
            (nodeMeta ns).gid false) with
        | mk e2 fs2 =>
          have hR2 : CsdRel d fs1 fs2 := by
            have h := chown_csdrel sys fs1 d (nodeMeta ns).uid (nodeMeta ns).gid hNF1
            rwa [hC] at h
          have hR12 : CsdRel d fs fs2 := csdrel_trans d fs fs1 fs2 hR1 hR2
          cases e2 with
          | some err => simpa [andThen] using hR12
          | none =>
            have hNF2 : ∀ c mm w, lookupFS fs2 d ≠ some (Node.file c mm w) :=
              csdrel_nf d fs1 fs2 hR2 hNF1
            simp only [andThen]
            exact csdrel_trans d fs fs2 _ hR12 (copystat_csdrel fs2 s d hNF2)

theorem unlink_lookup_ne (fs : FS) (p q : Path) (h : q ≠ p) :
    lookupFS (unlinkOp fs p).2 q = lookupFS fs q := by
  cases hl : lookupFS fs p with
  | none => simp [unlinkOp, hl]
  | some n =>
    cases n with
    | dir m => simp [unlinkOp, hl]
    | file c m w => simp [unlinkOp, hl, lookupFS_del_ne fs p q h]
    | symlink t m => simp [unlinkOp, hl, lookupFS_del_ne fs p q h]

theorem unlink_lookup_self (fs : FS) (p : Path) :
    lookupFS (unlinkOp fs p).2 p = none ∨
    (∃ m, lookupFS (unlinkOp fs p).2 p = some (Node.dir m) ∧
      lookupFS fs p = some (Node.dir m)) := by
  cases hl : lookupFS fs p with
  | none => left; simp [unlinkOp, hl]
  | some n =>
    cases n with
    | dir m => right; exact ⟨m, by simp [unlinkOp, hl], rfl⟩
    | file c m w => left; simp [unlinkOp, hl, lookupFS_del]
    | symlink t m => left; simp [unlinkOp, hl, lookupFS_del]

theorem osLink_ok (sys : Sys) (fs : FS) (src dst : Path) (fs' : FS)
    (h : osLink sys fs src dst = (none, fs')) :
    ∃ n, lookupFS fs src = some n ∧ (∀ m, n ≠ Node.dir m) ∧
      lookupFS fs dst = none ∧ fs' = setNode fs dst n := by
  by_cases hlf : sys.linkFails = true
  · rw [show osLink sys fs src dst = (some Err.permDenied, fs) by
      simp [osLink, hlf]] at h
    cases h
  cases hsrc : lookupFS fs src with
  | none =>
    rw [show osLink sys fs src dst = (some Err.noEnt, fs) by
      simp [osLink, hlf, hsrc]] at h
    cases h
  | some n =>
    cases n with
    | dir m =>
      rw [show osLink sys fs src dst = (some Err.permDenied, fs) by
        simp [osLink, hlf, hsrc]] at h
      cases h
    | file c m w =>
      by_cases hpar : isDirB fs sys.fuel dst.dropLast = true
      · cases hdst : lookupFS fs dst with
        | some n0 =>
          rw [show osLink sys fs src dst = (some Err.alreadyExists, fs) by
            simp [osLink, hlf, hsrc, hpar, hdst]] at h
          cases h
        | none =>
          rw [show osLink sys fs src dst =
              (none, setNode fs dst (Node.file c m w)) by
            simp [osLink, hlf, hsrc, hpar, hdst]] at h
          injection h with _ h2
          refine ⟨Node.file c m w, rfl, ?_, rfl, h2.symm⟩
          intro mm hcon
          cases hcon
      · have hpar' : isDirB fs sys.fuel dst.dropLast = false := by
          rwa [Bool.not_eq_true] at hpar
        rw [show osLink sys fs src dst = (some Err.notDir, fs) by
          simp [osLink, hlf, hsrc, hpar']] at h
        cases h
    | symlink t m =>
      by_cases hpar : isDirB fs sys.fuel dst.dropLast = true
      · cases hdst : lookupFS fs dst with
        | some n0 =>
          rw [show osLink sys fs src dst = (some Err.alreadyExists, fs) by
            simp [osLink, hlf, hsrc, hpar, hdst]] at h
          cases h
        | none =>
          rw [show osLink sys fs src dst =
              (none, setNode fs dst (Node.symlink t m)) by
            simp [osLink, hlf, hsrc, hpar, hdst]] at h
          injection h with _ h2
          refine ⟨Node.symlink t m, rfl, ?_, rfl, h2.symm⟩
          intro mm hcon
          cases hcon
      · have hpar' : isDirB fs sys.fuel dst.dropLast = false := by
          rwa [Bool.not_eq_true] at hpar
        rw [show osLink sys fs src dst = (some Err.notDir, fs) by
          simp [osLink, hlf, hsrc, hpar']] at h
        cases h

theorem osLink_fail (sys : Sys) (fs : FS) (src dst : Path) (e : Err) (fs' : FS)
    (h : osLink sys fs src dst = (some e, fs')) : fs' = fs := by
  by_cases hok : (osLink sys fs src dst).1 = none
  · rw [h] at hok
    cases hok
  · cases hres : osLink sys fs src dst with
    | mk e1 fs1 =>
      cases e1 with
      | none => rw [hres] at hok; cases hok rfl
      | some e2 =>
        rw [hres] at h
        injection h with _ h2
        subst h2
        -- every error branch of osLink returns the input state
        by_cases hlf : sys.linkFails = true
        · rw [show osLink sys fs src dst = (some Err.permDenied, fs) by
            simp [osLink, hlf]] at hres
          injection hres with _ hh
          exact hh.symm
        cases hsrc : lookupFS fs src with
        | none =>
          rw [show osLink sys fs src dst = (some Err.noEnt, fs) by
            simp [osLink, hlf, hsrc]] at hres
          injection hres with _ hh
          exact hh.symm
        | some n =>
          cases n with
          | dir m =>
            rw [show osLink sys fs src dst = (some Err.permDenied, fs) by
              simp [osLink, hlf, hsrc]] at hres
            injection hres with _ hh
            exact hh.symm
          | file c m w =>
            by_cases hpar : isDirB fs sys.fuel dst.dropLast = true
            · cases hdst : lookupFS fs dst with
              | some n0 =>
                rw [show osLink sys fs src dst = (some Err.alreadyExists, fs) by
                  simp [osLink, hlf, hsrc, hpar, hdst]] at hres
                injection hres with _ hh
                exact hh.symm
              | none =>
                rw [show osLink sys fs src dst =
                    (none, setNode fs dst (Node.file c m w)) by
                  simp [osLink, hlf, hsrc, hpar, hdst]] at hres
                injection hres with hbad hsnd
                cases hbad
            · have hpar' : isDirB fs sys.fuel dst.dropLast = false := by
                rwa [Bool.not_eq_true] at hpar
              rw [show osLink sys fs src dst = (some Err.notDir, fs) by
                simp [osLink, hlf, hsrc, hpar']] at hres
              injection hres with _ hh
              exact hh.symm
          | symlink t m =>
            by_cases hpar : isDirB fs sys.fuel dst.dropLast = true
            · cases hdst : lookupFS fs dst with
              | some n0 =>
                rw [show osLink sys fs src dst = (some Err.alreadyExists, fs) by
                  simp [osLink, hlf, hsrc, hpar, hdst]] at hres
                injection hres with _ hh
                exact hh.symm
              | none =>
                rw [show osLink sys fs src dst =
                    (none, setNode fs dst (Node.symlink t m)) by
                  simp [osLink, hlf, hsrc, hpar, hdst]] at hres
                injection hres with hbad hsnd
                cases hbad
            · have hpar' : isDirB fs sys.fuel dst.dropLast = false := by
                rwa [Bool.not_eq_true] at hpar
              rw [show osLink sys fs src dst = (some Err.notDir, fs) by
                simp [osLink, hlf, hsrc, hpar']] at hres
              injection hres with _ hh
              exact hh.symm

theorem andThen_eq_err (r : R) (k : FS → R) (e : Err) (fs'' : FS)
    (h : andThen r k = (some e, fs'')) :
    r = (some e, fs'') ∨ ∃ fsm, r = (none, fsm) ∧ k fsm = (some e, fs'') := by
  obtain ⟨e0, fs0⟩ := r
  cases e0 with
  | none =>
    right
    exact ⟨fs0, rfl, h⟩
  | some e1 =>
    left
    simpa [andThen] using h

theorem ne_dropLast_self (p : Path) (hp : p ≠ []) : p ≠ p.dropLast := by
  intro hcon
  have hl := congrArg List.length hcon
  rw [List.length_dropLast] at hl
  have : 0 < p.length := List.length_pos.mpr hp
  omega

theorem isDirB_none (fs : FS) (fuel : Nat) (p : Path) (hp : p ≠ [])
    (h : lookupFS fs p = none) : isDirB fs fuel p = false := by
  refine isDirB_of_not_dirnode fs fuel p hp ?_
  intro m hcon
  rw [resolveNode, resolvePath_none fs fuel p h] at hcon
  simp only [Option.some_bind] at hcon
  rw [h] at hcon
  cases hcon

theorem islinkB_true_iff (fs : FS) (p : Path) :
    islinkB fs p = true ↔ ∃ t m, lookupFS fs p = some (Node.symlink t m) := by
  constructor
  · intro h
    cases hl : lookupFS fs p with
    | none => rw [islinkB, hl] at h; cases h
    | some n =>
      cases n with
      | symlink t m => exact ⟨t, m, rfl⟩
      | file c m w => rw [islinkB, hl] at h; cases h
      | dir m => rw [islinkB, hl] at h; cases h
  · rintro ⟨t, m, hl⟩
    rw [islinkB, hl]

theorem resolvePath_of_islink_false (fs : FS) (fuel : Nat) (p : Path)
    (h : islinkB fs p = false) : resolvePath fs fuel p = some p := by
  cases hl : lookupFS fs p with
  | none => exact resolvePath_none fs fuel p hl
  | some n =>
    cases n with
    | symlink t m => rw [islinkB, hl] at h; cases h
    | file c m w =>
      exact resolvePath_nonlink fs fuel p _ hl (by intro t mm hcon; cases hcon)
    | dir m =>
      exact resolvePath_nonlink fs fuel p _ hl (by intro t mm hcon; cases hcon)

theorem nodeData_linkD_inv (n : Node) (t : Path) (h : nodeData n = NData.linkD t) :
    ∃ m, n = Node.symlink t m := by
  cases n with
  | file c m w => cases h
  | dir m => cases h
  | symlink t0 m =>
    injection h with ht
    exact ⟨m, by rw [ht]⟩

/-- Resolution transfer: if every symlink of `fsB` is a symlink of `fsA` with
the same target, and every file of `fsB` is the same file in `fsA`, then a
resolution in `fsB` that ends at a file is also valid in `fsA`. -/
theorem resolve_transfer (fsA fsB : FS)
    (hS : ∀ x t m, lookupFS fsB x = some (Node.symlink t m) →
      ∃ m0, lookupFS fsA x = some (Node.symlink t m0))
    (hF : ∀ x c m w, lookupFS fsB x = some (Node.file c m w) →
      lookupFS fsA x = some (Node.file c m w)) :
    ∀ (fuel : Nat) (p sp : Path) (c : Content) (m : Meta) (w : Bool),
      resolvePath fsB fuel p = some sp →
      lookupFS fsB sp = some (Node.file c m w) →
      resolvePath fsA fuel p = some sp ∧
        lookupFS fsA sp = some (Node.file c m w) := by
  intro fuel
  induction fuel with
  | zero =>
    intro p sp c m w hres hfile
    simp only [resolvePath] at hres ⊢
    cases hB : lookupFS fsB p with
    | none =>
      rw [hB] at hres
      injection hres with hsp
      subst hsp
      rw [hB] at hfile
      cases hfile
    | some n =>
      rw [hB] at hres
      cases n with
      | symlink t mm => cases hres
      | dir mm =>
        injection hres with hsp
        subst hsp
        rw [hB] at hfile
        cases hfile
      | file c0 m0 w0 =>
        injection hres with hsp
        subst hsp
        rw [hB] at hfile
        injection hfile with hf
        have hA := hF p c0 m0 w0 hB
        rw [hA, hf]
        exact ⟨rfl, rfl⟩
  | succ f ih =>
    intro p sp c m w hres hfile
    simp only [resolvePath] at hres ⊢
    cases hB : lookupFS fsB p with
    | none =>
      rw [hB] at hres
      injection hres with hsp
      subst hsp
      rw [hB] at hfile
      cases hfile
    | some n =>
      rw [hB] at hres
      cases n with
      | symlink t mm =>
        obtain ⟨hres', hfile'⟩ := ih t sp c m w hres hfile
        obtain ⟨m0, hA⟩ := hS p t mm hB
        rw [hA]
        exact ⟨hres', hfile'⟩
      | dir mm =>
        injection hres with hsp
        subst hsp
        rw [hB] at hfile
        cases hfile
      | file c0 m0 w0 =>
        injection hres with hsp
        subst hsp
        rw [hB] at hfile
        injection hfile with hf
        have hA := hF p c0 m0 w0 hB
        rw [hA, hf]
        exact ⟨rfl, rfl⟩

/-- Tail of the fallback path of `link_or_copy`: `os.stat` the source and
best-effort `os.chown` the destination; the destination either keeps the node
just written or gets its owner rewritten. -/
theorem stat_chown_tail (sys : Sys) (fs3 fs' : FS) (src dst : Path) (follow : Bool)
    (q0 : Path) (ns nd : Node)
    (hq : (if follow then resolvePath fs3 sys.fuel src else some src) = some q0)
    (hlq : lookupFS fs3 q0 = some ns)
    (hnd : lookupFS fs3 dst = some nd)
    (hres0 : (if follow then resolvePath fs3 sys.fuel dst else some dst) = some dst)
    (hK : (match (if follow then resolvePath fs3 sys.fuel src else some src) with
      | none => (some Err.fuelOut, fs3)
      | some q =>
        match lookupFS fs3 q with
        | none => (some Err.noEnt, fs3)
        | some ns =>
          suppressPerm (chownOp sys fs3 dst (nodeMeta ns).uid (nodeMeta ns).gid
            follow)) = (none, fs')) :
    fs' = fs3 ∨
    fs' = setNode fs3 dst (withOwner nd (nodeMeta ns).uid (nodeMeta ns).gid) := by
  rw [hq] at hK
  simp only [] at hK
  rw [hlq] at hK
  simp only [] at hK
  unfold chownOp at hK
  rw [hres0] at hK
  simp only [] at hK
  rw [hnd] at hK
  simp only [] at hK
  by_cases hco : sys.chownOk = true
  · rw [if_pos hco] at hK
    simp only [suppressPerm] at hK
    injection hK with _ h2
    right
    exact h2.symm
  · rw [if_neg hco] at hK
    simp only [suppressPerm] at hK
    injection hK with _ h2
    left
    exact h2.symm

/-- C1 (amended): a successful `link_or_copy` whose destination is not an
existing real directory leaves at the destination a node with the same data
(file content or link target), permission bits, and timestamp as the
(resolved) source node after the call — either the very node hard-linked from
the source, or the fallback's metadata-preserving copy.  When the destination
is an existing directory the fallback `shutil.copy2` instead descends into
it, which is the counterexample to the claim as stated. -/
theorem link_or_copy_success_content (sys : Sys) (fs fs' : FS) (src dst : Path)
    (follow : Bool)
    (hok : link_or_copy sys fs src dst follow = (none, fs'))
    (hnd : ∀ m, lookupFS fs dst ≠ some (Node.dir m))
    (hdne : dst ≠ []) :
    ∃ p' n n',
      (if follow then resolvePath fs sys.fuel src else some src) = some p' ∧
      lookupFS fs' p' = some n ∧
      lookupFS fs' dst = some n' ∧
      nodeData n' = nodeData n ∧
      (nodeMeta n').mode = (nodeMeta n).mode ∧
      (nodeMeta n').mtime = (nodeMeta n).mtime := by
  unfold link_or_copy at hok
  cases hsp : (if follow then resolvePath fs sys.fuel src else some src) with
  | none => rw [hsp] at hok; cases hok
  | some sourcePath =>
    rw [hsp] at hok
    simp only [] at hok
    cases hTry : andThen
        (if (!pathExistsB fs sys.fuel (List.dropLast dst)) = true then
          create_similar_directory sys fs (List.dropLast sourcePath) (List.dropLast dst)
        else (none, fs))
        (fun fs1 => osLink sys fs1 sourcePath dst) with
    | mk eT fsT =>
      rw [hTry] at hok
      cases eT with
      | none =>
        injection hok with _ hfs'
        obtain ⟨fsA, hA, hL⟩ := (andThen_ok_iff _ _ _).mp hTry
        obtain ⟨nL, hsrcA, _, hdstA, hset⟩ := osLink_ok sys fsA sourcePath dst fsT hL
        have hne : sourcePath ≠ dst := by
          intro hcon
          rw [hcon, hdstA] at hsrcA
          cases hsrcA
        refine ⟨sourcePath, nL, nL, rfl, ?_, ?_, rfl, rfl, rfl⟩
        · rw [← hfs', hset, lookupFS_set_ne fsA dst sourcePath nL hne]
          exact hsrcA
        · rw [← hfs', hset]
          exact lookupFS_set_self fsA dst nL
      | some e =>
        simp only [] at hok
        by_cases he : e = Err.fuelOut
        · rw [if_pos he] at hok
          simp at hok
        rw [if_neg he] at hok
        obtain ⟨fs3, hcopy, hK⟩ := (andThen_ok_iff _ _ _).mp hok
        have hRel : fsT = fs ∨
            ((List.dropLast dst) ≠ [] ∧ CsdRel (List.dropLast dst) fs fsT) := by
          rcases andThen_eq_err _ _ _ _ hTry with hAerr | ⟨fsA, hA, hLerr⟩
          · by_cases hcond : (!pathExistsB fs sys.fuel (List.dropLast dst)) = true
            · right
              have hdl : (List.dropLast dst) ≠ [] := by
                intro hcon
                rw [hcon] at hcond
                simp [pathExistsB] at hcond
              refine ⟨hdl, ?_⟩
              rw [if_pos hcond] at hAerr
              have h2 : (create_similar_directory sys fs (List.dropLast sourcePath)
                  (List.dropLast dst)).2 = fsT := by rw [hAerr]
              have h := csd_changes sys fs (List.dropLast sourcePath)
                (List.dropLast dst) hdl
              rwa [h2] at h
            · rw [if_neg hcond] at hAerr
              exact absurd hAerr (by simp)
          · have hfsT : fsT = fsA := osLink_fail sys fsA sourcePath dst e fsT hLerr
            by_cases hcond : (!pathExistsB fs sys.fuel (List.dropLast dst)) = true
            · right
              have hdl : (List.dropLast dst) ≠ [] := by
                intro hcon
                rw [hcon] at hcond
                simp [pathExistsB] at hcond
              refine ⟨hdl, ?_⟩
              rw [if_pos hcond] at hA
              have h2 : (create_similar_directory sys fs (List.dropLast sourcePath)
                  (List.dropLast dst)).2 = fsA := by rw [hA]
              have h := csd_changes sys fs (List.dropLast sourcePath)
                (List.dropLast dst) hdl
              rw [h2] at h
              rwa [← hfsT] at h
            · left
              rw [if_neg hcond] at hA
              injection hA with _ h2
              rw [hfsT, ← h2]
        have hdstT : lookupFS fsT dst = lookupFS fs dst := by
          rcases hRel with rfl | ⟨hdl, hR⟩
          · rfl
          · rcases hR dst with h1 | ⟨_, h1b, _⟩ | ⟨h1a, _⟩
            · exact h1
            · exact absurd rfl (pfxB_dropLast_lt dst dst hdne h1b)
            · exact absurd h1a (ne_dropLast_self dst hdne)
        have hdst2 : lookupFS (unlinkOp fsT dst).2 dst = none := by
          rcases unlink_lookup_self fsT dst with h | ⟨m, _, hdir⟩
          · exact h
          · rw [hdstT] at hdir
            exact absurd hdir (hnd m)
        have hS : ∀ x t m, lookupFS (unlinkOp fsT dst).2 x = some (Node.symlink t m) →
            ∃ m0, lookupFS fs x = some (Node.symlink t m0) := by
          intro x t m hx
          by_cases hxd : x = dst
          · rw [hxd, hdst2] at hx; cases hx
          · rw [unlink_lookup_ne fsT dst x hxd] at hx
            rcases hRel with rfl | ⟨_, hR⟩
            · exact ⟨m, hx⟩
            · rcases hR x with h1 | ⟨_, _, m1, h1c⟩ |
                ⟨hqd, n0, n1, h0, _, h1c, h1d, _⟩
              · exact ⟨m, h1.symm.trans hx⟩
              · have := h1c.symm.trans hx
                injection this with hbad
                cases hbad
              · have hn1 := h1c.symm.trans hx
                injection hn1 with hn1'
                rw [hn1'] at h1d
                obtain ⟨m0, hm0⟩ := nodeData_linkD_inv n0 t (by rw [← h1d]; rfl)
                exact ⟨m0, by rw [hqd, h0, hm0]⟩
        have hF : ∀ x c m w, lookupFS (unlinkOp fsT dst).2 x = some (Node.file c m w) →
            lookupFS fs x = some (Node.file c m w) := by
          intro x c m w hx
          by_cases hxd : x = dst
          · rw [hxd, hdst2] at hx; cases hx
          · rw [unlink_lookup_ne fsT dst x hxd] at hx
            rcases hRel with rfl | ⟨_, hR⟩
            · exact hx
            · rcases hR x with h1 | ⟨_, _, m1, h1c⟩ |
                ⟨hqd, n0, n1, h0, _, h1c, _, h1e⟩
              · exact h1.symm.trans hx
              · have := h1c.symm.trans hx
                injection this with hbad
                cases hbad
              · have hn1 := h1c.symm.trans hx
                injection hn1 with hn1'
                exact absurd hn1' (h1e c m w)
        have hdirB2 : isDirB (unlinkOp fsT dst).2 sys.fuel dst = false :=
          isDirB_none _ sys.fuel dst hdne hdst2
        unfold copy2 at hcopy
        rw [hdirB2] at hcopy
        simp only [Bool.false_eq_true, if_false] at hcopy
        by_cases hds : dst = src
        · rw [if_pos hds] at hcopy
          exact absurd hcopy (by simp)
        rw [if_neg hds] at hcopy
        have hsrcne : src ≠ dst := fun hcon => hds hcon.symm
        by_cases hlink : (!follow && islinkB (unlinkOp fsT dst).2 src) = true
        · -- symlink reproduction branch of copy2
          rw [if_pos hlink] at hcopy
          have hfol : follow = false := by
            have h1 := (Bool.and_eq_true _ _ |>.mp hlink).1
            rwa [Bool.not_eq_true'] at h1
          obtain ⟨tgt, m2, hsl⟩ :=
            (islinkB_true_iff _ _).mp (Bool.and_eq_true _ _ |>.mp hlink).2
          rw [hsl] at hcopy
          simp only [] at hcopy
          rw [hdst2] at hcopy
          simp only [Option.isSome_none, Bool.false_eq_true, if_false] at hcopy
          by_cases hpar : isDirB (unlinkOp fsT dst).2 sys.fuel (List.dropLast dst) = true
          · simp only [hpar, Bool.not_true, Bool.false_eq_true, if_false] at hcopy
            injection hcopy with _ hfs3
            subst hfol
            rw [if_neg Bool.false_ne_true] at hsp hK
            have hsrc3 : lookupFS fs3 src = some (Node.symlink tgt m2) := by
              rw [← hfs3, lookupFS_set_ne _ dst src _ hsrcne]
              exact hsl
            have hdst3 : lookupFS fs3 dst =
                some (Node.symlink tgt ⟨procUid, procGid, m2.mode, m2.mtime⟩) := by
              rw [← hfs3]
              exact lookupFS_set_self _ dst _
            rcases stat_chown_tail sys fs3 fs' src dst false src
                (Node.symlink tgt m2) _ (by simp) hsrc3 hdst3 (by simp) hK with
              hfs' | hfs'
            · refine ⟨src, Node.symlink tgt m2,
                Node.symlink tgt ⟨procUid, procGid, m2.mode, m2.mtime⟩,
                hsp.symm, ?_, ?_, rfl, rfl, rfl⟩
              · rw [hfs']
                exact hsrc3
              · rw [hfs']
                exact hdst3
            · refine ⟨src, Node.symlink tgt m2,
                Node.symlink tgt ⟨m2.uid, m2.gid, m2.mode, m2.mtime⟩,
                hsp.symm, ?_, ?_, rfl, rfl, rfl⟩
              · rw [hfs', lookupFS_set_ne _ dst src _ hsrcne]
                exact hsrc3
              · rw [hfs']
                exact lookupFS_set_self _ dst _
          · rw [Bool.not_eq_true] at hpar
            simp only [hpar, Bool.not_false, if_true] at hcopy
            exact absurd hcopy (by simp)
        · -- plain file copy branch of copy2
          rw [if_neg hlink] at hcopy
          cases hres2 : resolvePath (unlinkOp fsT dst).2 sys.fuel src with
          | none =>
            rw [hres2] at hcopy
            exact absurd hcopy (by simp)
          | some sp =>
            rw [hres2] at hcopy
            simp only [] at hcopy
            cases hspn : lookupFS (unlinkOp fsT dst).2 sp with
            | none =>
              rw [hspn] at hcopy
              exact absurd hcopy (by simp)
            | some nsp =>
              rw [hspn] at hcopy
              cases nsp with
              | dir m =>
                simp only [] at hcopy
                exact absurd hcopy (by simp)
              | symlink t m =>
                simp only [] at hcopy
                exact absurd hcopy (by simp)
              | file c m w =>
                simp only [] at hcopy
                rw [resolvePath_none _ sys.fuel dst hdst2] at hcopy
                simp only [] at hcopy
                rw [hdst2] at hcopy
                simp only [] at hcopy
                by_cases hpar : isDirB (unlinkOp fsT dst).2 sys.fuel
                    (List.dropLast dst) = true
                · simp only [hpar, Bool.not_true, Bool.false_eq_true, if_false]
                    at hcopy
                  injection hcopy with _ hfs3
                  obtain ⟨hresA, hspA⟩ := resolve_transfer fs _ hS hF sys.fuel
                    src sp c m w hres2 hspn
                  have hspne : sp ≠ dst := by
                    intro hcon
                    rw [hcon, hdst2] at hspn
                    cases hspn
                  have hsp3 : lookupFS fs3 sp = some (Node.file c m w) := by
                    rw [← hfs3, lookupFS_set_ne _ dst sp _ hspne]
                    exact hspn
                  have hdst3 : lookupFS fs3 dst =
                      some (Node.file c ⟨procUid, procGid, m.mode, m.mtime⟩ w) := by
                    rw [← hfs3]
                    exact lookupFS_set_self _ dst _
                  cases follow with
                  | false =>
                    rw [if_neg Bool.false_ne_true] at hsp hK
                    have hlf : islinkB (unlinkOp fsT dst).2 src = false := by
                      rcases Bool.eq_false_or_eq_true
                          (islinkB (unlinkOp fsT dst).2 src) with h | h
                      · exact absurd (by simp [h]) hlink
                      · exact h
                    have hspsrc : sp = src := by
                      have := resolvePath_of_islink_false _ sys.fuel src hlf
                      rw [this] at hres2
                      injection hres2 with h
                      exact h.symm
                    rcases stat_chown_tail sys fs3 fs' src dst false src
                        (Node.file c m w) _ (by simp) (hspsrc ▸ hsp3) hdst3
                        (by simp) hK with hfs' | hfs'
                    · refine ⟨src, Node.file c m w,
                        Node.file c ⟨procUid, procGid, m.mode, m.mtime⟩ w,
                        hsp.symm, ?_, ?_, rfl, rfl, rfl⟩
                      · rw [hfs']
                        exact hspsrc ▸ hsp3
                      · rw [hfs']
                        exact hdst3
                    · refine ⟨src, Node.file c m w,
                        Node.file c ⟨m.uid, m.gid, m.mode, m.mtime⟩ w,
                        hsp.symm, ?_, ?_, rfl, rfl, rfl⟩
                      · rw [hfs', lookupFS_set_ne _ dst src _ hsrcne]
                        exact hspsrc ▸ hsp3
                      · rw [hfs']
                        exact lookupFS_set_self _ dst _
                  | true =>
                    rw [if_pos rfl] at hsp hK
                    have hres3 : resolvePath fs3 sys.fuel src = some sp := by
                      rw [← hfs3, resolvePath_set_nonlink _ dst _
                        (by intro t mm hcon; rw [hdst2] at hcon; cases hcon)
                        (by intro t mm hcon; cases hcon) sys.fuel src]
                      exact hres2
                    have hconj1 : some sourcePath = some sp := hsp.symm.trans hresA
                    rcases stat_chown_tail sys fs3 fs' src dst true sp
                        (Node.file c m w) _ (by simp [hres3]) hsp3 hdst3
                        (by
                          simp only [if_true]
                          exact resolvePath_nonlink fs3 sys.fuel dst _ hdst3
                            (by intro t mm hcon; cases hcon)) hK with
                      hfs' | hfs'
                    · refine ⟨sp, Node.file c m w,
                        Node.file c ⟨procUid, procGid, m.mode, m.mtime⟩ w,
                        hconj1, ?_, ?_, rfl, rfl, rfl⟩
                      · rw [hfs']
                        exact hsp3
                      · rw [hfs']
                        exact hdst3
                    · refine ⟨sp, Node.file c m w,
                        Node.file c ⟨m.uid, m.gid, m.mode, m.mtime⟩ w,
                        hconj1, ?_, ?_, rfl, rfl, rfl⟩
                      · rw [hfs', lookupFS_set_ne _ dst sp _ hspne]
                        exact hsp3
                      · rw [hfs']
                        exact lookupFS_set_self _ dst _
                · rw [Bool.not_eq_true] at hpar
                  simp only [hpar, Bool.not_false, if_true] at hcopy
                  exact absurd hcopy (by simp)

/-- Witness for C1 (amended) on a concrete filesystem: linking `a` to a fresh
`b` succeeds and `b` carries `a`'s data and metadata. -/
theorem link_or_copy_success_content_witness :
    (∀ m, lookupFS wFS1 ["b"] ≠ some (Node.dir m)) ∧ (["b"] : Path) ≠ [] ∧
    ∃ p' n n',
      (if false then resolvePath wFS1 wSys.fuel ["a"] else some ["a"]) = some p' ∧
      lookupFS (link_or_copy wSys wFS1 ["a"] ["b"] false).2 p' = some n ∧
      lookupFS (link_or_copy wSys wFS1 ["a"] ["b"] false).2 ["b"] = some n' ∧
      nodeData n' = nodeData n ∧
      (nodeMeta n').mode = (nodeMeta n).mode ∧
      (nodeMeta n').mtime = (nodeMeta n).mtime :=
  by
  refine ⟨?_, by decide, ?_⟩
  · intro m hcon
    rw [show lookupFS wFS1 ["b"] = none by decide] at hcon
    cases hcon
  · exact link_or_copy_success_content wSys wFS1
      (link_or_copy wSys wFS1 ["a"] ["b"] false).2 ["a"] ["b"] false (by decide)
      (by
        intro m hcon
        rw [show lookupFS wFS1 ["b"] = none by decide] at hcon
        cases hcon)
      (by decide)

/-! ### C1, C3 counterexamples -/

/-- C1 counterexample: when the destination is an existing directory, the
hard link fails, the unlink of the directory fails and is suppressed, and
`shutil.copy2` copies *into* the directory; the call succeeds but the
destination path is still a directory whose data differs from the source
file's content. -/
theorem link_or_copy_counterexample :
    (link_or_copy wSys cexFS1 ["s"] ["d"] false).1 = none ∧
    (lookupFS cexFS1 ["s"]).map nodeData = some (NData.fileD (Content.text "hello")) ∧
    (lookupFS (link_or_copy wSys cexFS1 ["s"] ["d"] false).2 ["d"]).map nodeData =
      some NData.dirD := by
  decide

/-- C3 counterexample: the destination-only file `d/a/a` has no source entry
at relative path `a/a`, yet `link_or_copy_tree` overwrites it: the source
file `s/a` collides with the destination directory `d/a`, so the fallback
copy descends into the directory and clobbers `d/a/a`. -/
theorem link_or_copy_tree_merge_counterexample :
    (link_or_copy_tree wSys (defaultCopy wSys) cexFS3 ["s"] ["d"]).1 = none ∧
    lookupFS cexFS3 (["s"] ++ ["a", "a"]) = none ∧
    lookupFS cexFS3 (["d"] ++ ["a", "a"]) =
      some (Node.file (Content.text "Y") wMeta true) ∧
    lookupFS (link_or_copy_tree wSys (defaultCopy wSys) cexFS3 ["s"] ["d"]).2
        (["d"] ++ ["a", "a"]) ≠ some (Node.file (Content.text "Y") wMeta true) := by
  decide

/-! ### Path-prefix utilities for the tree walk -/

theorem pfxB_append_right (x a b : Path) (h : pfxB a b = true) :
    pfxB (x ++ a) (x ++ b) = true := by
  induction x with
  | nil => exact h
  | cons y ys ih => simp [pfxB, ih]

theorem pfxB_cancel (x a b : Path) (h : pfxB (x ++ a) (x ++ b) = true) :
    pfxB a b = true := by
  induction x with
  | nil => exact h
  | cons y ys ih =>
    simp only [List.cons_append, pfxB, Bool.and_eq_true, beq_iff_eq] at h
    exact ih h.2

theorem pfxB_of_shorter (a b c : Path) (h1 : pfxB a c = true)
    (h2 : pfxB b c = true) (hlen : a.length ≤ b.length) : pfxB a b = true := by
  induction a generalizing b c with
  | nil => rfl
  | cons x xs ih =>
    cases c with
    | nil => simp [pfxB] at h1
    | cons z cs =>
      cases b with
      | nil => simp at hlen
      | cons y bs =>
        simp only [pfxB, Bool.and_eq_true, beq_iff_eq] at h1 h2 ⊢
        exact ⟨h1.1.trans h2.1.symm, ih bs cs h1.2 h2.2 (by simpa using hlen)⟩

theorem pfxB_comparable (a b r : Path) (h : pfxB a (b ++ r) = true) :
    pfxB a b = true ∨ pfxB b a = true := by
  rcases Nat.le_total a.length b.length with hl | hl
  · exact Or.inl (pfxB_of_shorter a b (b ++ r) h (pfxB_append b r) hl)
  · exact Or.inr (pfxB_of_shorter b a (b ++ r) (pfxB_append b r) h hl)

theorem append_ne_of_disj (srcT dstT : Path) (hd1 : pfxB srcT dstT = false)
    (hd2 : pfxB dstT srcT = false) (a b : Path) : srcT ++ a ≠ dstT ++ b := by
  intro hcon
  have h1 : pfxB srcT (dstT ++ b) = true := by
    rw [← hcon]; exact pfxB_append srcT a
  rcases pfxB_comparable srcT dstT b h1 with h | h
  · rw [h] at hd1; cases hd1
  · rw [h] at hd2; cases hd2

theorem pfxB_eq_of_length (a b : Path) (h : pfxB a b = true)
    (hl : a.length = b.length) : a = b := by
  obtain ⟨r, rfl⟩ := (pfxB_exists a b).mp h
  have hr : r.length = 0 := by
    rw [List.length_append] at hl
    omega
  rw [List.eq_nil_of_length_eq_zero hr, List.append_nil]

theorem pfxB_false_of_longer (a b : Path) (h : b.length < a.length) :
    pfxB a b = false := by
  rcases Bool.eq_false_or_eq_true (pfxB a b) with ht | hf
  · exact absurd (pfxB_length a b ht) (Nat.not_le_of_lt h)
  · exact hf

theorem append_nonempty (x r : Path) (hr : r ≠ []) : x ++ r ≠ [] := by
  intro hcon
  exact hr (List.append_eq_nil.mp hcon).2

theorem dropLast_append_ne (x r : Path) (hr : r ≠ []) :
    (x ++ r).dropLast = x ++ r.dropLast := by
  induction x with
  | nil => rfl
  | cons y ys ih =>
    cases hE : ys ++ r with
    | nil => exact absurd (List.append_eq_nil.mp hE).2 hr
    | cons z zs =>
      rw [List.cons_append]
      rw [show (y :: (ys ++ r)).dropLast = y :: (ys ++ r).dropLast from by
        rw [hE]; rfl]
      rw [ih]
      rfl

/-! ### Directory-listing lemmas -/

theorem lookup_isSome_of_memKeys (fs : FS) (q : Path)
    (h : q ∈ fs.map Prod.fst) : (lookupFS fs q).isSome = true := by
  induction fs with
  | nil => rw [List.map_nil] at h; cases h
  | cons e rest ih =>
    obtain ⟨p0, n0⟩ := e
    simp only [List.map_cons, List.mem_cons] at h
    by_cases hq : p0 = q
    · simp [lookupFS, hq]
    · rcases h with h | h
      · exact absurd h.symm hq
      · simpa [lookupFS, hq] using ih h

theorem memKeys_of_lookup_isSome (fs : FS) (q : Path)
    (h : (lookupFS fs q).isSome = true) : q ∈ fs.map Prod.fst := by
  induction fs with
  | nil => simp [lookupFS] at h
  | cons e rest ih =>
    obtain ⟨p0, n0⟩ := e
    simp only [lookupFS] at h
    by_cases hq : p0 = q
    · rw [List.map_cons, hq]
      exact List.mem_cons_self _ _
    · rw [if_neg hq] at h
      rw [List.map_cons]
      exact List.mem_cons_of_mem _ (ih h)

theorem childName_eq (p q : Path) (a : String) (h : childName p q = some a) :
    q = p ++ [a] := by
  unfold childName at h
  by_cases hc : (q.length = p.length + 1 && pfxB p q) = true
  · rw [if_pos hc] at h
    obtain ⟨hlen, hpfx⟩ := Bool.and_eq_true _ _ |>.mp hc
    have hlen' : q.length = p.length + 1 := of_decide_eq_true hlen
    obtain ⟨r, rfl⟩ := (pfxB_exists p q).mp hpfx
    have hr : r.length = 1 := by
      rw [List.length_append] at hlen'
      omega
    obtain ⟨x, rfl⟩ := List.length_eq_one.mp hr
    rw [List.getLast?_concat] at h
    injection h with h
    rw [h]
  · rw [if_neg hc] at h; cases h

theorem childNames_mem_lookup (fs : FS) (p : Path) (a : String)
    (h : a ∈ childNames fs p) : (lookupFS fs (p ++ [a])).isSome = true := by
  unfold childNames at h
  rw [List.mem_dedup] at h
  obtain ⟨q, hq, hcn⟩ := List.mem_filterMap.mp h
  rw [← childName_eq p q a hcn]
  exact lookup_isSome_of_memKeys fs q hq

theorem mem_childNames_of_lookup (fs : FS) (p : Path) (a : String)
    (h : (lookupFS fs (p ++ [a])).isSome = true) : a ∈ childNames fs p := by
  unfold childNames
  rw [List.mem_dedup]
  refine List.mem_filterMap.mpr ⟨p ++ [a], memKeys_of_lookup_isSome fs _ h, ?_⟩
  unfold childName
  rw [if_pos (by simp [pfxB_append])]
  exact List.getLast?_concat _

theorem childNames_nodup (fs : FS) (p : Path) : (childNames fs p).Nodup :=
  List.nodup_dedup _

theorem isDirB_raw (fs : FS) (fuel : Nat) (p : Path) (hp : p ≠ [])
    (h : isDirB fs fuel p = true) :
    (∃ m, lookupFS fs p = some (Node.dir m)) ∨
    (∃ t m, lookupFS fs p = some (Node.symlink t m)) := by
  cases hl : lookupFS fs p with
  | none =>
    rw [isDirB, resolveNode, resolvePath_none fs fuel p hl] at h
    simp only [Option.some_bind] at h
    rw [hl] at h
    simp [List.isEmpty_iff, hp] at h
  | some n =>
    cases n with
    | dir m => exact Or.inl ⟨m, rfl⟩
    | symlink t m => exact Or.inr ⟨t, m, rfl⟩
    | file c m w =>
      rw [isDirB, resolveNode, resolvePath_nonlink fs fuel p _ hl
        (by intro t mm hc; cases hc)] at h
      simp only [Option.some_bind] at h
      rw [hl] at h
      simp [List.isEmpty_iff, hp] at h

theorem isDirB_dir (fs : FS) (fuel : Nat) (p : Path) (m : Meta)
    (h : lookupFS fs p = some (Node.dir m)) : isDirB fs fuel p = true := by
  rw [isDirB, resolveNode, resolvePath_nonlink fs fuel p _ h
    (by intro t mm hc; cases hc)]
  simp only [Option.some_bind]
  rw [h]
  simp

/-! ### Visitability and untouched paths -/

theorem vis_pfx (fs0 : FS) (srcT r s : Path)
    (hv : Visitable fs0 srcT r) (hs : pfxB s r = true) (hne : s ≠ []) :
    Visitable fs0 srcT s := by
  by_cases hsr : s = r
  · rw [hsr]; exact hv
  refine ⟨hne, ?_, ?_⟩
  · obtain ⟨m, hm⟩ := hv.2.2 s hs hne hsr
    rw [hm]; rfl
  · intro s2 hs2 hne2 hner2
    refine hv.2.2 s2 (pfxB_trans s2 s r hs2 hs) hne2 ?_
    intro hcon
    subst hcon
    exact hsr (pfxB_eq_of_length s s2 hs
      (Nat.le_antisymm (pfxB_length s s2 hs) (pfxB_length s2 s hs2)))

theorem vis_child (fs0 : FS) (srcT rel : Path) (a : String)
    (hroot : rel = [] ∨ (Visitable fs0 srcT rel ∧ RealDirAt fs0 (srcT ++ rel)))
    (hent : (lookupFS fs0 (srcT ++ (rel ++ [a]))).isSome = true) :
    Visitable fs0 srcT (rel ++ [a]) := by
  refine ⟨append_nonempty rel [a] (by simp), hent, ?_⟩
  intro s hs hne hner
  have hlen : s.length ≤ rel.length + 1 := by
    have h1 := pfxB_length s (rel ++ [a]) hs
    simpa [List.length_append] using h1
  have hlt : s.length ≠ rel.length + 1 := by
    intro hcon
    refine hner (pfxB_eq_of_length s (rel ++ [a]) hs ?_)
    simp [List.length_append, hcon]
  have hlen2 : s.length ≤ rel.length := by omega
  have hsrel : pfxB s rel = true :=
    pfxB_of_shorter s rel (rel ++ [a]) hs (pfxB_append rel [a]) hlen2
  rcases hroot with hrel0 | ⟨hvis, hreal⟩
  · subst hrel0
    cases s with
    | nil => exact absurd rfl hne
    | cons x xs => simp [pfxB] at hsrel
  · by_cases hseq : s = rel
    · subst hseq; exact hreal
    · exact hvis.2.2 s hsrel hne hseq

theorem untouched_child (fs0 : FS) (srcT dstT rel : Path) (a : String) (q : Path)
    (hvis : Visitable fs0 srcT (rel ++ [a]))
    (h : UnTouched fs0 srcT dstT rel q) :
    UnTouched fs0 srcT dstT (rel ++ [a]) q := by
  intro r' hpfx hcase
  refine h r' (pfxB_trans rel (rel ++ [a]) r' (pfxB_append rel [a]) hpfx) ?_
  rcases hcase with hcase | hcase
  · exact Or.inr (hcase ▸ hvis)
  · exact Or.inr hcase

theorem stepRel_refl (srcT dstT : Path) (fs0 : FS) (rel : Path) (fsA : FS) :
    StepRel srcT dstT fs0 rel fsA fsA :=
  fun hinv => ⟨hinv, fun _ _ => rfl⟩

theorem stepRel_trans (srcT dstT : Path) (fs0 : FS) (rel : Path) (a b c : FS)
    (h1 : StepRel srcT dstT fs0 rel a b) (h2 : StepRel srcT dstT fs0 rel b c) :
    StepRel srcT dstT fs0 rel a c := by
  intro hinv
  obtain ⟨hinvb, hf1⟩ := h1 hinv
  obtain ⟨hinvc, hf2⟩ := h2 hinvb
  exact ⟨hinvc, fun q hq => (hf2 q hq).trans (hf1 q hq)⟩

/-! ### Preservation of the walk invariant by single operations -/

theorem withOwner_dir_inv (n : Node) (u g : Nat) (m : Meta)
    (h : withOwner n u g = Node.dir m) : ∃ m0, n = Node.dir m0 := by
  cases n with
  | file c m0 w => cases h
  | dir m0 => exact ⟨m0, rfl⟩
  | symlink t m0 => cases h

theorem walkinv_set_nondir (srcT dstT : Path) (fs0 : FS) (r : Path) (fsC : FS)
    (n : Node) (hd1 : pfxB srcT dstT = false) (hd2 : pfxB dstT srcT = false)
    (hinv : WalkInv srcT dstT fs0 fsC) (hn : ∀ m, n ≠ Node.dir m) :
    WalkInv srcT dstT fs0 (setNode fsC (dstT ++ r) n) := by
  constructor
  · intro a
    rw [lookupFS_set_ne fsC (dstT ++ r) (srcT ++ a) n
      (append_ne_of_disj srcT dstT hd1 hd2 a r)]
    exact hinv.1 a
  · intro p mm hp hdir
    by_cases hpr : dstT ++ p = dstT ++ r
    · rw [hpr, lookupFS_set_self] at hdir
      injection hdir with hdir'
      exact absurd hdir' (hn mm)
    · rw [lookupFS_set_ne fsC (dstT ++ r) (dstT ++ p) n hpr] at hdir
      exact hinv.2 p mm hp hdir

theorem walkinv_set_withOwner (srcT dstT : Path) (fs0 : FS) (r : Path)
    (fsC : FS) (n : Node) (u g : Nat)
    (hd1 : pfxB srcT dstT = false) (hd2 : pfxB dstT srcT = false)
    (hinv : WalkInv srcT dstT fs0 fsC)
    (hn : lookupFS fsC (dstT ++ r) = some n) :
    WalkInv srcT dstT fs0 (setNode fsC (dstT ++ r) (withOwner n u g)) := by
  constructor
  · intro a
    rw [lookupFS_set_ne fsC (dstT ++ r) (srcT ++ a) _
      (append_ne_of_disj srcT dstT hd1 hd2 a r)]
    exact hinv.1 a
  · intro p mm hp hdir
    by_cases hpr : dstT ++ p = dstT ++ r
    · rw [hpr, lookupFS_set_self] at hdir
      injection hdir with hdir'
      obtain ⟨m0, hm0⟩ := withOwner_dir_inv n u g mm hdir'
      have hpr' : p = r := List.append_cancel_left hpr
      subst hpr'
      exact hinv.2 p m0 hp (by rw [hn, hm0])
    · rw [lookupFS_set_ne fsC (dstT ++ r) (dstT ++ p) _ hpr] at hdir
      exact hinv.2 p mm hp hdir

theorem walkinv_unlink (srcT dstT : Path) (fs0 : FS) (r : Path) (fsC : FS)
    (hd1 : pfxB srcT dstT = false) (hd2 : pfxB dstT srcT = false)
    (hinv : WalkInv srcT dstT fs0 fsC) :
    WalkInv srcT dstT fs0 (unlinkOp fsC (dstT ++ r)).2 := by
  constructor
  · intro a
    rw [unlink_lookup_ne fsC (dstT ++ r) (srcT ++ a)
      (append_ne_of_disj srcT dstT hd1 hd2 a r)]
    exact hinv.1 a
  · intro p mm hp hdir
    by_cases hpr : dstT ++ p = dstT ++ r
    · rw [hpr] at hdir
      rcases unlink_lookup_self fsC (dstT ++ r) with hnone | ⟨m2, hm2, hprior⟩
      · rw [hnone] at hdir; cases hdir
      · rw [hm2] at hdir
        injection hdir with hdir'
        have hpr' : p = r := List.append_cancel_left hpr
        subst hpr'
        exact hinv.2 p m2 hp hprior
    · rw [unlink_lookup_ne fsC (dstT ++ r) (dstT ++ p) hpr] at hdir
      exact hinv.2 p mm hp hdir

/-! ### Effect of one copy step on the walk invariant -/

theorem cloner_step (sys : Sys) (srcT dstT : Path) (fs0 : FS)
    (hd1 : pfxB srcT dstT = false) (hd2 : pfxB dstT srcT = false)
    (r : Path) (hvis : Visitable fs0 srcT r) (hreal : RealDirAt fs0 (srcT ++ r))
    (s' : Path) (fsC : FS) (hinv : WalkInv srcT dstT fs0 fsC) :
    WalkInv srcT dstT fs0 (create_similar_directory sys fsC s' (dstT ++ r)).2 ∧
    ∀ q, pfxB q (dstT ++ r) = false →
      lookupFS (create_similar_directory sys fsC s' (dstT ++ r)).2 q =
        lookupFS fsC q := by
  have hdne : dstT ++ r ≠ [] := append_nonempty dstT r hvis.1
  have hrel := csd_changes sys fsC s' (dstT ++ r) hdne
  constructor
  · constructor
    · intro a
      rcases hrel (srcT ++ a) with h1 | ⟨_, h1b, _⟩ | ⟨h1a, _⟩
      · rw [h1]; exact hinv.1 a
      · exfalso
        have h2 : pfxB srcT (dstT ++ r) = true :=
          pfxB_trans srcT (srcT ++ a) (dstT ++ r) (pfxB_append srcT a) h1b
        rcases pfxB_comparable srcT dstT r h2 with h | h
        · rw [h] at hd1; cases hd1
        · rw [h] at hd2; cases hd2
      · exact absurd h1a (append_ne_of_disj srcT dstT hd1 hd2 a r)
    · intro p mm hp hdir
      rcases hrel (dstT ++ p) with h1 | ⟨_, h1b, _⟩ | ⟨h1a, _⟩
      · rw [h1] at hdir
        exact hinv.2 p mm hp hdir
      · have hpr : pfxB p r = true := pfxB_cancel dstT p r h1b
        right
        refine ⟨vis_pfx fs0 srcT r p hvis hpr hp, ?_⟩
        by_cases hpe : p = r
        · rw [hpe]; exact hreal
        · exact hvis.2.2 p hpr hp hpe
      · have hpr : p = r := List.append_cancel_left h1a
        subst hpr
        exact Or.inr ⟨hvis, hreal⟩
  · intro q hq
    rcases hrel q with h1 | ⟨_, h1b, _⟩ | ⟨h1a, _⟩
    · exact h1
    · rw [h1b] at hq; cases hq
    · subst h1a
      rw [pfxB_refl] at hq; cases hq

theorem cloner_parent_step (sys : Sys) (srcT dstT : Path) (fs0 : FS)
    (hd1 : pfxB srcT dstT = false) (hd2 : pfxB dstT srcT = false)
    (r : Path) (hvis : Visitable fs0 srcT r)
    (hdl : List.dropLast (dstT ++ r) ≠ [])
    (s' : Path) (fsC : FS) (hinv : WalkInv srcT dstT fs0 fsC) :
    WalkInv srcT dstT fs0
      (create_similar_directory sys fsC s' (List.dropLast (dstT ++ r))).2 ∧
    ∀ q, pfxB q (dstT ++ r) = false →
      lookupFS (create_similar_directory sys fsC s'
        (List.dropLast (dstT ++ r))).2 q = lookupFS fsC q := by
  have hrne : r ≠ [] := hvis.1
  have hdeq : List.dropLast (dstT ++ r) = dstT ++ r.dropLast :=
    dropLast_append_ne dstT r hrne
  by_cases hrd : r.dropLast = []
  · have hdeq2 : List.dropLast (dstT ++ r) = dstT := by
      rw [hdeq, hrd, List.append_nil]
    rw [hdeq2]
    have hdstne : dstT ≠ [] := by rw [hdeq2] at hdl; exact hdl
    have hrel := csd_changes sys fsC s' dstT hdstne
    constructor
    · constructor
      · intro a
        rcases hrel (srcT ++ a) with h1 | ⟨_, h1b, _⟩ | ⟨h1a, _⟩
        · rw [h1]; exact hinv.1 a
        · exfalso
          have h2 : pfxB srcT dstT = true :=
            pfxB_trans srcT (srcT ++ a) dstT (pfxB_append srcT a) h1b
          rw [h2] at hd1; cases hd1
        · exfalso
          have h2 : pfxB srcT dstT = true := by
            rw [← h1a]; exact pfxB_append srcT a
          rw [h2] at hd1; cases hd1
      · intro p mm hp hdir
        rcases hrel (dstT ++ p) with h1 | ⟨_, h1b, _⟩ | ⟨h1a, _⟩
        · rw [h1] at hdir; exact hinv.2 p mm hp hdir
        · exfalso
          have h2 := pfxB_length (dstT ++ p) dstT h1b
          rw [List.length_append] at h2
          have h3 : 0 < p.length := List.length_pos.mpr hp
          omega
        · exfalso
          have h3 := congrArg List.length h1a
          rw [List.length_append] at h3
          have h4 : p.length = 0 := by omega
          exact hp (List.eq_nil_of_length_eq_zero h4)
    · intro q hq
      rcases hrel q with h1 | ⟨_, h1b, _⟩ | ⟨h1a, _⟩
      · exact h1
      · exfalso
        have h2 : pfxB q (dstT ++ r) = true :=
          pfxB_trans q dstT (dstT ++ r) h1b (pfxB_append dstT r)
        rw [h2] at hq; cases hq
      · exfalso
        subst h1a
        rw [pfxB_append] at hq; cases hq
  · rw [hdeq]
    have hpfxd : pfxB r.dropLast r = true := pfxB_dropLast r hrne
    have hvisd : Visitable fs0 srcT r.dropLast :=
      vis_pfx fs0 srcT r r.dropLast hvis hpfxd hrd
    have hreald : RealDirAt fs0 (srcT ++ r.dropLast) :=
      hvis.2.2 r.dropLast hpfxd hrd (Ne.symm (ne_dropLast_self r hrne))
    obtain ⟨hI, hF⟩ := cloner_step sys srcT dstT fs0 hd1 hd2 r.dropLast hvisd
      hreald s' fsC hinv
    refine ⟨hI, ?_⟩
    intro q hq
    refine hF q ?_
    rcases Bool.eq_false_or_eq_true (pfxB q (dstT ++ r.dropLast)) with ht | hf
    · exfalso
      have h2 : pfxB q (dstT ++ r) = true :=
        pfxB_trans q (dstT ++ r.dropLast) (dstT ++ r) ht
          (pfxB_append_right dstT r.dropLast r hpfxd)
      rw [h2] at hq; cases hq
    · exact hf

theorem walkinv_chown (sys : Sys) (srcT dstT : Path) (fs0 : FS) (r : Path)
    (fsC : FS) (u g : Nat)
    (hd1 : pfxB srcT dstT = false) (hd2 : pfxB dstT srcT = false)
    (hinv : WalkInv srcT dstT fs0 fsC) :
    WalkInv srcT dstT fs0 (suppressPerm (chownOp sys fsC (dstT ++ r) u g false)).2 ∧
    ∀ q, q ≠ dstT ++ r →
      lookupFS (suppressPerm (chownOp sys fsC (dstT ++ r) u g false)).2 q =
        lookupFS fsC q := by
  constructor
  · constructor
    · intro a
      rcases chown_changes sys fsC (dstT ++ r) u g false (srcT ++ a) with
        h1 | ⟨p0, n, hp0, hqe, _, _⟩
      · rw [h1]; exact hinv.1 a
      · rw [if_neg Bool.false_ne_true] at hp0
        injection hp0 with hp0'
        subst hp0'
        exact absurd hqe (append_ne_of_disj srcT dstT hd1 hd2 a r)
    · intro p mm hp hdir
      rcases chown_changes sys fsC (dstT ++ r) u g false (dstT ++ p) with
        h1 | ⟨p0, n, hp0, hqe, hn, hout⟩
      · rw [h1] at hdir; exact hinv.2 p mm hp hdir
      · rw [if_neg Bool.false_ne_true] at hp0
        injection hp0 with hp0'
        subst hp0'
        rw [hout] at hdir
        injection hdir with hdir'
        obtain ⟨m0, hm0⟩ := withOwner_dir_inv n u g mm hdir'
        have hpr' : p = r := List.append_cancel_left hqe
        subst hpr'
        exact hinv.2 p m0 hp (by rw [hn, hm0])
  · intro q hq
    rcases chown_changes sys fsC (dstT ++ r) u g false q with
      h1 | ⟨p0, n, hp0, hqe, _, _⟩
    · exact h1
    · rw [if_neg Bool.false_ne_true] at hp0
      injection hp0 with hp0'
      subst hp0'
      exact absurd hqe hq

theorem unlink_dst_none (srcT dstT : Path) (fs0 : FS)
    (hnoc : ∀ rr, Visitable fs0 srcT rr →
      (∀ mm, lookupFS fs0 (srcT ++ rr) ≠ some (Node.dir mm)) →
      ∀ mm, lookupFS fs0 (dstT ++ rr) ≠ some (Node.dir mm))
    (r : Path) (hvis : Visitable fs0 srcT r)
    (hsrcnd : ∀ mm, lookupFS fs0 (srcT ++ r) ≠ some (Node.dir mm))
    (fsT : FS) (hinv : WalkInv srcT dstT fs0 fsT) :
    lookupFS (unlinkOp fsT (dstT ++ r)).2 (dstT ++ r) = none := by
  rcases unlink_lookup_self fsT (dstT ++ r) with h | ⟨m, hm, hprior⟩
  · exact h
  · exfalso
    rcases hinv.2 r m hvis.1 hprior with ⟨m0, hm0⟩ | ⟨_, hreal⟩
    · exact hnoc r hvis hsrcnd m0 hm0
    · obtain ⟨m1, hm1⟩ := hreal
      exact hsrcnd m1 hm1

/-- All the ways `shutil.copy2` can leave the filesystem when the destination
path is free: unchanged, or with exactly one non-directory node written at the
destination. -/
theorem copy2_out (sys : Sys) (fs2 : FS) (src' dst' : Path)
    (hd : lookupFS fs2 dst' = none) (hdne : dst' ≠ []) (hne : dst' ≠ src') :
    (copy2 sys fs2 src' dst' false).2 = fs2 ∨
    ∃ n, (∀ m, n ≠ Node.dir m) ∧
      (copy2 sys fs2 src' dst' false).2 = setNode fs2 dst' n := by
  have hdB : isDirB fs2 sys.fuel dst' = false := isDirB_none fs2 sys.fuel dst' hdne hd
  unfold copy2
  simp only []
  rw [hdB]
  simp only [Bool.false_eq_true, if_false]
  rw [if_neg hne]
  simp only [Bool.not_false, Bool.true_and]
  by_cases hlink : islinkB fs2 src' = true
  · rw [if_pos hlink]
    obtain ⟨tgt, m2, hsl⟩ := (islinkB_true_iff fs2 src').mp hlink
    rw [hsl]
    simp only []
    rw [hd]
    simp only [Option.isSome_none, Bool.false_eq_true, if_false]
    by_cases hpar : isDirB fs2 sys.fuel (List.dropLast dst') = true
    · simp only [hpar, Bool.not_true, Bool.false_eq_true, if_false]
      right
      refine ⟨Node.symlink tgt ⟨procUid, procGid, m2.mode, m2.mtime⟩, ?_, rfl⟩
      intro m hcon
      cases hcon
    · rw [Bool.not_eq_true] at hpar
      simp only [hpar, Bool.not_false, if_true]
      left; trivial
  · rw [Bool.not_eq_true] at hlink
    rw [hlink, if_neg Bool.false_ne_true]
    cases hres : resolvePath fs2 sys.fuel src' with
    | none => left; rfl
    | some sp =>
      simp only []
      cases hsp : lookupFS fs2 sp with
      | none => left; rfl
      | some nsp =>
        cases nsp with
        | dir m => left; rfl
        | symlink t m => left; rfl
        | file c m w =>
          simp only []
          rw [resolvePath_none fs2 sys.fuel dst' hd]
          simp only []
          rw [hd]
          simp only []
          by_cases hpar : isDirB fs2 sys.fuel (List.dropLast dst') = true
          · simp only [hpar, Bool.not_true, Bool.false_eq_true, if_false]
            right
            refine ⟨Node.file c ⟨procUid, procGid, m.mode, m.mtime⟩ w, ?_, rfl⟩
            intro mq hcon
            cases hcon
          · rw [Bool.not_eq_true] at hpar
            simp only [hpar, Bool.not_false, if_true]
            left; trivial

/-- Outcome-agnostic effect of one `link_or_copy` file-copy step of the tree
walk: the walk invariant is preserved and only paths into the destination
image of the copied entry change. -/
theorem copy_step (sys : Sys) (srcT dstT : Path) (fs0 : FS)
    (hd1 : pfxB srcT dstT = false) (hd2 : pfxB dstT srcT = false)
    (hnoc : ∀ rr, Visitable fs0 srcT rr →
      (∀ mm, lookupFS fs0 (srcT ++ rr) ≠ some (Node.dir mm)) →
      ∀ mm, lookupFS fs0 (dstT ++ rr) ≠ some (Node.dir mm))
    (r : Path) (hvis : Visitable fs0 srcT r)
    (hsrcnd : ∀ mm, lookupFS fs0 (srcT ++ r) ≠ some (Node.dir mm))
    (fsC : FS) (hinv : WalkInv srcT dstT fs0 fsC) :
    WalkInv srcT dstT fs0 (link_or_copy sys fsC (srcT ++ r) (dstT ++ r) false).2 ∧
    ∀ q, pfxB q (dstT ++ r) = false →
      lookupFS (link_or_copy sys fsC (srcT ++ r) (dstT ++ r) false).2 q =
        lookupFS fsC q := by
  have hsr : srcT ++ r ≠ dstT ++ r := append_ne_of_disj srcT dstT hd1 hd2 r r
  have hds : dstT ++ r ≠ srcT ++ r := fun hcon => hsr hcon.symm
  have hdne : dstT ++ r ≠ [] := append_nonempty dstT r hvis.1
  cases hLC : link_or_copy sys fsC (srcT ++ r) (dstT ++ r) false with
  | mk eO fsO =>
    simp only []
    unfold link_or_copy at hLC
    rw [if_neg Bool.false_ne_true] at hLC
    simp only [] at hLC
    have hbr : WalkInv srcT dstT fs0
        ((if (!pathExistsB fsC sys.fuel (List.dropLast (dstT ++ r))) = true then
          create_similar_directory sys fsC (List.dropLast (srcT ++ r))
            (List.dropLast (dstT ++ r))
        else (none, fsC)) : R).2 ∧
        ∀ q, pfxB q (dstT ++ r) = false →
          lookupFS ((if (!pathExistsB fsC sys.fuel (List.dropLast (dstT ++ r))) = true then
            create_similar_directory sys fsC (List.dropLast (srcT ++ r))
              (List.dropLast (dstT ++ r))
          else (none, fsC)) : R).2 q = lookupFS fsC q := by
      by_cases hcond : (!pathExistsB fsC sys.fuel (List.dropLast (dstT ++ r))) = true
      · rw [if_pos hcond]
        have hdl : List.dropLast (dstT ++ r) ≠ [] := by
          intro hcon
          rw [hcon] at hcond
          simp [pathExistsB] at hcond
        exact cloner_parent_step sys srcT dstT fs0 hd1 hd2 r hvis hdl _ fsC hinv
      · rw [if_neg hcond]
        exact ⟨hinv, fun q _ => rfl⟩
    cases hTry : andThen
        (if (!pathExistsB fsC sys.fuel (List.dropLast (dstT ++ r))) = true then
          create_similar_directory sys fsC (List.dropLast (srcT ++ r))
            (List.dropLast (dstT ++ r))
        else (none, fsC))
        (fun fs1 => osLink sys fs1 (srcT ++ r) (dstT ++ r)) with
    | mk eT fsT =>
      rw [hTry] at hLC
      cases eT with
      | none =>
        simp only [] at hLC
        injection hLC with heO hfsO
        obtain ⟨fsA, hA, hL⟩ := (andThen_ok_iff _ _ _).mp hTry
        obtain ⟨nL, hsrcA, hnotdir, hdstA, hset⟩ :=
          osLink_ok sys fsA (srcT ++ r) (dstT ++ r) fsT hL
        rw [hA] at hbr
        simp only [] at hbr
        constructor
        · rw [← hfsO, hset]
          exact walkinv_set_nondir srcT dstT fs0 r fsA nL hd1 hd2 hbr.1 hnotdir
        · intro q hq
          rw [← hfsO, hset, lookupFS_set_ne fsA (dstT ++ r) q nL
            (fun hcon => by rw [hcon, pfxB_refl] at hq; cases hq)]
          exact hbr.2 q hq
      | some e =>
        simp only [] at hLC
        have hTfacts : WalkInv srcT dstT fs0 fsT ∧
            ∀ q, pfxB q (dstT ++ r) = false → lookupFS fsT q = lookupFS fsC q := by
          rcases andThen_eq_err _ _ e fsT hTry with hAerr | ⟨fsA, hA, hLerr⟩
          · rw [hAerr] at hbr
            simp only [] at hbr
            exact hbr
          · have hfsT : fsT = fsA := osLink_fail sys fsA _ _ e fsT hLerr
            rw [hA] at hbr
            simp only [] at hbr
            rw [hfsT]
            exact hbr
        by_cases he : e = Err.fuelOut
        · rw [if_pos he] at hLC
          injection hLC with heO hfsO
          rw [← hfsO]
          exact hTfacts
        · rw [if_neg he] at hLC
          have hinv2 : WalkInv srcT dstT fs0 (unlinkOp fsT (dstT ++ r)).2 :=
            walkinv_unlink srcT dstT fs0 r fsT hd1 hd2 hTfacts.1
          have hframe2 : ∀ q, pfxB q (dstT ++ r) = false →
              lookupFS (unlinkOp fsT (dstT ++ r)).2 q = lookupFS fsC q := by
            intro q hq
            rw [unlink_lookup_ne fsT (dstT ++ r) q
              (fun hcon => by rw [hcon, pfxB_refl] at hq; cases hq)]
            exact hTfacts.2 q hq
          have hdst2 : lookupFS (unlinkOp fsT (dstT ++ r)).2 (dstT ++ r) = none :=
            unlink_dst_none srcT dstT fs0 hnoc r hvis hsrcnd fsT hTfacts.1
          cases hcopy : copy2 sys (unlinkOp fsT (dstT ++ r)).2 (srcT ++ r)
              (dstT ++ r) false with
          | mk eC fs3 =>
            have h3facts : WalkInv srcT dstT fs0 fs3 ∧
                ∀ q, pfxB q (dstT ++ r) = false →
                  lookupFS fs3 q = lookupFS fsC q := by
              rcases copy2_out sys (unlinkOp fsT (dstT ++ r)).2 (srcT ++ r)
                  (dstT ++ r) hdst2 hdne hds with hc2 | ⟨nC, hnd2, hc2⟩
              · rw [hcopy] at hc2
                simp only [] at hc2
                rw [hc2]
                exact ⟨hinv2, hframe2⟩
              · rw [hcopy] at hc2
                simp only [] at hc2
                rw [hc2]
                refine ⟨walkinv_set_nondir srcT dstT fs0 r _ nC hd1 hd2 hinv2 hnd2, ?_⟩
                intro q hq
                rw [lookupFS_set_ne _ (dstT ++ r) q nC
                  (fun hcon => by rw [hcon, pfxB_refl] at hq; cases hq)]
                exact hframe2 q hq
            rw [hcopy] at hLC
            cases eC with
            | some e2 =>
              simp only [andThen] at hLC
              injection hLC with heO hfsO
              rw [← hfsO]
              exact h3facts
            | none =>
              simp only [andThen] at hLC
              rw [if_neg Bool.false_ne_true] at hLC
              simp only [] at hLC
              cases hstat : lookupFS fs3 (srcT ++ r) with
              | none =>
                rw [hstat] at hLC
                simp only [] at hLC
                injection hLC with heO hfsO
                rw [← hfsO]
                exact h3facts
              | some ns =>
                rw [hstat] at hLC
                simp only [] at hLC
                have hfsO : fsO = (suppressPerm (chownOp sys fs3 (dstT ++ r)
                    (nodeMeta ns).uid (nodeMeta ns).gid false)).2 := by
                  rw [hLC]
                obtain ⟨hICh, hFCh⟩ := walkinv_chown sys srcT dstT fs0 r fs3
                  (nodeMeta ns).uid (nodeMeta ns).gid hd1 hd2 h3facts.1
                constructor
                · rw [hfsO]
                  exact hICh
                · intro q hq
                  rw [hfsO, hFCh q
                    (fun hcon => by rw [hcon, pfxB_refl] at hq; cases hq)]
                  exact h3facts.2 q hq

/-! ### Fold lemmas for the tree walk -/

theorem walkGo_succ (sys : Sys) (copyFn : FS → Path → Path → R)
    (srcT dstT : Path) (f : Nat) (fs : FS) (rel : Path) :
    walkGo sys copyFn srcT dstT (f + 1) fs rel =
      andThen
        (((childNames fs (srcT ++ rel)).filter
            (fun a => isDirB fs sys.fuel (srcT ++ rel ++ [a]))).foldl
          (dirStepF sys srcT dstT rel) ((none, fs), [])).1
        (fun fs1 =>
          andThen
            ((((childNames fs (srcT ++ rel)).filter
                (fun a => !(isDirB fs sys.fuel (srcT ++ rel ++ [a])))) ++
              (((childNames fs (srcT ++ rel)).filter
                  (fun a => isDirB fs sys.fuel (srcT ++ rel ++ [a]))).foldl
                (dirStepF sys srcT dstT rel) ((none, fs), [])).2).foldl
              (copyStepF copyFn srcT dstT rel) (none, fs1))
            (fun fs2 =>
              ((childNames fs (srcT ++ rel)).filter
                  (fun a => isDirB fs sys.fuel (srcT ++ rel ++ [a]))).foldl
                (recStepF sys copyFn srcT dstT f rel) (none, fs2))) := rfl

theorem foldl_preserves_mem {α : Type} (P : FS → FS → Prop)
    (hrefl : ∀ fs, P fs fs) (htrans : ∀ a b c, P a b → P b c → P a c)
    (step : FS → α → R) :
    ∀ (l : List α),
      (∀ fs a, a ∈ l → P fs (step fs a).2) →
      ∀ r0 : R,
        P r0.2 ((l.foldl (fun r a => andThen r (fun fsC => step fsC a)) r0)).2 := by
  intro l
  induction l with
  | nil => intro _ r0; exact hrefl r0.2
  | cons b l' ih =>
    intro hstep r0
    rw [List.foldl_cons]
    have h1 : P r0.2 (andThen r0 (fun fsC => step fsC b)).2 := by
      obtain ⟨e0, fs0x⟩ := r0
      cases e0 with
      | some e => exact hrefl _
      | none => exact hstep fs0x b (List.mem_cons_self b l')
    exact htrans _ _ _ h1
      (ih (fun fs a ha => hstep fs a (List.mem_cons_of_mem b ha))
        (andThen r0 (fun fsC => step fsC b)))

theorem foldl_andThen_err {α : Type} (step : FS → α → R) (l : List α) (e : Err)
    (fs : FS) :
    l.foldl (fun r a => andThen r (fun fsC => step fsC a)) (some e, fs) =
      (some e, fs) := by
  induction l with
  | nil => rfl
  | cons b l' ih => rw [List.foldl_cons]; exact ih

theorem foldl_andThen_split {α : Type} (step : FS → α → R) (l1 l2 : List α)
    (a : α) (fsS fsE : FS)
    (hok : (l1 ++ a :: l2).foldl (fun r x => andThen r (fun fsC => step fsC x))
      (none, fsS) = (none, fsE)) :
    ∃ fsP fsQ,
      l1.foldl (fun r x => andThen r (fun fsC => step fsC x)) (none, fsS) =
        (none, fsP) ∧
      step fsP a = (none, fsQ) ∧
      l2.foldl (fun r x => andThen r (fun fsC => step fsC x)) (none, fsQ) =
        (none, fsE) := by
  rw [List.foldl_append] at hok
  cases h1 : l1.foldl (fun r x => andThen r (fun fsC => step fsC x)) (none, fsS) with
  | mk e1 fsP =>
    rw [h1, List.foldl_cons] at hok
    cases e1 with
    | some e =>
      rw [show andThen (some e, fsP) (fun fsC => step fsC a) = (some e, fsP) from
        rfl, foldl_andThen_err step l2 e fsP] at hok
      injection hok with hbad _
      cases hbad
    | none =>
      cases h2 : step fsP a with
      | mk e2 fsQ =>
        rw [show andThen (none, fsP) (fun fsC => step fsC a) = step fsP a from
          rfl, h2] at hok
        cases e2 with
        | some e =>
          rw [foldl_andThen_err step l2 e fsQ] at hok
          injection hok with hbad _
          cases hbad
        | none =>
          exact ⟨fsP, fsQ, rfl, h2, hok⟩

theorem dirfold_err (sys : Sys) (srcT dstT rel : Path) (l : List String)
    (e : Err) (fs : FS) (extra : List String) :
    l.foldl (dirStepF sys srcT dstT rel) ((some e, fs), extra) =
      ((some e, fs), extra) := by
  induction l with
  | nil => rfl
  | cons b l' ih => rw [List.foldl_cons]; exact ih

theorem dirfold_rel (sys : Sys) (srcT dstT : Path) (fs0 : FS) (rel : Path) :
    ∀ (l : List String),
      (∀ fsC a, a ∈ l → islinkB fsC (srcT ++ rel ++ [a]) = false →
        WalkInv srcT dstT fs0 fsC →
        WalkInv srcT dstT fs0
          (create_similar_directory sys fsC (srcT ++ rel ++ [a])
            (dstT ++ rel ++ [a])).2 ∧
        ∀ q, UnTouched fs0 srcT dstT rel q →
          lookupFS (create_similar_directory sys fsC (srcT ++ rel ++ [a])
            (dstT ++ rel ++ [a])).2 q = lookupFS fsC q) →
      ∀ (acc res : R × List String),
        l.foldl (dirStepF sys srcT dstT rel) acc = res →
        WalkInv srcT dstT fs0 acc.1.2 →
        WalkInv srcT dstT fs0 res.1.2 ∧
        (∀ q, UnTouched fs0 srcT dstT rel q →
          lookupFS res.1.2 q = lookupFS acc.1.2 q) ∧
        ∃ sub : List String, res.2 = acc.2 ++ sub ∧ sub.Sublist l ∧
          ∀ a ∈ sub, ∃ t mm,
            lookupFS fs0 (srcT ++ (rel ++ [a])) = some (Node.symlink t mm) := by
  intro l
  induction l with
  | nil =>
    intro _ acc res hres hinv
    rw [List.foldl_nil] at hres
    subst hres
    refine ⟨hinv, fun q _ => rfl, [], (List.append_nil _).symm, List.Sublist.refl [], ?_⟩
    intro a ha
    cases ha
  | cons b l' ih =>
    intro hstep acc res hres hinv
    rw [List.foldl_cons] at hres
    obtain ⟨⟨e0, fsC⟩, extra⟩ := acc
    cases e0 with
    | some e =>
      rw [show dirStepF sys srcT dstT rel ((some e, fsC), extra) b =
        ((some e, fsC), extra) from rfl] at hres
      obtain ⟨hI, hF, sub, hsub, hsl, hfact⟩ :=
        ih (fun fsX a ha hl hIX => hstep fsX a (List.mem_cons_of_mem b ha) hl hIX)
          ((some e, fsC), extra) res hres hinv
      exact ⟨hI, hF, sub, hsub, List.Sublist.cons b hsl, hfact⟩
    | none =>
      by_cases hlk : islinkB fsC (srcT ++ rel ++ [b]) = true
      · rw [show dirStepF sys srcT dstT rel ((none, fsC), extra) b =
          ((none, fsC), extra ++ [b]) from by
            simp only [dirStepF]; rw [if_pos hlk]] at hres
        obtain ⟨hI, hF, sub, hsub, hsl, hfact⟩ :=
          ih (fun fsX a ha hl hIX => hstep fsX a (List.mem_cons_of_mem b ha) hl hIX)
            ((none, fsC), extra ++ [b]) res hres hinv
        refine ⟨hI, hF, b :: sub, ?_, List.Sublist.cons₂ b hsl, ?_⟩
        · rw [hsub, List.append_assoc, List.singleton_append]
        · intro a ha
          rcases List.mem_cons.mp ha with rfl | ha'
          · obtain ⟨t, mm, hsym⟩ := (islinkB_true_iff fsC _).mp hlk
            refine ⟨t, mm, ?_⟩
            rw [← hinv.1 (rel ++ [a]), ← List.append_assoc]
            exact hsym
          · exact hfact a ha'
      · rw [Bool.not_eq_true] at hlk
        rw [show dirStepF sys srcT dstT rel ((none, fsC), extra) b =
          (create_similar_directory sys fsC (srcT ++ rel ++ [b])
            (dstT ++ rel ++ [b]), extra) from by
            simp only [dirStepF]; rw [hlk, if_neg Bool.false_ne_true]] at hres
        obtain ⟨hIb, hFb⟩ := hstep fsC b (List.mem_cons_self b l') hlk hinv
        obtain ⟨hI, hF, sub, hsub, hsl, hfact⟩ :=
          ih (fun fsX a ha hl hIX => hstep fsX a (List.mem_cons_of_mem b ha) hl hIX)
            (create_similar_directory sys fsC (srcT ++ rel ++ [b])
              (dstT ++ rel ++ [b]), extra) res hres hIb
        refine ⟨hI, ?_, sub, hsub, List.Sublist.cons b hsl, hfact⟩
        intro q hq
        exact (hF q hq).trans (hFb q hq)

theorem dirfold_symlink_mem (sys : Sys) (srcT dstT : Path) (fs0 : FS)
    (rel : Path) (b : String)
    (hsym : ∃ t mm, lookupFS fs0 (srcT ++ (rel ++ [b])) =
      some (Node.symlink t mm)) :
    ∀ (l : List String),
      (∀ fsC a, a ∈ l → islinkB fsC (srcT ++ rel ++ [a]) = false →
        WalkInv srcT dstT fs0 fsC →
        WalkInv srcT dstT fs0
          (create_similar_directory sys fsC (srcT ++ rel ++ [a])
            (dstT ++ rel ++ [a])).2) →
      ∀ (acc res : R × List String),
        l.foldl (dirStepF sys srcT dstT rel) acc = res →
        acc.1.1 = none → WalkInv srcT dstT fs0 acc.1.2 →
        res.1.1 = none →
        (b ∈ acc.2 ∨ b ∈ l) → b ∈ res.2 := by
  intro l
  induction l with
  | nil =>
    intro _ acc res hres _ _ _ hmem
    rw [List.foldl_nil] at hres
    subst hres
    rcases hmem with h | h
    · exact h
    · cases h
  | cons a l' ih =>
    intro hstep acc res hres hnone hinv hresnone hmem
    rw [List.foldl_cons] at hres
    obtain ⟨⟨e0, fsC⟩, extra⟩ := acc
    simp only [] at hnone
    subst hnone
    by_cases hlk : islinkB fsC (srcT ++ rel ++ [a]) = true
    · rw [show dirStepF sys srcT dstT rel ((none, fsC), extra) a =
        ((none, fsC), extra ++ [a]) from by
          simp only [dirStepF]; rw [if_pos hlk]] at hres
      refine ih (fun fsX x hx hl hIX => hstep fsX x (List.mem_cons_of_mem a hx) hl hIX)
        ((none, fsC), extra ++ [a]) res hres rfl hinv hresnone ?_
      rcases hmem with h | h
      · exact Or.inl (List.mem_append_left [a] h)
      · rcases List.mem_cons.mp h with rfl | h'
        · exact Or.inl (List.mem_append_right extra (List.mem_singleton_self b))
        · exact Or.inr h'
    · rw [Bool.not_eq_true] at hlk
      have hba : b ≠ a := by
        intro hcon
        subst hcon
        obtain ⟨t, mm, hfs0⟩ := hsym
        have hfsC : lookupFS fsC (srcT ++ rel ++ [b]) =
            some (Node.symlink t mm) := by
          rw [List.append_assoc, hinv.1 (rel ++ [b])]
          exact hfs0
        rw [(islinkB_true_iff fsC (srcT ++ rel ++ [b])).mpr ⟨t, mm, hfsC⟩] at hlk
        cases hlk
      rw [show dirStepF sys srcT dstT rel ((none, fsC), extra) a =
        (create_similar_directory sys fsC (srcT ++ rel ++ [a])
          (dstT ++ rel ++ [a]), extra) from by
          simp only [dirStepF]; rw [hlk, if_neg Bool.false_ne_true]] at hres
      cases hcsd : create_similar_directory sys fsC (srcT ++ rel ++ [a])
          (dstT ++ rel ++ [a]) with
      | mk eS fsS =>
        rw [hcsd] at hres
        cases eS with
        | some e =>
          rw [dirfold_err sys srcT dstT rel l' e fsS extra] at hres
          rw [← hres] at hresnone
          cases hresnone
        | none =>
          have hIS : WalkInv srcT dstT fs0 fsS := by
            have h := hstep fsC a (List.mem_cons_self a l') hlk hinv
            rwa [hcsd] at h
          refine ih (fun fsX x hx hl hIX =>
              hstep fsX x (List.mem_cons_of_mem a hx) hl hIX)
            ((none, fsS), extra) res hres rfl hIS hresnone ?_
          rcases hmem with h | h
          · exact Or.inl h
          · rcases List.mem_cons.mp h with rfl | h'
            · exact absurd rfl hba
            · exact Or.inr h'

/-- Master lemma for the tree walk: under disjoint trees and no
source-entry/destination-directory collisions, the walk preserves the walk
invariant and leaves every untouched path unchanged, whatever its outcome. -/
theorem walkGo_master (sys : Sys) (srcT dstT : Path) (fs0 : FS)
    (hd1 : pfxB srcT dstT = false) (hd2 : pfxB dstT srcT = false)
    (hnoc : ∀ rr, Visitable fs0 srcT rr →
      (∀ mm, lookupFS fs0 (srcT ++ rr) ≠ some (Node.dir mm)) →
      ∀ mm, lookupFS fs0 (dstT ++ rr) ≠ some (Node.dir mm)) :
    ∀ (fuel : Nat) (rel : Path) (fsi : FS),
      WalkInv srcT dstT fs0 fsi →
      (rel = [] ∨ (Visitable fs0 srcT rel ∧ RealDirAt fs0 (srcT ++ rel))) →
      WalkInv srcT dstT fs0
        (walkGo sys (defaultCopy sys) srcT dstT fuel fsi rel).2 ∧
      ∀ q, UnTouched fs0 srcT dstT rel q →
        lookupFS (walkGo sys (defaultCopy sys) srcT dstT fuel fsi rel).2 q =
          lookupFS fsi q := by
  intro fuel
  induction fuel with
  | zero =>
    intro rel fsi hinv _
    exact ⟨hinv, fun q _ => rfl⟩
  | succ f ih =>
    intro rel fsi hinv hroot
    rw [walkGo_succ]
    set nms := childNames fsi (srcT ++ rel) with hnms
    set dns := nms.filter (fun a => isDirB fsi sys.fuel (srcT ++ rel ++ [a]))
      with hdns
    set fls := nms.filter (fun a => !(isDirB fsi sys.fuel (srcT ++ rel ++ [a])))
      with hfls
    have hchild : ∀ a, a ∈ nms →
        (lookupFS fs0 (srcT ++ (rel ++ [a]))).isSome = true := by
      intro a ha
      have h1 := childNames_mem_lookup fsi (srcT ++ rel) a (by rw [hnms] at ha; exact ha)
      rw [← hinv.1 (rel ++ [a]), ← List.append_assoc]
      exact h1
    have hvisC : ∀ a, a ∈ nms → Visitable fs0 srcT (rel ++ [a]) :=
      fun a ha => vis_child fs0 srcT rel a hroot (hchild a ha)
    have hdirn : ∀ a, a ∈ dns →
        (∃ mm, lookupFS fs0 (srcT ++ (rel ++ [a])) = some (Node.dir mm)) ∨
        (∃ t mm, lookupFS fs0 (srcT ++ (rel ++ [a])) = some (Node.symlink t mm)) := by
      intro a ha
      rw [hdns] at ha
      have hmem := List.mem_filter.mp ha
      have hne : srcT ++ rel ++ [a] ≠ [] :=
        append_nonempty (srcT ++ rel) [a] (by simp)
      have hraw := isDirB_raw fsi sys.fuel (srcT ++ rel ++ [a]) hne hmem.2
      rcases hraw with ⟨mm, hmm⟩ | ⟨t, mm, hmm⟩
      · left
        refine ⟨mm, ?_⟩
        rw [← hinv.1 (rel ++ [a]), ← List.append_assoc]
        exact hmm
      · right
        refine ⟨t, mm, ?_⟩
        rw [← hinv.1 (rel ++ [a]), ← List.append_assoc]
        exact hmm
    have hfln : ∀ a, a ∈ fls →
        ∀ mm, lookupFS fs0 (srcT ++ (rel ++ [a])) ≠ some (Node.dir mm) := by
      intro a ha mm hcon
      rw [hfls] at ha
      have hmem := List.mem_filter.mp ha
      have hnd : isDirB fsi sys.fuel (srcT ++ rel ++ [a]) = false := by
        have h2 := hmem.2
        rwa [Bool.not_eq_true'] at h2
      have hfsi : lookupFS fsi (srcT ++ rel ++ [a]) = some (Node.dir mm) := by
        rw [List.append_assoc, hinv.1 (rel ++ [a])]
        exact hcon
      rw [isDirB_dir fsi sys.fuel _ mm hfsi] at hnd
      cases hnd
    have hstepD : ∀ fsC a, a ∈ dns → islinkB fsC (srcT ++ rel ++ [a]) = false →
        WalkInv srcT dstT fs0 fsC →
        WalkInv srcT dstT fs0
          (create_similar_directory sys fsC (srcT ++ rel ++ [a])
            (dstT ++ rel ++ [a])).2 ∧
        ∀ q, UnTouched fs0 srcT dstT rel q →
          lookupFS (create_similar_directory sys fsC (srcT ++ rel ++ [a])
            (dstT ++ rel ++ [a])).2 q = lookupFS fsC q := by
      intro fsC a ha hlk hinvC
      have hfsdir : ∃ mm, lookupFS fs0 (srcT ++ (rel ++ [a])) =
          some (Node.dir mm) := by
        rcases hdirn a ha with h | ⟨t, mm, hsym⟩
        · exact h
        · exfalso
          have hfsC : lookupFS fsC (srcT ++ rel ++ [a]) =
              some (Node.symlink t mm) := by
            rw [List.append_assoc, hinvC.1 (rel ++ [a])]
            exact hsym
          rw [(islinkB_true_iff fsC _).mpr ⟨t, mm, hfsC⟩] at hlk
          cases hlk
      obtain ⟨mm, hmm⟩ := hfsdir
      have hanms : a ∈ nms := by
        rw [hdns] at ha
        exact (List.mem_filter.mp ha).1
      have hvA : Visitable fs0 srcT (rel ++ [a]) := hvisC a hanms
      have hrA : RealDirAt fs0 (srcT ++ (rel ++ [a])) := ⟨mm, hmm⟩
      obtain ⟨hI, hF⟩ := cloner_step sys srcT dstT fs0 hd1 hd2 (rel ++ [a]) hvA hrA
        (srcT ++ (rel ++ [a])) fsC hinvC
      rw [List.append_assoc srcT rel [a], List.append_assoc dstT rel [a]]
      refine ⟨hI, ?_⟩
      intro q hq
      exact hF q (hq (rel ++ [a]) (pfxB_append rel [a]) (Or.inr hvA))
    cases hD : dns.foldl (dirStepF sys srcT dstT rel) ((none, fsi), []) with
    | mk PD extraD =>
      obtain ⟨eD, fsD⟩ := PD
      obtain ⟨hinvD, hframeD, sub, hsubeq, hsublist, hsubfact⟩ :=
        dirfold_rel sys srcT dstT fs0 rel dns hstepD ((none, fsi), [])
          ((eD, fsD), extraD) hD hinv
      simp only [List.nil_append] at hsubeq
      have hflfact : ∀ a, a ∈ fls ++ extraD →
          Visitable fs0 srcT (rel ++ [a]) ∧
          (∀ mm, lookupFS fs0 (srcT ++ (rel ++ [a])) ≠ some (Node.dir mm)) := by
        intro a ha
        rcases List.mem_append.mp ha with hf | he
        · have hanms : a ∈ nms := by
            rw [hfls] at hf
            exact (List.mem_filter.mp hf).1
          exact ⟨hvisC a hanms, hfln a hf⟩
        · have ha' : a ∈ sub := by
            rw [← hsubeq]
            exact he
          obtain ⟨t, mm, hsym⟩ := hsubfact a ha'
          constructor
          · exact vis_child fs0 srcT rel a hroot (by rw [hsym]; rfl)
          · intro mm2 hcon
            rw [hsym] at hcon
            cases hcon
      have hstepF : ∀ fsC a, a ∈ fls ++ extraD →
          StepRel srcT dstT fs0 rel fsC
            (defaultCopy sys fsC (srcT ++ rel ++ [a]) (dstT ++ rel ++ [a])).2 := by
        intro fsC a ha hinvC
        obtain ⟨hvA, hndA⟩ := hflfact a ha
        obtain ⟨hI, hF⟩ := copy_step sys srcT dstT fs0 hd1 hd2 hnoc (rel ++ [a])
          hvA hndA fsC hinvC
        have hbridge : defaultCopy sys fsC (srcT ++ rel ++ [a]) (dstT ++ rel ++ [a]) =
            link_or_copy sys fsC (srcT ++ (rel ++ [a])) (dstT ++ (rel ++ [a])) false := by
          simp only [defaultCopy, List.append_assoc]
        rw [hbridge]
        exact ⟨hI, fun q hq => hF q (hq (rel ++ [a]) (pfxB_append rel [a]) (Or.inr hvA))⟩
      have hstepR : ∀ fsC a, a ∈ dns →
          StepRel srcT dstT fs0 rel fsC
            ((if islinkB fsC (srcT ++ rel ++ [a]) then (none, fsC)
              else walkGo sys (defaultCopy sys) srcT dstT f fsC (rel ++ [a])) : R).2 := by
        intro fsC a ha hinvC
        by_cases hlk : islinkB fsC (srcT ++ rel ++ [a]) = true
        · rw [if_pos hlk]
          exact ⟨hinvC, fun q _ => rfl⟩
        · rw [Bool.not_eq_true] at hlk
          rw [if_neg (show ¬(islinkB fsC (srcT ++ rel ++ [a]) = true) from by
            rw [hlk]; exact Bool.false_ne_true)]
          have hfsdir : ∃ mm, lookupFS fs0 (srcT ++ (rel ++ [a])) =
              some (Node.dir mm) := by
            rcases hdirn a ha with h | ⟨t, mm, hsym⟩
            · exact h
            · exfalso
              have hfsC : lookupFS fsC (srcT ++ rel ++ [a]) =
                  some (Node.symlink t mm) := by
                rw [List.append_assoc, hinvC.1 (rel ++ [a])]
                exact hsym
              rw [(islinkB_true_iff fsC _).mpr ⟨t, mm, hfsC⟩] at hlk
              cases hlk
          obtain ⟨mm, hmm⟩ := hfsdir
          have hvA : Visitable fs0 srcT (rel ++ [a]) :=
            vis_child fs0 srcT rel a hroot (by rw [hmm]; rfl)
          obtain ⟨hI, hF⟩ := ih (rel ++ [a]) fsC hinvC (Or.inr ⟨hvA, ⟨mm, hmm⟩⟩)
          refine ⟨hI, ?_⟩
          intro q hq
          exact hF q (untouched_child fs0 srcT dstT rel a q hvA hq)
      cases eD with
      | some e =>
        refine ⟨hinvD, ?_⟩
        intro q hq
        exact hframeD q hq
      | none =>
        simp only [andThen]
        cases hFf : (fls ++ extraD).foldl
            (copyStepF (defaultCopy sys) srcT dstT rel) (none, fsD) with
        | mk eF fsF =>
          have hfileRel : StepRel srcT dstT fs0 rel fsD fsF := by
            have h := foldl_preserves_mem (StepRel srcT dstT fs0 rel)
              (stepRel_refl srcT dstT fs0 rel)
              (stepRel_trans srcT dstT fs0 rel)
              (fun fsC a => defaultCopy sys fsC (srcT ++ rel ++ [a])
                (dstT ++ rel ++ [a]))
              (fls ++ extraD) hstepF (none, fsD)
            have heq : (fls ++ extraD).foldl (fun (r : R) (a : String) =>
                andThen r (fun fsC => defaultCopy sys fsC (srcT ++ rel ++ [a])
                  (dstT ++ rel ++ [a]))) (none, fsD) =
                (fls ++ extraD).foldl (copyStepF (defaultCopy sys) srcT dstT rel)
                  (none, fsD) := rfl
            rw [heq, hFf] at h
            exact h
          cases eF with
          | some e =>
            obtain ⟨hinvF, hframeF⟩ := hfileRel hinvD
            refine ⟨hinvF, ?_⟩
            intro q hq
            exact (hframeF q hq).trans (hframeD q hq)
          | none =>
            simp only [andThen]
            cases hRf : dns.foldl (recStepF sys (defaultCopy sys) srcT dstT f rel)
                (none, fsF) with
            | mk eR fsR =>
              have hrecRel : StepRel srcT dstT fs0 rel fsF fsR := by
                have h := foldl_preserves_mem (StepRel srcT dstT fs0 rel)
                  (stepRel_refl srcT dstT fs0 rel)
                  (stepRel_trans srcT dstT fs0 rel)
                  (fun fsC a => ((if islinkB fsC (srcT ++ rel ++ [a]) then (none, fsC)
                    else walkGo sys (defaultCopy sys) srcT dstT f fsC (rel ++ [a])) : R))
                  dns hstepR (none, fsF)
                have heq : dns.foldl (fun (r : R) (a : String) =>
                    andThen r (fun fsC =>
                      ((if islinkB fsC (srcT ++ rel ++ [a]) then (none, fsC)
                        else walkGo sys (defaultCopy sys) srcT dstT f fsC
                          (rel ++ [a])) : R))) (none, fsF) =
                    dns.foldl (recStepF sys (defaultCopy sys) srcT dstT f rel)
                      (none, fsF) := rfl
                rw [heq, hRf] at h
                exact h
              obtain ⟨hinvF, hframeF⟩ := hfileRel hinvD
              obtain ⟨hinvR, hframeR⟩ := hrecRel hinvF
              refine ⟨hinvR, ?_⟩
              intro q hq
              exact ((hframeR q hq).trans (hframeF q hq)).trans (hframeD q hq)

/-- C3 (amended): `link_or_copy_tree` is a merge, not a mirror — provided the
two trees are prefix-disjoint and no source entry that is not a real
directory collides with a directory of the destination tree at the same
relative path.  Under those provisos, every destination file at a relative
path with no source entry survives a successful copy with unchanged content
and metadata.  Without the no-collision proviso the claim fails:
`shutil.copy2` descends into a colliding destination directory and can
overwrite a destination-only file (see the recorded counterexample). -/
theorem link_or_copy_tree_merge (sys : Sys) (fs fs' : FS) (srcT dstT relq : Path)
    (c : Content) (m : Meta) (w : Bool)
    (hok : link_or_copy_tree sys (defaultCopy sys) fs srcT dstT = (none, fs'))
    (hd1 : pfxB srcT dstT = false) (hd2 : pfxB dstT srcT = false)
    (hnoc : ∀ rr, Visitable fs srcT rr →
      (∀ mm, lookupFS fs (srcT ++ rr) ≠ some (Node.dir mm)) →
      ∀ mm, lookupFS fs (dstT ++ rr) ≠ some (Node.dir mm))
    (hrq : relq ≠ [])
    (hfile : lookupFS fs (dstT ++ relq) = some (Node.file c m w))
    (hnosrc : lookupFS fs (srcT ++ relq) = none) :
    lookupFS fs' (dstT ++ relq) = some (Node.file c m w) := by
  unfold link_or_copy_tree at hok
  by_cases hg1 : (!isDirB fs sys.fuel srcT) = true
  · rw [if_pos hg1] at hok
    exact absurd hok (by simp)
  rw [if_neg hg1] at hok
  by_cases hg2 : (!isDirB fs sys.fuel dstT && pathExistsB fs sys.fuel dstT) = true
  · rw [if_pos hg2] at hok
    exact absurd hok (by simp)
  rw [if_neg hg2] at hok
  obtain ⟨fs1, hcsd, hwalk⟩ := (andThen_ok_iff _ _ _).mp hok
  have hdstne : dstT ≠ [] := by
    intro hcon
    rw [hcon] at hd2
    simp [pfxB] at hd2
  have hrel : CsdRel dstT fs fs1 := by
    have h := csd_changes sys fs srcT dstT hdstne
    rw [hcsd] at h
    exact h
  have hinv1 : WalkInv srcT dstT fs fs1 := by
    constructor
    · intro a
      rcases hrel (srcT ++ a) with h1 | ⟨_, h1b, _⟩ | ⟨h1a, _⟩
      · exact h1
      · exfalso
        have h2 : pfxB srcT dstT = true :=
          pfxB_trans srcT (srcT ++ a) dstT (pfxB_append srcT a) h1b
        rw [h2] at hd1; cases hd1
      · exfalso
        have h2 : pfxB srcT dstT = true := by
          rw [← h1a]; exact pfxB_append srcT a
        rw [h2] at hd1; cases hd1
    · intro p mm hp hdir
      rcases hrel (dstT ++ p) with h1 | ⟨_, h1b, _⟩ | ⟨h1a, _⟩
      · rw [h1] at hdir
        exact Or.inl ⟨mm, hdir⟩
      · exfalso
        have h2 := pfxB_length (dstT ++ p) dstT h1b
        rw [List.length_append] at h2
        have h3 : 0 < p.length := List.length_pos.mpr hp
        omega
      · exfalso
        have h3 := congrArg List.length h1a
        rw [List.length_append] at h3
        have h4 : p.length = 0 := by omega
        exact hp (List.eq_nil_of_length_eq_zero h4)
  obtain ⟨_, hframe⟩ := walkGo_master sys srcT dstT fs hd1 hd2 hnoc sys.fuel [] fs1
    hinv1 (Or.inl rfl)
  rw [hwalk] at hframe
  have hunq : UnTouched fs srcT dstT [] (dstT ++ relq) := by
    intro r' hpfx hcase
    rcases hcase with hnil | hvisr
    · subst hnil
      rw [List.append_nil]
      refine pfxB_false_of_longer (dstT ++ relq) dstT ?_
      rw [List.length_append]
      have h3 : 0 < relq.length := List.length_pos.mpr hrq
      omega
    · rcases Bool.eq_false_or_eq_true (pfxB (dstT ++ relq) (dstT ++ r')) with ht | hf
      · exfalso
        have hpr : pfxB relq r' = true := pfxB_cancel dstT relq r' ht
        by_cases heq : relq = r'
        · subst heq
          have h2 := hvisr.2.1
          rw [hnosrc] at h2
          simp at h2
        · obtain ⟨mR, hmR⟩ := hvisr.2.2 relq hpr hrq heq
          rw [hnosrc] at hmR
          cases hmR
      · exact hf
  have h1 := hframe (dstT ++ relq) hunq
  have h2 : lookupFS fs1 (dstT ++ relq) = lookupFS fs (dstT ++ relq) := by
    rcases hrel (dstT ++ relq) with h3 | ⟨_, h3b, _⟩ | ⟨h3a, _⟩
    · exact h3
    · exfalso
      have h4 := pfxB_length (dstT ++ relq) dstT h3b
      rw [List.length_append] at h4
      have h5 : 0 < relq.length := List.length_pos.mpr hrq
      omega
    · exfalso
      have h4 := congrArg List.length h3a
      rw [List.length_append] at h4
      have h5 : 0 < relq.length := List.length_pos.mpr hrq
      omega
  rw [show lookupFS fs' (dstT ++ relq) = lookupFS fs1 (dstT ++ relq) from h1, h2]
  exact hfile

/-- Witness for C3 (amended) on a concrete filesystem: copying tree `s` over
tree `d` leaves the destination-only file `d/b` untouched. -/
theorem link_or_copy_tree_merge_witness :
    lookupFS wFS3 (["d"] ++ ["b"]) = some (Node.file (Content.text "Y") wMeta true) ∧
    lookupFS wFS3 (["s"] ++ ["b"]) = none ∧
    lookupFS (link_or_copy_tree wSys (defaultCopy wSys) wFS3 ["s"] ["d"]).2
      (["d"] ++ ["b"]) = some (Node.file (Content.text "Y") wMeta true) := by
  refine ⟨by decide, by decide, ?_⟩
  refine link_or_copy_tree_merge wSys wFS3
    (link_or_copy_tree wSys (defaultCopy wSys) wFS3 ["s"] ["d"]).2 ["s"] ["d"] ["b"]
    (Content.text "Y") wMeta true (by decide) (by decide) (by decide) ?_
    (by decide) (by decide) (by decide)
  intro rr hv hsnd mm hcon
  cases rr with
  | nil => exact hv.1 rfl
  | cons x xs =>
    rw [show (["d"] : Path) ++ x :: xs = "d" :: x :: xs from rfl] at hcon
    by_cases hb : ("d" :: x :: xs : Path) = ["d", "b"]
    · rw [hb] at hcon
      rw [show lookupFS wFS3 ["d", "b"] =
        some (Node.file (Content.text "Y") wMeta true) from by decide] at hcon
      cases hcon
    · have hnone : lookupFS wFS3 ("d" :: x :: xs) = none := by
        unfold wFS3
        simp only [lookupFS]
        rw [if_neg (fun h => by injection h with h1 _; exact absurd h1 (by decide)),
            if_neg (fun h => by injection h with h1 _; exact absurd h1 (by decide)),
            if_neg (fun h => by injection h with _ h2; cases h2),
            if_neg (fun h => hb h.symm)]
      rw [hnone] at hcon
      cases hcon

/-- The parent-creation attempt of `link_or_copy` preserves the walk
invariant and changes nothing outside the destination image. -/
theorem branch_invariant (sys : Sys) (srcT dstT : Path) (fs0 : FS)
    (hd1 : pfxB srcT dstT = false) (hd2 : pfxB dstT srcT = false)
    (r : Path) (hvis : Visitable fs0 srcT r) (s' : Path) (fsC : FS)
    (hinv : WalkInv srcT dstT fs0 fsC) :
    WalkInv srcT dstT fs0
      ((if (!pathExistsB fsC sys.fuel (List.dropLast (dstT ++ r))) = true then
        create_similar_directory sys fsC (List.dropLast s')
          (List.dropLast (dstT ++ r))
      else (none, fsC)) : R).2 ∧
    ∀ q, pfxB q (dstT ++ r) = false →
      lookupFS ((if (!pathExistsB fsC sys.fuel (List.dropLast (dstT ++ r))) = true then
        create_similar_directory sys fsC (List.dropLast s')
          (List.dropLast (dstT ++ r))
      else (none, fsC)) : R).2 q = lookupFS fsC q := by
  by_cases hcond : (!pathExistsB fsC sys.fuel (List.dropLast (dstT ++ r))) = true
  · rw [if_pos hcond]
    have hdl : List.dropLast (dstT ++ r) ≠ [] := by
      intro hcon
      rw [hcon] at hcond
      simp [pathExistsB] at hcond
    exact cloner_parent_step sys srcT dstT fs0 hd1 hd2 r hvis hdl _ fsC hinv
  · rw [if_neg hcond]
    exact ⟨hinv, fun q _ => rfl⟩

/-- A successful `link_or_copy` whose source is a symlink of the walked tree
reproduces the symlink (same target) at the destination image, on both the
hard-link path and the fallback path. -/
theorem copy_step_symlink (sys : Sys) (srcT dstT : Path) (fs0 : FS)
    (hd1 : pfxB srcT dstT = false) (hd2 : pfxB dstT srcT = false)
    (hnoc : ∀ rr, Visitable fs0 srcT rr →
      (∀ mm, lookupFS fs0 (srcT ++ rr) ≠ some (Node.dir mm)) →
      ∀ mm, lookupFS fs0 (dstT ++ rr) ≠ some (Node.dir mm))
    (r tgt : Path) (ml : Meta)
    (hvis : Visitable fs0 srcT r)
    (hsym : lookupFS fs0 (srcT ++ r) = some (Node.symlink tgt ml))
    (fsC fsC' : FS) (hinv : WalkInv srcT dstT fs0 fsC)
    (hok : link_or_copy sys fsC (srcT ++ r) (dstT ++ r) false = (none, fsC')) :
    ∃ m', lookupFS fsC' (dstT ++ r) = some (Node.symlink tgt m') := by
  have hsrcnd : ∀ mm, lookupFS fs0 (srcT ++ r) ≠ some (Node.dir mm) := by
    intro mm hcon
    rw [hsym] at hcon
    cases hcon
  have hsr : srcT ++ r ≠ dstT ++ r := append_ne_of_disj srcT dstT hd1 hd2 r r
  have hds : dstT ++ r ≠ srcT ++ r := fun hcon => hsr hcon.symm
  have hdne : dstT ++ r ≠ [] := append_nonempty dstT r hvis.1
  unfold link_or_copy at hok
  rw [if_neg Bool.false_ne_true] at hok
  simp only [] at hok
  cases hTry : andThen
      (if (!pathExistsB fsC sys.fuel (List.dropLast (dstT ++ r))) = true then
        create_similar_directory sys fsC (List.dropLast (srcT ++ r))
          (List.dropLast (dstT ++ r))
      else (none, fsC))
      (fun fs1 => osLink sys fs1 (srcT ++ r) (dstT ++ r)) with
  | mk eT fsT =>
    rw [hTry] at hok
    cases eT with
    | none =>
      simp only [] at hok
      injection hok with _ hfs
      obtain ⟨fsA, hA, hL⟩ := (andThen_ok_iff _ _ _).mp hTry
      obtain ⟨nL, hsrcA, hnotdir, hdstA, hset⟩ :=
        osLink_ok sys fsA (srcT ++ r) (dstT ++ r) fsT hL
      have hbrA : WalkInv srcT dstT fs0 fsA := by
        have h := (branch_invariant sys srcT dstT fs0 hd1 hd2 r hvis (srcT ++ r)
          fsC hinv).1
        rw [hA] at h
        exact h
      have hnl : nL = Node.symlink tgt ml := by
        rw [hbrA.1 r, hsym] at hsrcA
        injection hsrcA with h3
        exact h3.symm
      refine ⟨ml, ?_⟩
      rw [← hfs, hset, lookupFS_set_self, hnl]
    | some e =>
      simp only [] at hok
      by_cases he : e = Err.fuelOut
      · rw [if_pos he] at hok
        exact absurd hok (by simp)
      rw [if_neg he] at hok
      have hTfacts : WalkInv srcT dstT fs0 fsT := by
        rcases andThen_eq_err _ _ e fsT hTry with hAerr | ⟨fsA, hA, hLerr⟩
        · have h := (branch_invariant sys srcT dstT fs0 hd1 hd2 r hvis (srcT ++ r)
            fsC hinv).1
          rw [hAerr] at h
          exact h
        · have h := (branch_invariant sys srcT dstT fs0 hd1 hd2 r hvis (srcT ++ r)
            fsC hinv).1
          rw [hA] at h
          rw [osLink_fail sys fsA _ _ e fsT hLerr]
          exact h
      have hinv2 : WalkInv srcT dstT fs0 (unlinkOp fsT (dstT ++ r)).2 :=
        walkinv_unlink srcT dstT fs0 r fsT hd1 hd2 hTfacts
      have hdst2 : lookupFS (unlinkOp fsT (dstT ++ r)).2 (dstT ++ r) = none :=
        unlink_dst_none srcT dstT fs0 hnoc r hvis hsrcnd fsT hTfacts
      obtain ⟨fs3, hcopy, hK⟩ := (andThen_ok_iff _ _ _).mp hok
      have hsl2 : lookupFS (unlinkOp fsT (dstT ++ r)).2 (srcT ++ r) =
          some (Node.symlink tgt ml) := by
        rw [hinv2.1 r]
        exact hsym
      have hlk2 : islinkB (unlinkOp fsT (dstT ++ r)).2 (srcT ++ r) = true :=
        (islinkB_true_iff _ _).mpr ⟨tgt, ml, hsl2⟩
      have hdirB2 : isDirB (unlinkOp fsT (dstT ++ r)).2 sys.fuel (dstT ++ r) = false :=
        isDirB_none _ sys.fuel (dstT ++ r) hdne hdst2
      unfold copy2 at hcopy
      simp only [] at hcopy
      rw [hdirB2] at hcopy
      simp only [Bool.false_eq_true, if_false] at hcopy
      rw [if_neg hds] at hcopy
      simp only [Bool.not_false, Bool.true_and] at hcopy
      rw [if_pos hlk2] at hcopy
      rw [hsl2] at hcopy
      simp only [] at hcopy
      rw [hdst2] at hcopy
      simp only [Option.isSome_none, Bool.false_eq_true, if_false] at hcopy
      by_cases hpar : isDirB (unlinkOp fsT (dstT ++ r)).2 sys.fuel
          (List.dropLast (dstT ++ r)) = true
      · simp only [hpar, Bool.not_true, Bool.false_eq_true, if_false] at hcopy
        injection hcopy with _ hfs3
        have hdst3 : lookupFS fs3 (dstT ++ r) =
            some (Node.symlink tgt ⟨procUid, procGid, ml.mode, ml.mtime⟩) := by
          rw [← hfs3]
          exact lookupFS_set_self _ _ _
        have hsrc3 : lookupFS fs3 (srcT ++ r) = some (Node.symlink tgt ml) := by
          rw [← hfs3, lookupFS_set_ne _ (dstT ++ r) (srcT ++ r) _ hsr]
          exact hsl2
        rcases stat_chown_tail sys fs3 fsC' (srcT ++ r) (dstT ++ r) false
            (srcT ++ r) (Node.symlink tgt ml) _ (by simp) hsrc3 hdst3 (by simp)
            hK with hC | hC
        · refine ⟨⟨procUid, procGid, ml.mode, ml.mtime⟩, ?_⟩
          rw [hC]
          exact hdst3
        · refine ⟨⟨ml.uid, ml.gid, ml.mode, ml.mtime⟩, ?_⟩
          rw [hC, lookupFS_set_self]
          rfl
      · rw [Bool.not_eq_true] at hpar
        simp only [hpar, Bool.not_false, if_true] at hcopy
        exact absurd hcopy (by simp)

theorem survRel_refl (srcT dstT : Path) (fs0 : FS) (q0 : Path) (fs : FS) :
    SurvRel srcT dstT fs0 q0 fs fs :=
  fun hinv => ⟨hinv, rfl⟩

theorem survRel_trans (srcT dstT : Path) (fs0 : FS) (q0 : Path) (a b c : FS)
    (h1 : SurvRel srcT dstT fs0 q0 a b) (h2 : SurvRel srcT dstT fs0 q0 b c) :
    SurvRel srcT dstT fs0 q0 a c := by
  intro hinv
  obtain ⟨hinvb, e1⟩ := h1 hinv
  obtain ⟨hinvc, e2⟩ := h2 hinvb
  exact ⟨hinvc, e2.trans e1⟩

theorem untouched_sibling (fs0 : FS) (srcT dstT rel : Path) (a b : String)
    (ext : Path) (hab : a ≠ b) :
    UnTouched fs0 srcT dstT (rel ++ [a]) (dstT ++ (rel ++ b :: ext)) := by
  intro r' hpfx _
  rcases Bool.eq_false_or_eq_true (pfxB (dstT ++ (rel ++ b :: ext)) (dstT ++ r'))
    with ht | hf
  · exfalso
    have h1 : pfxB (rel ++ b :: ext) r' = true := pfxB_cancel dstT _ r' ht
    have h2 : pfxB (rel ++ [b]) (rel ++ b :: ext) = true := by
      refine pfxB_append_right rel [b] (b :: ext) ?_
      simp [pfxB]
    have h3 : pfxB (rel ++ [b]) r' = true := pfxB_trans _ _ _ h2 h1
    have h4 : pfxB (rel ++ [a]) (rel ++ [b]) = true := by
      refine pfxB_of_shorter _ _ r' hpfx h3 ?_
      simp
    have h5 : rel ++ [a] = rel ++ [b] :=
      pfxB_eq_of_length _ _ h4 (by simp)
    have h6 : ([a] : Path) = [b] := List.append_cancel_left h5
    injection h6 with h7 _
    exact hab h7
  · exact hf

theorem stepD_of_facts (sys : Sys) (srcT dstT : Path) (fs0 : FS) (rel : Path)
    (hd1 : pfxB srcT dstT = false) (hd2 : pfxB dstT srcT = false)
    (hroot : rel = [] ∨ (Visitable fs0 srcT rel ∧ RealDirAt fs0 (srcT ++ rel)))
    (l : List String)
    (hl : ∀ a ∈ l,
      (∃ mm, lookupFS fs0 (srcT ++ (rel ++ [a])) = some (Node.dir mm)) ∨
      (∃ t mm, lookupFS fs0 (srcT ++ (rel ++ [a])) = some (Node.symlink t mm))) :
    ∀ fsC a, a ∈ l → islinkB fsC (srcT ++ rel ++ [a]) = false →
      WalkInv srcT dstT fs0 fsC →
      WalkInv srcT dstT fs0
        (create_similar_directory sys fsC (srcT ++ rel ++ [a])
          (dstT ++ rel ++ [a])).2 ∧
      ∀ q, UnTouched fs0 srcT dstT rel q →
        lookupFS (create_similar_directory sys fsC (srcT ++ rel ++ [a])
          (dstT ++ rel ++ [a])).2 q = lookupFS fsC q := by
  intro fsC a ha hlk hinvC
  have hfsdir : ∃ mm, lookupFS fs0 (srcT ++ (rel ++ [a])) = some (Node.dir mm) := by
    rcases hl a ha with h | ⟨t, mm, hsym⟩
    · exact h
    · exfalso
      have hfsC : lookupFS fsC (srcT ++ rel ++ [a]) = some (Node.symlink t mm) := by
        rw [List.append_assoc, hinvC.1 (rel ++ [a])]
        exact hsym
      rw [(islinkB_true_iff fsC _).mpr ⟨t, mm, hfsC⟩] at hlk
      cases hlk
  obtain ⟨mm, hmm⟩ := hfsdir
  have hvA : Visitable fs0 srcT (rel ++ [a]) :=
    vis_child fs0 srcT rel a hroot (by rw [hmm]; rfl)
  obtain ⟨hI, hF⟩ := cloner_step sys srcT dstT fs0 hd1 hd2 (rel ++ [a]) hvA
    ⟨mm, hmm⟩ (srcT ++ (rel ++ [a])) fsC hinvC
  rw [List.append_assoc srcT rel [a], List.append_assoc dstT rel [a]]
  refine ⟨hI, ?_⟩
  intro q hq
  exact hF q (hq (rel ++ [a]) (pfxB_append rel [a]) (Or.inr hvA))

theorem stepF_of_facts (sys : Sys) (srcT dstT : Path) (fs0 : FS) (rel : Path)
    (hd1 : pfxB srcT dstT = false) (hd2 : pfxB dstT srcT = false)
    (hnoc : ∀ rr, Visitable fs0 srcT rr →
      (∀ mm, lookupFS fs0 (srcT ++ rr) ≠ some (Node.dir mm)) →
      ∀ mm, lookupFS fs0 (dstT ++ rr) ≠ some (Node.dir mm))
    (l : List String)
    (hl : ∀ a ∈ l, Visitable fs0 srcT (rel ++ [a]) ∧
      (∀ mm, lookupFS fs0 (srcT ++ (rel ++ [a])) ≠ some (Node.dir mm))) :
    ∀ fsC a, a ∈ l →
      StepRel srcT dstT fs0 rel fsC
        (defaultCopy sys fsC (srcT ++ rel ++ [a]) (dstT ++ rel ++ [a])).2 := by
  intro fsC a ha hinvC
  obtain ⟨hvA, hndA⟩ := hl a ha
  obtain ⟨hI, hF⟩ := copy_step sys srcT dstT fs0 hd1 hd2 hnoc (rel ++ [a]) hvA
    hndA fsC hinvC
  have hbridge : defaultCopy sys fsC (srcT ++ rel ++ [a]) (dstT ++ rel ++ [a]) =
      link_or_copy sys fsC (srcT ++ (rel ++ [a])) (dstT ++ (rel ++ [a])) false := by
    simp only [defaultCopy, List.append_assoc]
  rw [hbridge]
  exact ⟨hI, fun q hq => hF q (hq (rel ++ [a]) (pfxB_append rel [a]) (Or.inr hvA))⟩

theorem stepR_of_facts (sys : Sys) (srcT dstT : Path) (fs0 : FS) (rel : Path)
    (hd1 : pfxB srcT dstT = false) (hd2 : pfxB dstT srcT = false)
    (hnoc : ∀ rr, Visitable fs0 srcT rr →
      (∀ mm, lookupFS fs0 (srcT ++ rr) ≠ some (Node.dir mm)) →
      ∀ mm, lookupFS fs0 (dstT ++ rr) ≠ some (Node.dir mm))
    (f : Nat)
    (hroot : rel = [] ∨ (Visitable fs0 srcT rel ∧ RealDirAt fs0 (srcT ++ rel)))
    (l : List String)
    (hl : ∀ a ∈ l,
      (∃ mm, lookupFS fs0 (srcT ++ (rel ++ [a])) = some (Node.dir mm)) ∨
      (∃ t mm, lookupFS fs0 (srcT ++ (rel ++ [a])) = some (Node.symlink t mm))) :
    ∀ fsC a, a ∈ l →
      StepRel srcT dstT fs0 rel fsC
        ((if islinkB fsC (srcT ++ rel ++ [a]) then (none, fsC)
          else walkGo sys (defaultCopy sys) srcT dstT f fsC (rel ++ [a])) : R).2 := by
  intro fsC a ha hinvC
  by_cases hlk : islinkB fsC (srcT ++ rel ++ [a]) = true
  · rw [if_pos hlk]
    exact ⟨hinvC, fun q _ => rfl⟩
  · rw [Bool.not_eq_true] at hlk
    rw [if_neg (show ¬(islinkB fsC (srcT ++ rel ++ [a]) = true) from by
      rw [hlk]; exact Bool.false_ne_true)]
    have hfsdir : ∃ mm, lookupFS fs0 (srcT ++ (rel ++ [a])) =
        some (Node.dir mm) := by
      rcases hl a ha with h | ⟨t, mm, hsym⟩
      · exact h
      · exfalso
        have hfsC : lookupFS fsC (srcT ++ rel ++ [a]) =
            some (Node.symlink t mm) := by
          rw [List.append_assoc, hinvC.1 (rel ++ [a])]
          exact hsym
        rw [(islinkB_true_iff fsC _).mpr ⟨t, mm, hfsC⟩] at hlk
        cases hlk
    obtain ⟨mm, hmm⟩ := hfsdir
    have hvA : Visitable fs0 srcT (rel ++ [a]) :=
      vis_child fs0 srcT rel a hroot (by rw [hmm]; rfl)
    obtain ⟨hI, hF⟩ := walkGo_master sys srcT dstT fs0 hd1 hd2 hnoc f (rel ++ [a])
      fsC hinvC (Or.inr ⟨hvA, ⟨mm, hmm⟩⟩)
    refine ⟨hI, ?_⟩
    intro q hq
    exact hF q (untouched_child fs0 srcT dstT rel a q hvA hq)

theorem survF_step (sys : Sys) (srcT dstT : Path) (fs0 : FS) (rel q0 : Path)
    (hd1 : pfxB srcT dstT = false) (hd2 : pfxB dstT srcT = false)
    (hnoc : ∀ rr, Visitable fs0 srcT rr →
      (∀ mm, lookupFS fs0 (srcT ++ rr) ≠ some (Node.dir mm)) →
      ∀ mm, lookupFS fs0 (dstT ++ rr) ≠ some (Node.dir mm))
    (l : List String)
    (hl : ∀ a ∈ l, Visitable fs0 srcT (rel ++ [a]) ∧
      (∀ mm, lookupFS fs0 (srcT ++ (rel ++ [a])) ≠ some (Node.dir mm)) ∧
      pfxB q0 (dstT ++ (rel ++ [a])) = false) :
    ∀ fsC a, a ∈ l →
      SurvRel srcT dstT fs0 q0 fsC
        (defaultCopy sys fsC (srcT ++ rel ++ [a]) (dstT ++ rel ++ [a])).2 := by
  intro fsC a ha hinvC
  obtain ⟨hvA, hndA, hq0⟩ := hl a ha
  obtain ⟨hI, hF⟩ := copy_step sys srcT dstT fs0 hd1 hd2 hnoc (rel ++ [a]) hvA
    hndA fsC hinvC
  have hbridge : defaultCopy sys fsC (srcT ++ rel ++ [a]) (dstT ++ rel ++ [a]) =
      link_or_copy sys fsC (srcT ++ (rel ++ [a])) (dstT ++ (rel ++ [a])) false := by
    simp only [defaultCopy, List.append_assoc]
  rw [hbridge]
  exact ⟨hI, hF q0 hq0⟩

theorem survR_step (sys : Sys) (srcT dstT : Path) (fs0 : FS) (rel q0 : Path)
    (hd1 : pfxB srcT dstT = false) (hd2 : pfxB dstT srcT = false)
    (hnoc : ∀ rr, Visitable fs0 srcT rr →
      (∀ mm, lookupFS fs0 (srcT ++ rr) ≠ some (Node.dir mm)) →
      ∀ mm, lookupFS fs0 (dstT ++ rr) ≠ some (Node.dir mm))
    (f : Nat)
    (hroot : rel = [] ∨ (Visitable fs0 srcT rel ∧ RealDirAt fs0 (srcT ++ rel)))
    (l : List String)
    (hl : ∀ a ∈ l,
      ((∃ mm, lookupFS fs0 (srcT ++ (rel ++ [a])) = some (Node.dir mm)) ∨
       (∃ t mm, lookupFS fs0 (srcT ++ (rel ++ [a])) = some (Node.symlink t mm))) ∧
      (UnTouched fs0 srcT dstT (rel ++ [a]) q0 ∨
       (∃ t mm, lookupFS fs0 (srcT ++ (rel ++ [a])) = some (Node.symlink t mm)))) :
    ∀ fsC a, a ∈ l →
      SurvRel srcT dstT fs0 q0 fsC
        ((if islinkB fsC (srcT ++ rel ++ [a]) then (none, fsC)
          else walkGo sys (defaultCopy sys) srcT dstT f fsC (rel ++ [a])) : R).2 := by
  intro fsC a ha hinvC
  by_cases hlk : islinkB fsC (srcT ++ rel ++ [a]) = true
  · rw [if_pos hlk]
    exact ⟨hinvC, rfl⟩
  · rw [Bool.not_eq_true] at hlk
    rw [if_neg (show ¬(islinkB fsC (srcT ++ rel ++ [a]) = true) from by
      rw [hlk]; exact Bool.false_ne_true)]
    have hnosym2 : ¬(∃ t mm, lookupFS fs0 (srcT ++ (rel ++ [a])) =
        some (Node.symlink t mm)) := by
      rintro ⟨t, mm, hsym⟩
      have hfsC : lookupFS fsC (srcT ++ rel ++ [a]) = some (Node.symlink t mm) := by
        rw [List.append_assoc, hinvC.1 (rel ++ [a])]
        exact hsym
      rw [(islinkB_true_iff fsC _).mpr ⟨t, mm, hfsC⟩] at hlk
      cases hlk
    obtain ⟨hdirfact, huntouch⟩ := hl a ha
    have hfsdir : ∃ mm, lookupFS fs0 (srcT ++ (rel ++ [a])) =
        some (Node.dir mm) := by
      rcases hdirfact with h | h
      · exact h
      · exact absurd h hnosym2
    have hunt : UnTouched fs0 srcT dstT (rel ++ [a]) q0 := by
      rcases huntouch with h | h
      · exact h
      · exact absurd h hnosym2
    obtain ⟨mm, hmm⟩ := hfsdir
    have hvA : Visitable fs0 srcT (rel ++ [a]) :=
      vis_child fs0 srcT rel a hroot (by rw [hmm]; rfl)
    obtain ⟨hI, hF⟩ := walkGo_master sys srcT dstT fs0 hd1 hd2 hnoc f (rel ++ [a])
      fsC hinvC (Or.inr ⟨hvA, ⟨mm, hmm⟩⟩)
    exact ⟨hI, hF q0 hunt⟩

theorem walk_dns_fact (sys : Sys) (srcT dstT : Path) (fs0 fsi : FS) (rel : Path)
    (hinv : WalkInv srcT dstT fs0 fsi) :
    ∀ a ∈ (childNames fsi (srcT ++ rel)).filter
        (fun x => isDirB fsi sys.fuel (srcT ++ rel ++ [x])),
      (∃ mm, lookupFS fs0 (srcT ++ (rel ++ [a])) = some (Node.dir mm)) ∨
      (∃ t mm, lookupFS fs0 (srcT ++ (rel ++ [a])) = some (Node.symlink t mm)) := by
  intro a ha
  have hmem := List.mem_filter.mp ha
  have hne : srcT ++ rel ++ [a] ≠ [] :=
    append_nonempty (srcT ++ rel) [a] (by simp)
  have hraw := isDirB_raw fsi sys.fuel (srcT ++ rel ++ [a]) hne hmem.2
  rcases hraw with ⟨mm, hmm⟩ | ⟨t, mm, hmm⟩
  · left
    refine ⟨mm, ?_⟩
    rw [← hinv.1 (rel ++ [a]), ← List.append_assoc]
    exact hmm
  · right
    refine ⟨t, mm, ?_⟩
    rw [← hinv.1 (rel ++ [a]), ← List.append_assoc]
    exact hmm

theorem walk_fl_fact (sys : Sys) (srcT dstT : Path) (fs0 fsi : FS) (rel : Path)
    (hinv : WalkInv srcT dstT fs0 fsi)
    (hroot : rel = [] ∨ (Visitable fs0 srcT rel ∧ RealDirAt fs0 (srcT ++ rel)))
    (extraD : List String)
    (hex : ∀ a ∈ extraD, ∃ t mm,
      lookupFS fs0 (srcT ++ (rel ++ [a])) = some (Node.symlink t mm)) :
    ∀ a ∈ ((childNames fsi (srcT ++ rel)).filter
        (fun x => !(isDirB fsi sys.fuel (srcT ++ rel ++ [x])))) ++ extraD,
      Visitable fs0 srcT (rel ++ [a]) ∧
      (∀ mm, lookupFS fs0 (srcT ++ (rel ++ [a])) ≠ some (Node.dir mm)) := by
  intro a ha
  rcases List.mem_append.mp ha with hf | he
  · have hmem := List.mem_filter.mp hf
    have hent : (lookupFS fs0 (srcT ++ (rel ++ [a]))).isSome = true := by
      have h1 := childNames_mem_lookup fsi (srcT ++ rel) a hmem.1
      rw [← hinv.1 (rel ++ [a]), ← List.append_assoc]
      exact h1
    refine ⟨vis_child fs0 srcT rel a hroot hent, ?_⟩
    intro mm hcon
    have hnd : isDirB fsi sys.fuel (srcT ++ rel ++ [a]) = false := by
      have h2 := hmem.2
      rwa [Bool.not_eq_true'] at h2
    have hfsi : lookupFS fsi (srcT ++ rel ++ [a]) = some (Node.dir mm) := by
      rw [List.append_assoc, hinv.1 (rel ++ [a])]
      exact hcon
    rw [isDirB_dir fsi sys.fuel _ mm hfsi] at hnd
    cases hnd
  · obtain ⟨t, mm, hsym⟩ := hex a he
    constructor
    · exact vis_child fs0 srcT rel a hroot (by rw [hsym]; rfl)
    · intro mm2 hcon
      rw [hsym] at hcon
      cases hcon

theorem filelist_nodup (sys : Sys) (fsi : FS) (srcT rel : Path)
    (extraD : List String)
    (hsubD : extraD.Sublist ((childNames fsi (srcT ++ rel)).filter
      (fun x => isDirB fsi sys.fuel (srcT ++ rel ++ [x])))) :
    (((childNames fsi (srcT ++ rel)).filter
      (fun x => !(isDirB fsi sys.fuel (srcT ++ rel ++ [x])))) ++ extraD).Nodup := by
  refine List.Nodup.append ?_ ?_ ?_
  · exact List.Nodup.filter _ (childNames_nodup fsi (srcT ++ rel))
  · exact List.Sublist.nodup hsubD
      (List.Nodup.filter _ (childNames_nodup fsi (srcT ++ rel)))
  · intro x hx1 hx2
    have h1 := (List.mem_filter.mp hx1).2
    have h2 := (List.mem_filter.mp (hsubD.subset hx2)).2
    rw [Bool.not_eq_true'] at h1
    rw [h1] at h2
    cases h2

/-- Positive behaviour of the walk on a symlink entry: if the walk succeeds
and `rel ++ rest` is a visitable entry whose source node is a symlink, then
the destination image of that entry holds a symlink with the same target. -/
theorem walkGo_symlink_pos (sys : Sys) (srcT dstT : Path) (fs0 : FS)
    (hd1 : pfxB srcT dstT = false) (hd2 : pfxB dstT srcT = false)
    (hnoc : ∀ rr, Visitable fs0 srcT rr →
      (∀ mm, lookupFS fs0 (srcT ++ rr) ≠ some (Node.dir mm)) →
      ∀ mm, lookupFS fs0 (dstT ++ rr) ≠ some (Node.dir mm))
    (tgt : Path) (ml : Meta) :
    ∀ (fuel : Nat) (rel rest : Path) (fsi fsW : FS),
      WalkInv srcT dstT fs0 fsi →
      (rel = [] ∨ (Visitable fs0 srcT rel ∧ RealDirAt fs0 (srcT ++ rel))) →
      rest ≠ [] →
      Visitable fs0 srcT (rel ++ rest) →
      lookupFS fs0 (srcT ++ (rel ++ rest)) = some (Node.symlink tgt ml) →
      walkGo sys (defaultCopy sys) srcT dstT fuel fsi rel = (none, fsW) →
      ∃ m', lookupFS fsW (dstT ++ (rel ++ rest)) = some (Node.symlink tgt m') := by
  intro fuel
  induction fuel with
  | zero =>
    intro rel rest fsi fsW _ _ _ _ _ hok
    exact absurd hok (by simp [walkGo])
  | succ f ih =>
    intro rel rest fsi fsW hinv hroot hrest hvis hsym hok
    rw [walkGo_succ] at hok
    set nms := childNames fsi (srcT ++ rel) with hnms
    set dns := nms.filter (fun a => isDirB fsi sys.fuel (srcT ++ rel ++ [a]))
      with hdns
    set fls := nms.filter (fun a => !(isDirB fsi sys.fuel (srcT ++ rel ++ [a])))
      with hfls
    have hdnsfact : ∀ a ∈ dns,
        (∃ mm, lookupFS fs0 (srcT ++ (rel ++ [a])) = some (Node.dir mm)) ∨
        (∃ t mm, lookupFS fs0 (srcT ++ (rel ++ [a])) = some (Node.symlink t mm)) := by
      rw [hdns, hnms]
      exact walk_dns_fact sys srcT dstT fs0 fsi rel hinv
    have hstepDl := stepD_of_facts sys srcT dstT fs0 rel hd1 hd2 hroot dns hdnsfact
    cases hD : dns.foldl (dirStepF sys srcT dstT rel) ((none, fsi), []) with
    | mk PD extraD =>
      rw [hD] at hok
      obtain ⟨eD, fsD⟩ := PD
      cases eD with
      | some e =>
        exfalso
        simp only [andThen] at hok
        exact absurd hok (by simp)
      | none =>
        simp only [andThen] at hok
        obtain ⟨hinvD, hframeD, sub, hsubeq, hsublist, hsubfact⟩ :=
          dirfold_rel sys srcT dstT fs0 rel dns hstepDl ((none, fsi), [])
            ((none, fsD), extraD) hD hinv
        simp only [List.nil_append] at hsubeq
        have hexfact : ∀ a ∈ extraD, ∃ t mm,
            lookupFS fs0 (srcT ++ (rel ++ [a])) = some (Node.symlink t mm) := by
          intro a ha
          refine hsubfact a ?_
          rw [← hsubeq]
          exact ha
        have hflfact : ∀ a ∈ fls ++ extraD, Visitable fs0 srcT (rel ++ [a]) ∧
            (∀ mm, lookupFS fs0 (srcT ++ (rel ++ [a])) ≠ some (Node.dir mm)) := by
          rw [hfls, hnms]
          exact walk_fl_fact sys srcT dstT fs0 fsi rel hinv hroot extraD hexfact
        have hnodupF : (fls ++ extraD).Nodup := by
          rw [hfls, hnms]
          refine filelist_nodup sys fsi srcT rel extraD ?_
          rw [← hnms, ← hdns, hsubeq]
          exact hsublist
        have hstepFl := stepF_of_facts sys srcT dstT fs0 rel hd1 hd2 hnoc
          (fls ++ extraD) hflfact
        cases hFf : (fls ++ extraD).foldl
            (copyStepF (defaultCopy sys) srcT dstT rel) (none, fsD) with
        | mk eF fsF =>
          rw [hFf] at hok
          cases eF with
          | some e =>
            exfalso
            simp only [andThen] at hok
            exact absurd hok (by simp)
          | none =>
            simp only [andThen] at hok
            have hfileRel : StepRel srcT dstT fs0 rel fsD fsF := by
              have h := foldl_preserves_mem (StepRel srcT dstT fs0 rel)
                (stepRel_refl srcT dstT fs0 rel) (stepRel_trans srcT dstT fs0 rel)
                (fun fsC a => defaultCopy sys fsC (srcT ++ rel ++ [a])
                  (dstT ++ rel ++ [a]))
                (fls ++ extraD) hstepFl (none, fsD)
              have heq : (fls ++ extraD).foldl (fun (r : R) (a : String) =>
                  andThen r (fun fsC => defaultCopy sys fsC (srcT ++ rel ++ [a])
                    (dstT ++ rel ++ [a]))) (none, fsD) =
                  (fls ++ extraD).foldl (copyStepF (defaultCopy sys) srcT dstT rel)
                    (none, fsD) := rfl
              rw [heq, hFf] at h
              exact h
            obtain ⟨hinvF, _⟩ := hfileRel hinvD
            cases rest with
            | nil => exact absurd rfl hrest
            | cons b rest' =>
              cases rest' with
              | nil =>
                have hndB : ∀ mm, lookupFS fs0 (srcT ++ (rel ++ [b])) ≠
                    some (Node.dir mm) := by
                  intro mm hcon
                  rw [hsym] at hcon
                  cases hcon
                have hbn : b ∈ nms := by
                  rw [hnms]
                  refine mem_childNames_of_lookup fsi (srcT ++ rel) b ?_
                  rw [List.append_assoc, hinv.1 (rel ++ [b]), hsym]
                  rfl
                have hbmem : b ∈ fls ++ extraD := by
                  by_cases hcls : isDirB fsi sys.fuel (srcT ++ rel ++ [b]) = true
                  · have hbdns : b ∈ dns := by
                      rw [hdns]
                      exact List.mem_filter.mpr ⟨hbn, hcls⟩
                    exact List.mem_append_right fls
                      (dirfold_symlink_mem sys srcT dstT fs0 rel b ⟨tgt, ml, hsym⟩
                        dns (fun fsX x hx hl2 hIX => (hstepDl fsX x hx hl2 hIX).1)
                        ((none, fsi), []) ((none, fsD), extraD) hD rfl hinv rfl
                        (Or.inr hbdns))
                  · refine List.mem_append_left extraD ?_
                    rw [hfls]
                    refine List.mem_filter.mpr ⟨hbn, ?_⟩
                    rw [Bool.not_eq_true] at hcls
                    rw [hcls]
                    rfl
                obtain ⟨l1, l2, hll⟩ := List.append_of_mem hbmem
                have hbl2 : b ∉ l2 := by
                  rw [hll] at hnodupF
                  exact (List.nodup_cons.mp (List.Nodup.of_append_right hnodupF)).1
                rw [hll] at hFf
                obtain ⟨fsP, fsQ, hP, hQ, hRest⟩ := foldl_andThen_split
                  (fun fsC a => defaultCopy sys fsC (srcT ++ rel ++ [a])
                    (dstT ++ rel ++ [a])) l1 l2 b fsD fsF hFf
                have hinvP : WalkInv srcT dstT fs0 fsP := by
                  have hst1 : ∀ fsX a, a ∈ l1 → StepRel srcT dstT fs0 rel fsX
                      (defaultCopy sys fsX (srcT ++ rel ++ [a])
                        (dstT ++ rel ++ [a])).2 := by
                    intro fsX a ha
                    refine hstepFl fsX a ?_
                    rw [hll]
                    exact List.mem_append_left _ ha
                  have h := foldl_preserves_mem (StepRel srcT dstT fs0 rel)
                    (stepRel_refl srcT dstT fs0 rel) (stepRel_trans srcT dstT fs0 rel)
                    (fun fsC a => defaultCopy sys fsC (srcT ++ rel ++ [a])
                      (dstT ++ rel ++ [a])) l1 hst1 (none, fsD)
                  rw [hP] at h
                  exact (h hinvD).1
                have hQ' : link_or_copy sys fsP (srcT ++ (rel ++ [b]))
                    (dstT ++ (rel ++ [b])) false = (none, fsQ) := by
                  rw [show link_or_copy sys fsP (srcT ++ (rel ++ [b]))
                      (dstT ++ (rel ++ [b])) false =
                      defaultCopy sys fsP (srcT ++ rel ++ [b]) (dstT ++ rel ++ [b])
                      from by simp only [defaultCopy, List.append_assoc]]
                  exact hQ
                obtain ⟨m', hm'⟩ := copy_step_symlink sys srcT dstT fs0 hd1 hd2 hnoc
                  (rel ++ [b]) tgt ml hvis hsym fsP fsQ hinvP hQ'
                have hinvQ : WalkInv srcT dstT fs0 fsQ := by
                  obtain ⟨hI, _⟩ := copy_step sys srcT dstT fs0 hd1 hd2 hnoc
                    (rel ++ [b]) hvis hndB fsP hinvP
                  rw [hQ'] at hI
                  exact hI
                have hsurvF : WalkInv srcT dstT fs0 fsF ∧
                    lookupFS fsF (dstT ++ (rel ++ [b])) =
                      lookupFS fsQ (dstT ++ (rel ++ [b])) := by
                  have hsl2 : ∀ a ∈ l2, Visitable fs0 srcT (rel ++ [a]) ∧
                      (∀ mm, lookupFS fs0 (srcT ++ (rel ++ [a])) ≠
                        some (Node.dir mm)) ∧
                      pfxB (dstT ++ (rel ++ [b])) (dstT ++ (rel ++ [a])) = false := by
                    intro a ha
                    have hmem : a ∈ fls ++ extraD := by
                      rw [hll]
                      exact List.mem_append_right l1 (List.mem_cons_of_mem b ha)
                    obtain ⟨h1, h2⟩ := hflfact a hmem
                    refine ⟨h1, h2, ?_⟩
                    have hab : a ≠ b := fun hcon => hbl2 (hcon ▸ ha)
                    have h3 := untouched_sibling fs0 srcT dstT rel a b [] hab
                    exact h3 (rel ++ [a]) (pfxB_refl (rel ++ [a])) (Or.inl rfl)
                  have hstepS := survF_step sys srcT dstT fs0 rel
                    (dstT ++ (rel ++ [b])) hd1 hd2 hnoc l2 hsl2
                  have h := foldl_preserves_mem
                    (SurvRel srcT dstT fs0 (dstT ++ (rel ++ [b])))
                    (survRel_refl srcT dstT fs0 (dstT ++ (rel ++ [b])))
                    (survRel_trans srcT dstT fs0 (dstT ++ (rel ++ [b])))
                    (fun fsC a => defaultCopy sys fsC (srcT ++ rel ++ [a])
                      (dstT ++ rel ++ [a])) l2 hstepS (none, fsQ)
                  rw [hRest] at h
                  exact h hinvQ
                have hsurvR : lookupFS fsW (dstT ++ (rel ++ [b])) =
                    lookupFS fsF (dstT ++ (rel ++ [b])) := by
                  have hsl3 : ∀ a ∈ dns,
                      ((∃ mm, lookupFS fs0 (srcT ++ (rel ++ [a])) =
                          some (Node.dir mm)) ∨
                       (∃ t mm, lookupFS fs0 (srcT ++ (rel ++ [a])) =
                          some (Node.symlink t mm))) ∧
                      (UnTouched fs0 srcT dstT (rel ++ [a]) (dstT ++ (rel ++ [b])) ∨
                       (∃ t mm, lookupFS fs0 (srcT ++ (rel ++ [a])) =
                          some (Node.symlink t mm))) := by
                    intro a ha
                    refine ⟨hdnsfact a ha, ?_⟩
                    by_cases hab : a = b
                    · subst hab
                      exact Or.inr ⟨tgt, ml, hsym⟩
                    · exact Or.inl (untouched_sibling fs0 srcT dstT rel a b [] hab)
                  have hstepS := survR_step sys srcT dstT fs0 rel
                    (dstT ++ (rel ++ [b])) hd1 hd2 hnoc f hroot dns hsl3
                  have h := foldl_preserves_mem
                    (SurvRel srcT dstT fs0 (dstT ++ (rel ++ [b])))
                    (survRel_refl srcT dstT fs0 (dstT ++ (rel ++ [b])))
                    (survRel_trans srcT dstT fs0 (dstT ++ (rel ++ [b])))
                    (fun fsC a => ((if islinkB fsC (srcT ++ rel ++ [a]) then
                      (none, fsC)
                      else walkGo sys (defaultCopy sys) srcT dstT f fsC
                        (rel ++ [a])) : R))
                    dns hstepS (none, fsF)
                  have heq : dns.foldl (fun (r : R) (a : String) =>
                      andThen r (fun fsC =>
                        ((if islinkB fsC (srcT ++ rel ++ [a]) then (none, fsC)
                          else walkGo sys (defaultCopy sys) srcT dstT f fsC
                            (rel ++ [a])) : R))) (none, fsF) =
                      dns.foldl (recStepF sys (defaultCopy sys) srcT dstT f rel)
                        (none, fsF) := rfl
                  rw [heq, hok] at h
                  exact (h hsurvF.1).2
                refine ⟨m', ?_⟩
                rw [hsurvR, hsurvF.2]
                exact hm'
              | cons b2 rest2 =>
                have hpfxb : pfxB (rel ++ [b]) (rel ++ b :: b2 :: rest2) = true := by
                  refine pfxB_append_right rel [b] (b :: b2 :: rest2) ?_
                  simp [pfxB]
                have hneb : rel ++ [b] ≠ rel ++ b :: b2 :: rest2 := by
                  intro hcon
                  have h1 := congrArg List.length hcon
                  simp [List.length_append] at h1
                have hvB : Visitable fs0 srcT (rel ++ [b]) :=
                  vis_pfx fs0 srcT (rel ++ b :: b2 :: rest2) (rel ++ [b]) hvis
                    hpfxb (append_nonempty rel [b] (by simp))
                obtain ⟨mB, hmB⟩ := hvis.2.2 (rel ++ [b]) hpfxb
                  (append_nonempty rel [b] (by simp)) hneb
                have hbn : b ∈ nms := by
                  rw [hnms]
                  refine mem_childNames_of_lookup fsi (srcT ++ rel) b ?_
                  rw [List.append_assoc, hinv.1 (rel ++ [b]), hmB]
                  rfl
                have hbfsi : lookupFS fsi (srcT ++ rel ++ [b]) =
                    some (Node.dir mB) := by
                  rw [List.append_assoc, hinv.1 (rel ++ [b])]
                  exact hmB
                have hbdns : b ∈ dns := by
                  rw [hdns]
                  exact List.mem_filter.mpr ⟨hbn, isDirB_dir fsi sys.fuel _ mB hbfsi⟩
                have hnodupD : dns.Nodup := by
                  rw [hdns, hnms]
                  exact List.Nodup.filter _ (childNames_nodup fsi (srcT ++ rel))
                obtain ⟨l1, l2, hll⟩ := List.append_of_mem hbdns
                have hbl2 : b ∉ l2 := by
                  rw [hll] at hnodupD
                  exact (List.nodup_cons.mp (List.Nodup.of_append_right hnodupD)).1
                have hstepRl := stepR_of_facts sys srcT dstT fs0 rel hd1 hd2 hnoc f
                  hroot dns hdnsfact
                rw [hll] at hok
                obtain ⟨fsP, fsQ, hP, hQ, hRest⟩ := foldl_andThen_split
                  (fun fsC a => ((if islinkB fsC (srcT ++ rel ++ [a]) then (none, fsC)
                    else walkGo sys (defaultCopy sys) srcT dstT f fsC
                      (rel ++ [a])) : R))
                  l1 l2 b fsF fsW hok
                have hinvP : WalkInv srcT dstT fs0 fsP := by
                  have hst1 : ∀ fsX a, a ∈ l1 → StepRel srcT dstT fs0 rel fsX
                      ((if islinkB fsX (srcT ++ rel ++ [a]) then (none, fsX)
                        else walkGo sys (defaultCopy sys) srcT dstT f fsX
                          (rel ++ [a])) : R).2 := by
                    intro fsX a ha
                    refine hstepRl fsX a ?_
                    rw [hll]
                    exact List.mem_append_left _ ha
                  have h := foldl_preserves_mem (StepRel srcT dstT fs0 rel)
                    (stepRel_refl srcT dstT fs0 rel) (stepRel_trans srcT dstT fs0 rel)
                    (fun fsC a => ((if islinkB fsC (srcT ++ rel ++ [a]) then (none, fsC)
                      else walkGo sys (defaultCopy sys) srcT dstT f fsC
                        (rel ++ [a])) : R))
                    l1 hst1 (none, fsF)
                  rw [hP] at h
                  exact (h hinvF).1
                have hlkP : islinkB fsP (srcT ++ rel ++ [b]) = false := by
                  cases hB : islinkB fsP (srcT ++ rel ++ [b]) with
                  | false => rfl
                  | true =>
                    exfalso
                    obtain ⟨t2, mm2, hsl⟩ := (islinkB_true_iff _ _).mp hB
                    rw [List.append_assoc, hinvP.1 (rel ++ [b]), hmB] at hsl
                    exact absurd hsl (by simp)
                have hQ' : walkGo sys (defaultCopy sys) srcT dstT f fsP (rel ++ [b]) =
                    (none, fsQ) := by
                  rw [if_neg (show ¬(islinkB fsP (srcT ++ rel ++ [b]) = true) from by
                    rw [hlkP]; exact Bool.false_ne_true)] at hQ
                  exact hQ
                have hvis2 : Visitable fs0 srcT ((rel ++ [b]) ++ b2 :: rest2) := by
                  rw [List.append_assoc, List.singleton_append]
                  exact hvis
                have hsym2 : lookupFS fs0 (srcT ++ ((rel ++ [b]) ++ b2 :: rest2)) =
                    some (Node.symlink tgt ml) := by
                  rw [List.append_assoc, List.singleton_append]
                  exact hsym
                obtain ⟨m', hm'⟩ := ih (rel ++ [b]) (b2 :: rest2) fsP fsQ hinvP
                  (Or.inr ⟨hvB, ⟨mB, hmB⟩⟩) (by simp) hvis2 hsym2 hQ'
                have hinvQ : WalkInv srcT dstT fs0 fsQ := by
                  obtain ⟨hI, _⟩ := walkGo_master sys srcT dstT fs0 hd1 hd2 hnoc f
                    (rel ++ [b]) fsP hinvP (Or.inr ⟨hvB, ⟨mB, hmB⟩⟩)
                  rw [hQ'] at hI
                  exact hI
                have hsurvR : lookupFS fsW (dstT ++ (rel ++ b :: b2 :: rest2)) =
                    lookupFS fsQ (dstT ++ (rel ++ b :: b2 :: rest2)) := by
                  have hsl3 : ∀ a ∈ l2,
                      ((∃ mm, lookupFS fs0 (srcT ++ (rel ++ [a])) =
                          some (Node.dir mm)) ∨
                       (∃ t mm, lookupFS fs0 (srcT ++ (rel ++ [a])) =
                          some (Node.symlink t mm))) ∧
                      (UnTouched fs0 srcT dstT (rel ++ [a])
                          (dstT ++ (rel ++ b :: b2 :: rest2)) ∨
                       (∃ t mm, lookupFS fs0 (srcT ++ (rel ++ [a])) =
                          some (Node.symlink t mm))) := by
                    intro a ha
                    have hadns : a ∈ dns := by
                      rw [hll]
                      exact List.mem_append_right l1 (List.mem_cons_of_mem b ha)
                    refine ⟨hdnsfact a hadns, Or.inl ?_⟩
                    have hab : a ≠ b := fun hcon => hbl2 (hcon ▸ ha)
                    exact untouched_sibling fs0 srcT dstT rel a b (b2 :: rest2) hab
                  have hstepS := survR_step sys srcT dstT fs0 rel
                    (dstT ++ (rel ++ b :: b2 :: rest2)) hd1 hd2 hnoc f hroot l2 hsl3
                  have h := foldl_preserves_mem
                    (SurvRel srcT dstT fs0 (dstT ++ (rel ++ b :: b2 :: rest2)))
                    (survRel_refl srcT dstT fs0 (dstT ++ (rel ++ b :: b2 :: rest2)))
                    (survRel_trans srcT dstT fs0 (dstT ++ (rel ++ b :: b2 :: rest2)))
                    (fun fsC a => ((if islinkB fsC (srcT ++ rel ++ [a]) then (none, fsC)
                      else walkGo sys (defaultCopy sys) srcT dstT f fsC
                        (rel ++ [a])) : R))
                    l2 hstepS (none, fsQ)
                  rw [hRest] at h
                  exact (h hinvQ).2
                refine ⟨m', ?_⟩
                rw [hsurvR]
                rw [show dstT ++ (rel ++ b :: b2 :: rest2) =
                  dstT ++ ((rel ++ [b]) ++ b2 :: rest2) from by
                    rw [List.append_assoc, List.singleton_append]]
                exact hm'

/-- C4: during `link_or_copy_tree`'s walk (trees prefix-disjoint, no
source-entry/destination-directory collisions), a subdirectory entry that is
itself a symbolic link is treated as a file: on success the copy strategy has
reproduced the symlink itself (same target) at the entry's destination
image, no destination directory stands there, and the walk did not descend
into it — every path strictly below the image is unchanged. -/
theorem link_or_copy_tree_symlink_dir (sys : Sys) (fs fs' : FS)
    (srcT dstT rel tgt : Path) (ml : Meta)
    (hok : link_or_copy_tree sys (defaultCopy sys) fs srcT dstT = (none, fs'))
    (hd1 : pfxB srcT dstT = false) (hd2 : pfxB dstT srcT = false)
    (hnoc : ∀ rr, Visitable fs srcT rr →
      (∀ mm, lookupFS fs (srcT ++ rr) ≠ some (Node.dir mm)) →
      ∀ mm, lookupFS fs (dstT ++ rr) ≠ some (Node.dir mm))
    (hvis : Visitable fs srcT rel)
    (hsym : lookupFS fs (srcT ++ rel) = some (Node.symlink tgt ml)) :
    (∃ m', lookupFS fs' (dstT ++ rel) = some (Node.symlink tgt m')) ∧
    (∀ mm, lookupFS fs' (dstT ++ rel) ≠ some (Node.dir mm)) ∧
    (∀ rext, rext ≠ [] →
      lookupFS fs' (dstT ++ (rel ++ rext)) = lookupFS fs (dstT ++ (rel ++ rext))) := by
  unfold link_or_copy_tree at hok
  by_cases hg1 : (!isDirB fs sys.fuel srcT) = true
  · rw [if_pos hg1] at hok
    exact absurd hok (by simp)
  rw [if_neg hg1] at hok
  by_cases hg2 : (!isDirB fs sys.fuel dstT && pathExistsB fs sys.fuel dstT) = true
  · rw [if_pos hg2] at hok
    exact absurd hok (by simp)
  rw [if_neg hg2] at hok
  obtain ⟨fs1, hcsd, hwalk⟩ := (andThen_ok_iff _ _ _).mp hok
  have hdstne : dstT ≠ [] := by
    intro hcon
    rw [hcon] at hd2
    simp [pfxB] at hd2
  have hrel : CsdRel dstT fs fs1 := by
    have h := csd_changes sys fs srcT dstT hdstne
    rw [hcsd] at h
    exact h
  have hinv1 : WalkInv srcT dstT fs fs1 := by
    constructor
    · intro a
      rcases hrel (srcT ++ a) with h1 | ⟨_, h1b, _⟩ | ⟨h1a, _⟩
      · exact h1
      · exfalso
        have h2 : pfxB srcT dstT = true :=
          pfxB_trans srcT (srcT ++ a) dstT (pfxB_append srcT a) h1b
        rw [h2] at hd1; cases hd1
      · exfalso
        have h2 : pfxB srcT dstT = true := by
          rw [← h1a]; exact pfxB_append srcT a
        rw [h2] at hd1; cases hd1
    · intro p mm hp hdir
      rcases hrel (dstT ++ p) with h1 | ⟨_, h1b, _⟩ | ⟨h1a, _⟩
      · rw [h1] at hdir
        exact Or.inl ⟨mm, hdir⟩
      · exfalso
        have h2 := pfxB_length (dstT ++ p) dstT h1b
        rw [List.length_append] at h2
        have h3 : 0 < p.length := List.length_pos.mpr hp
        omega
      · exfalso
        have h3 := congrArg List.length h1a
        rw [List.length_append] at h3
        have h4 : p.length = 0 := by omega
        exact hp (List.eq_nil_of_length_eq_zero h4)
  have hpos : ∃ m', lookupFS fs' (dstT ++ rel) = some (Node.symlink tgt m') := by
    have h := walkGo_symlink_pos sys srcT dstT fs hd1 hd2 hnoc tgt ml sys.fuel
      [] rel fs1 fs' hinv1 (Or.inl rfl) hvis.1
      (by rw [List.nil_append]; exact hvis)
      (by rw [List.nil_append]; exact hsym) hwalk
    rw [List.nil_append] at h
    exact h
  refine ⟨hpos, ?_, ?_⟩
  · intro mm hcon
    obtain ⟨m', hm'⟩ := hpos
    rw [hm'] at hcon
    cases hcon
  · intro rext hrext
    obtain ⟨_, hframe⟩ := walkGo_master sys srcT dstT fs hd1 hd2 hnoc sys.fuel []
      fs1 hinv1 (Or.inl rfl)
    rw [hwalk] at hframe
    have hlen2 : 0 < rel.length := List.length_pos.mpr hvis.1
    have hlen3 : 0 < rext.length := List.length_pos.mpr hrext
    have hunq : UnTouched fs srcT dstT [] (dstT ++ (rel ++ rext)) := by
      intro r' hpfx hcase
      rcases hcase with hnil | hvisr
      · subst hnil
        rw [List.append_nil]
        refine pfxB_false_of_longer (dstT ++ (rel ++ rext)) dstT ?_
        rw [List.length_append, List.length_append]
        omega
      · rcases Bool.eq_false_or_eq_true
          (pfxB (dstT ++ (rel ++ rext)) (dstT ++ r')) with ht | hf
        · exfalso
          have hpr : pfxB (rel ++ rext) r' = true := pfxB_cancel dstT _ r' ht
          have hprel : pfxB rel r' = true :=
            pfxB_trans rel (rel ++ rext) r' (pfxB_append rel rext) hpr
          have hner : rel ≠ r' := by
            intro hcon
            subst hcon
            have h5 := pfxB_length (rel ++ rext) rel hpr
            rw [List.length_append] at h5
            omega
          obtain ⟨mR, hmR⟩ := hvisr.2.2 rel hprel hvis.1 hner
          rw [hsym] at hmR
          cases hmR
        · exact hf
    have h1 := hframe (dstT ++ (rel ++ rext)) hunq
    have h2 : lookupFS fs1 (dstT ++ (rel ++ rext)) =
        lookupFS fs (dstT ++ (rel ++ rext)) := by
      rcases hrel (dstT ++ (rel ++ rext)) with h3 | ⟨_, h3b, _⟩ | ⟨h3a, _⟩
      · exact h3
      · exfalso
        have h4 := pfxB_length (dstT ++ (rel ++ rext)) dstT h3b
        rw [List.length_append, List.length_append] at h4
        omega
      · exfalso
        have h4 := congrArg List.length h3a
        rw [List.length_append, List.length_append] at h4
        omega
    rw [show lookupFS fs' (dstT ++ (rel ++ rext)) =
      lookupFS fs1 (dstT ++ (rel ++ rext)) from h1, h2]

/-- Witness for C4 on a concrete filesystem: `s/l` is a symlink to the
directory `t`; copying tree `s` over `d` reproduces the symlink at `d/l`
(and creates no directory there). -/
theorem link_or_copy_tree_symlink_dir_witness :
    lookupFS wFS4 (["s"] ++ ["l"]) = some (Node.symlink ["t"] wMeta) ∧
    (∃ m', lookupFS (link_or_copy_tree wSys (defaultCopy wSys) wFS4 ["s"] ["d"]).2
      (["d"] ++ ["l"]) = some (Node.symlink ["t"] m')) ∧
    (∀ mm, lookupFS (link_or_copy_tree wSys (defaultCopy wSys) wFS4 ["s"] ["d"]).2
      (["d"] ++ ["l"]) ≠ some (Node.dir mm)) := by
  have hnocW : ∀ rr, Visitable wFS4 ["s"] rr →
      (∀ mm, lookupFS wFS4 (["s"] ++ rr) ≠ some (Node.dir mm)) →
      ∀ mm, lookupFS wFS4 (["d"] ++ rr) ≠ some (Node.dir mm) := by
    intro rr hv _ mm hcon
    cases rr with
    | nil => exact hv.1 rfl
    | cons x xs =>
      rw [show (["d"] : Path) ++ x :: xs = "d" :: x :: xs from rfl] at hcon
      have hnone : lookupFS wFS4 ("d" :: x :: xs) = none := by
        unfold wFS4
        simp only [lookupFS]
        rw [if_neg (fun h => by injection h with h1 _; exact absurd h1 (by decide)),
            if_neg (fun h => by injection h with h1 _; exact absurd h1 (by decide)),
            if_neg (fun h => by injection h with h1 _; exact absurd h1 (by decide)),
            if_neg (fun h => by injection h with h1 _; exact absurd h1 (by decide)),
            if_neg (fun h => by injection h with _ h2; cases h2)]
      rw [hnone] at hcon
      cases hcon
  have hvisW : Visitable wFS4 ["s"] ["l"] := by
    refine ⟨by decide, by decide, ?_⟩
    intro s hs hne hner
    exfalso
    have h1 := pfxB_length s ["l"] hs
    rw [List.length_singleton] at h1
    have h2 : 0 < s.length := List.length_pos.mpr hne
    exact hner (pfxB_eq_of_length s ["l"] hs (by rw [List.length_singleton]; omega))
  obtain ⟨hpos, hnd, _⟩ := link_or_copy_tree_symlink_dir wSys wFS4
    (link_or_copy_tree wSys (defaultCopy wSys) wFS4 ["s"] ["d"]).2
    ["s"] ["d"] ["l"] ["t"] wMeta (by decide) (by decide) (by decide)
    hnocW hvisW (by decide)
  exact ⟨by decide, hpos, hnd⟩

end FileUtils
